import Mathlib

/-!
# Verification of the `bevy_graph` storage core

A shallow embedding of the `bevy_graph` crate (generational slot arenas,
adjacency storage, the four graph variants, and breadth-first search),
together with proofs checking the crate's specification against the code.

Conventions of the embedding:
* Rust machine integers that index slots / count versions are modelled as
  `Nat` (no arithmetic in the source ever wraps: versions and indices only
  grow by increments).
* `&mut self` methods become state-passing functions returning a pair of
  result and updated graph.
* A Rust `panic!` / `unwrap` on `None` / `todo!()` / UB of an `unsafe`
  accessor used outside its contract is modelled by an outer `Option`
  (`none` = the call does not return normally); the error monad of the
  checked API is `Except GraphError`.
* `hashbrown::HashMap` is modelled as an association list without duplicate
  keys.  Its iteration order is implementation defined in the source; the
  model iterates most-recently-inserted first, the order pinned by the
  repository's own `basic_imperative_bfs` test (which asserts the BFS
  visit order `[0, 2, 1, 3]`, only realisable when the map of node `0`
  yields neighbour `2` before neighbour `1`).
* The Rust argument name `from` is rendered `src` (`from` is a Lean
  keyword).
-/

set_option autoImplicit false

namespace BevyGraph

/-- `graphs/keys.rs`: `new_key_type! { pub struct NodeIdx; pub struct EdgeIdx; }`.
A slotmap key encodes a slot position plus a generation ("version") counter;
equality is by raw encoded value. -/
structure KeyData where
  idx : Nat
  version : Nat
deriving DecidableEq

/-- `NodeIdx` is a slotmap key (see `graphs/keys.rs`). -/
abbrev NodeIdx := KeyData

/-- `EdgeIdx` is a slotmap key (see `graphs/keys.rs`). -/
abbrev EdgeIdx := KeyData

/-- One slot of a generational arena: its current version and, when the
version is the one of a live entry, the stored value.  Occupied slots hold
`some` value. -/
structure Slot (α : Type) where
  version : Nat
  value : Option α
deriving DecidableEq

/-- Model of `slotmap::HopSlotMap`: a vector of versioned slots plus a free
list of vacant slot positions (most recently freed first). -/
structure SlotMap (α : Type) where
  slots : List (Slot α)
  free : List Nat
deriving DecidableEq

namespace SlotMap

/-- `HopSlotMap::with_key()` — the empty arena. -/
def empty {α : Type} : SlotMap α := ⟨[], []⟩

/-- `HopSlotMap::get`: a key resolves iff its slot exists, the versions
agree and the slot is occupied. -/
def get {α : Type} (m : SlotMap α) (k : KeyData) : Option α :=
  match m.slots[k.idx]? with
  | some s => if s.version = k.version then s.value else none
  | none => none

/-- `HopSlotMap::contains_key`. -/
def containsKey {α : Type} (m : SlotMap α) (k : KeyData) : Bool :=
  (m.get k).isSome

/-- `HopSlotMap::insert`: reuse the most recently freed slot (bumping its
version to the next generation), else append a fresh slot at version 1.
Returns the new key. -/
def insert {α : Type} (m : SlotMap α) (v : α) : KeyData × SlotMap α :=
  match m.free with
  | [] => (⟨m.slots.length, 1⟩, ⟨m.slots ++ [⟨1, some v⟩], []⟩)
  | i :: rest =>
    match m.slots[i]? with
    | some s => (⟨i, s.version + 1⟩, ⟨m.slots.set i ⟨s.version + 1, some v⟩, rest⟩)
    | none => (⟨m.slots.length, 1⟩, ⟨m.slots ++ [⟨1, some v⟩], rest⟩)

/-- `HopSlotMap::remove`: when the key is live, vacate the slot, bump its
version and push the position on the free list; otherwise no change. -/
def remove {α : Type} (m : SlotMap α) (k : KeyData) : Option α × SlotMap α :=
  match m.get k with
  | some v => (some v, ⟨m.slots.set k.idx ⟨k.version + 1, none⟩, k.idx :: m.free⟩)
  | none => (none, m)

/-- `HopSlotMap::len`: the number of occupied slots. -/
def len {α : Type} (m : SlotMap α) : Nat :=
  m.slots.countP (fun s => s.value.isSome)

/-- Internal consistency of the free list: positions are pairwise distinct
and every listed position is an existing, vacant slot.  This holds for every
arena the code can build. -/
def WFfree {α : Type} (m : SlotMap α) : Prop :=
  m.free.Nodup ∧ ∀ i ∈ m.free, ∃ s, m.slots[i]? = some s ∧ s.value = none

/-- Iteration over a `HopSlotMap` (`for (key, value) in &map`): live entries
in slot-index order. -/
def entries {α : Type} (m : SlotMap α) : List (KeyData × α) :=
  m.slots.enum.filterMap fun p =>
    match p.2.value with
    | some v => some (⟨p.1, p.2.version⟩, v)
    | none => none

end SlotMap

namespace AList

/-- `hashbrown::HashMap::contains_key` on the association-list model. -/
def containsKey {β : Type} (l : List (KeyData × β)) (k : KeyData) : Bool :=
  l.any (fun p => p.1 = k)

/-- `hashbrown::HashMap::get` on the association-list model. -/
def get {β : Type} (l : List (KeyData × β)) (k : KeyData) : Option β :=
  (l.find? (fun p => p.1 = k)).map (fun p => p.2)

/-- `hashbrown::HashMap::remove` on the association-list model (the lists we
maintain never hold a key twice, so filtering is the removal of the entry). -/
def eraseKey {β : Type} (l : List (KeyData × β)) (k : KeyData) : List (KeyData × β) :=
  l.filter (fun p => ¬(p.1 = k))

/-- `hashbrown::HashMap::insert_unique_unchecked` / `insert` of a key known
to be absent: a new entry, iterated before the older ones (see the module
comment on iteration order). -/
def insertNew {β : Type} (l : List (KeyData × β)) (k : KeyData) (v : β) :
    List (KeyData × β) :=
  (k, v) :: l

end AList

/- `slotmap::SecondaryMap` keyed by `NodeIdx`, modelled as an association
list on full keys (a secondary slot stores the version of the key it was
inserted with, so lookups match only the exact generation). -/
namespace SecMap

/-- `SecondaryMap::insert`: overwrite whatever occupies the key's slot. -/
def insert {β : Type} (l : List (KeyData × β)) (k : KeyData) (v : β) :
    List (KeyData × β) :=
  (k, v) :: l.filter (fun p => ¬(p.1.idx = k.idx))

/-- `SecondaryMap::get`. -/
def get {β : Type} (l : List (KeyData × β)) (k : KeyData) : Option β :=
  AList.get l k

/-- `SecondaryMap::remove`. -/
def remove {β : Type} (l : List (KeyData × β)) (k : KeyData) :
    List (KeyData × β) :=
  AList.eraseKey l k

/-- Mutation through `SecondaryMap::get_unchecked_mut(k)`: apply `f` to the
entry of `k`.  Using the accessor on an absent key is UB in the source; the
model then changes nothing. -/
def modify {β : Type} (l : List (KeyData × β)) (k : KeyData) (f : β → β) :
    List (KeyData × β) :=
  l.map (fun p => if p.1 = k then (p.1, f p.2) else p)

end SecMap

/-- `graphs/edge.rs` (the file itself is not under `src/`; the shape is
fixed by its many callers): an edge record `{ src, dst, data }` with
`indices()` returning the endpoint pair. -/
structure Edge (E : Type) where
  src : NodeIdx
  dst : NodeIdx
  data : E
deriving DecidableEq

/-- `error.rs` (not under `src/`): the closed error enumeration.  Variants
are reconstructed from the match arms of the callers in `src/`; the spec
names them `NodeNotFound` / `EdgeNotFound` / `Loop` / `DuplicateEdge`, the
code of the simple graphs uses `NodeIdxDoesntExist` / `EdgeIdxDoesntExist` /
`EdgeBetweenSameNode` / `EdgeBetweenAlreadyExists`, and the newer multi-map
file uses `NodeNotFound`. -/
inductive GraphError
  | NodeIdxDoesntExist (node : NodeIdx)
  | EdgeIdxDoesntExist (edge : EdgeIdx)
  | EdgeBetweenSameNode (node : NodeIdx)
  | EdgeBetweenAlreadyExists (src : NodeIdx) (dst : NodeIdx)
  | NodeNotFound (node : NodeIdx)
deriving DecidableEq

/-- `graphs/simple/map.rs`: `SimpleMapGraph<N, E, const DIRECTED: bool>`.
The `DIRECTED` const generic is passed explicitly to each operation. -/
structure SimpleMapGraph (N E : Type) where
  nodes : SlotMap N
  edges : SlotMap (Edge E)
  adjacencies : List (NodeIdx × List (NodeIdx × EdgeIdx))
deriving DecidableEq

namespace SimpleMapGraph

variable {N E : Type}

/-- `Graph::new` for `SimpleMapGraph`. -/
def new : SimpleMapGraph N E := ⟨SlotMap.empty, SlotMap.empty, []⟩

/-- `SimpleMapGraph::count` — the number of nodes. -/
def count (g : SimpleMapGraph N E) : Nat := g.nodes.len

/-- `SimpleMapGraph::new_node`: insert the payload into the node arena and
give the fresh node an empty adjacency map. -/
def new_node (g : SimpleMapGraph N E) (node : N) : NodeIdx × SimpleMapGraph N E :=
  let p := g.nodes.insert node
  (p.1, { g with nodes := p.2, adjacencies := SecMap.insert g.adjacencies p.1 [] })

/-- `SimpleMapGraph::has_node`. -/
def has_node (g : SimpleMapGraph N E) (node : NodeIdx) : Bool :=
  g.nodes.containsKey node

/-- `SimpleMapGraph::get_node` (returns the payload by value in the model). -/
def get_node (g : SimpleMapGraph N E) (idx : NodeIdx) : Except GraphError N :=
  if g.nodes.containsKey idx then
    match g.nodes.get idx with
    | some n => .ok n
    | none => .error (.NodeIdxDoesntExist idx)
  else
    .error (.NodeIdxDoesntExist idx)

/-- `SimpleMapGraph::edges_of`: the entries of the node's adjacency map.
The source `unwrap`s the `SecondaryMap` lookup, so a node without an
adjacency record (absent or removed) makes the call panic — modelled by
`none`. -/
def edges_of (g : SimpleMapGraph N E) (node : NodeIdx) :
    Option (List (NodeIdx × EdgeIdx)) :=
  SecMap.get g.adjacencies node

/-- `SimpleMapGraph::remove_edge_unchecked`: read the endpoints, drop the
adjacency association(s) (the source side for directed graphs, both sides
for undirected ones), then free the edge slot.  Calling it on a dead edge
handle is UB in the source (`get_unchecked`), modelled by `none`. -/
def remove_edge_unchecked (DIRECTED : Bool) (g : SimpleMapGraph N E)
    (edge : EdgeIdx) : Option (E × SimpleMapGraph N E) :=
  match g.edges.get edge with
  | none => none
  | some e =>
    if DIRECTED then
      some (e.data,
        { g with
          edges := (g.edges.remove edge).2,
          adjacencies := SecMap.modify g.adjacencies e.src
            (fun m => AList.eraseKey m e.dst) })
    else
      some (e.data,
        { g with
          edges := (g.edges.remove edge).2,
          adjacencies := SecMap.modify
            (SecMap.modify g.adjacencies e.src (fun m => AList.eraseKey m e.dst))
            e.dst (fun m => AList.eraseKey m e.src) })

/-- `SimpleMapGraph::remove_edge` — checked wrapper of the above. -/
def remove_edge (DIRECTED : Bool) (g : SimpleMapGraph N E) (edge : EdgeIdx) :
    Except GraphError E × SimpleMapGraph N E :=
  if g.edges.containsKey edge then
    match remove_edge_unchecked DIRECTED g edge with
    | some p => (.ok p.1, p.2)
    | none => (.error (.EdgeIdxDoesntExist edge), g)
  else
    (.error (.EdgeIdxDoesntExist edge), g)

/-- Folding `remove_edge_unchecked` over a list of edge handles, as the two
`remove_node` loops do; a panic (UB) at any handle aborts the whole call. -/
def removeEdgesUnchecked (DIRECTED : Bool) :
    SimpleMapGraph N E → List EdgeIdx → Option (SimpleMapGraph N E)
  | g, [] => some g
  | g, e :: rest =>
    match remove_edge_unchecked DIRECTED g e with
    | some p => removeEdgesUnchecked DIRECTED p.2 rest
    | none => none

/-- `SimpleMapGraph::remove_node`.  Directed: scan the whole edge arena for
edges incident to the node and remove them, then free the node slot and its
adjacency record.  Undirected: collect the incident edges from the node's
own adjacency record via `edges_of` — whose `unwrap` panics when the node
is absent — and remove them, then free the slot.  In both branches a failed
`nodes.remove` yields `Err(NodeIdxDoesntExist)` (after the edge removals
already happened). -/
def remove_node (DIRECTED : Bool) (g : SimpleMapGraph N E) (node : NodeIdx) :
    Option (Except GraphError N × SimpleMapGraph N E) :=
  if DIRECTED then
    let edges := (g.edges.entries.filter
      (fun p => p.2.dst = node ∨ p.2.src = node)).map (fun p => p.1)
    match removeEdgesUnchecked true g edges with
    | none => none
    | some g1 =>
      match g1.nodes.remove node with
      | (some n, nodes1) =>
        some (.ok n,
          { g1 with nodes := nodes1, adjacencies := SecMap.remove g1.adjacencies node })
      | (none, _) => some (.error (.NodeIdxDoesntExist node), g1)
  else
    match edges_of g node with
    | none => none
    | some list =>
      match removeEdgesUnchecked false g (list.map (fun p => p.2)) with
      | none => none
      | some g1 =>
        match g1.nodes.remove node with
        | (some n, nodes1) =>
          some (.ok n,
            { g1 with nodes := nodes1, adjacencies := SecMap.remove g1.adjacencies node })
        | (none, _) => some (.error (.NodeIdxDoesntExist node), g1)

/-- `SimpleMapGraph::new_edge_unchecked`: insert the edge record and add the
adjacency association on the source side (directed) or both sides
(undirected). -/
def new_edge_unchecked (DIRECTED : Bool) (g : SimpleMapGraph N E)
    (src dst : NodeIdx) (edge : E) : EdgeIdx × SimpleMapGraph N E :=
  let p := g.edges.insert ⟨src, dst, edge⟩
  if DIRECTED then
    (p.1, { g with
      edges := p.2,
      adjacencies := SecMap.modify g.adjacencies src
        (fun m => AList.insertNew m dst p.1) })
  else
    (p.1, { g with
      edges := p.2,
      adjacencies := SecMap.modify
        (SecMap.modify g.adjacencies src (fun m => AList.insertNew m dst p.1))
        dst (fun m => AList.insertNew m src p.1) })

/-- `SimpleMapGraph::new_edge` — the checked edge insertion, with the exact
decision nesting of the source: the self-loop check comes first, then the
source node's adjacency lookup, then the duplicate check (for undirected
graphs on **both** endpoints' records), then the destination's existence. -/
def new_edge (DIRECTED : Bool) (g : SimpleMapGraph N E) (src dst : NodeIdx)
    (edge : E) : Except GraphError EdgeIdx × SimpleMapGraph N E :=
  if DIRECTED then
    if src = dst then (.error (.EdgeBetweenSameNode src), g)
    else
      match SecMap.get g.adjacencies src with
      | some src_edges =>
        if AList.containsKey src_edges dst then
          (.error (.EdgeBetweenAlreadyExists src dst), g)
        else if g.has_node dst then
          let p := new_edge_unchecked true g src dst edge
          (.ok p.1, p.2)
        else (.error (.NodeIdxDoesntExist dst), g)
      | none => (.error (.NodeIdxDoesntExist src), g)
  else
    if src = dst then (.error (.EdgeBetweenSameNode src), g)
    else
      match SecMap.get g.adjacencies src with
      | some node_edges =>
        if AList.containsKey node_edges dst then
          (.error (.EdgeBetweenAlreadyExists src dst), g)
        else
          match SecMap.get g.adjacencies dst with
          | some other_edges =>
            if AList.containsKey other_edges src then
              (.error (.EdgeBetweenAlreadyExists src dst), g)
            else
              let p := new_edge_unchecked false g src dst edge
              (.ok p.1, p.2)
          | none => (.error (.NodeIdxDoesntExist dst), g)
      | none => (.error (.NodeIdxDoesntExist src), g)

/-- `SimpleGraph::edge_between` for `SimpleMapGraph`. -/
def edge_between (g : SimpleMapGraph N E) (src dst : NodeIdx) :
    Except GraphError (Option EdgeIdx) :=
  match SecMap.get g.adjacencies src with
  | some src_edges =>
    if AList.containsKey src_edges dst then .ok (AList.get src_edges dst)
    else .ok none
  | none => .error (.NodeIdxDoesntExist src)

end SimpleMapGraph

/-- `algos/bfs.rs`: the traversal state — a FIFO queue of pending node
handles and the visited set (`HashSet` modelled as a `Finset`). -/
structure BreadthFirstSearch where
  queue : List NodeIdx
  visited : Finset KeyData
deriving DecidableEq

namespace BreadthFirstSearch

/-- `BreadthFirstSearch::new`: mark the start node visited and enqueue it. -/
def new (start : NodeIdx) : BreadthFirstSearch :=
  ⟨[start], {start}⟩

/-- `BreadthFirstSearch::with_capacity`: identical behaviour, the capacity
is a performance hint only. -/
def with_capacity (start : NodeIdx) (node_count : Nat) : BreadthFirstSearch :=
  let _ := node_count
  new start

/-- The neighbour loop of `BreadthFirstSearch::next`: for every
`(idx, _)` in `graph.edges_of(node)`, a not-yet-visited `idx` is marked
visited first and then pushed on the back of the queue. -/
def processNeighbors (s : BreadthFirstSearch)
    (neighbors : List (NodeIdx × EdgeIdx)) : BreadthFirstSearch :=
  neighbors.foldl
    (fun s p =>
      if p.1 ∈ s.visited then s
      else ⟨s.queue ++ [p.1], insert p.1 s.visited⟩)
    s

/-- `BreadthFirstSearch::next` with the final payload lookup stripped: pop
the queue front (terminal `none` when empty) and expand the popped node's
neighbours.  This is the generic algorithm over any `impl Graph`, whose
only interface here is its `edges_of` function. -/
def popStep (edgesOf : NodeIdx → List (NodeIdx × EdgeIdx))
    (s : BreadthFirstSearch) : Option NodeIdx × BreadthFirstSearch :=
  match s.queue with
  | [] => (none, s)
  | node :: rest => (some node, processNeighbors ⟨rest, s.visited⟩ (edgesOf node))

/-- `BreadthFirstSearch::next` against a `SimpleMapGraph`: the popped
node's neighbours come from `graph.edges_of` (which panics on an absent
record — inner `none`), and the yielded value is
`graph.get_node(node).unwrap()` (panic on a dead handle — also inner
`none`).  Outer `none` is the terminal "no more nodes" result; a normal
yield is `some (some payload)`. -/
def next {N E : Type} (g : SimpleMapGraph N E) (s : BreadthFirstSearch) :
    Option (Option N) × BreadthFirstSearch :=
  match s.queue with
  | [] => (none, s)
  | node :: rest =>
    match g.edges_of node with
    | none => (some none, ⟨rest, s.visited⟩)
    | some neighbors =>
      let s1 := processNeighbors ⟨rest, s.visited⟩ neighbors
      match g.get_node node with
      | .ok n => (some (some n), s1)
      | .error _ => (some none, s1)

/-- Successive results of `n` calls to `next` on a fixed graph. -/
def runNext {N E : Type} (g : SimpleMapGraph N E) :
    Nat → BreadthFirstSearch → List (Option (Option N))
  | 0, _ => []
  | n + 1, s =>
    let p := next g s
    p.1 :: runNext g n p.2

end BreadthFirstSearch

/-- The graph of the `basic_imperative_bfs` test: a directed simple map
graph with node payloads `0,1,2,3` and edges `0→1, 0→2, 1→2, 2→0, 2→3`
(each `add_edge` of the test succeeds, cf. `bfs_scenario_builds_cleanly`). -/
def bfsTestGraph : SimpleMapGraph Nat Unit :=
  let g0 : SimpleMapGraph Nat Unit := SimpleMapGraph.new
  let pz := g0.new_node 0
  let po := pz.2.new_node 1
  let pt := po.2.new_node 2
  let pr := pt.2.new_node 3
  let g1 := (SimpleMapGraph.new_edge true pr.2 pz.1 po.1 ()).2
  let g2 := (SimpleMapGraph.new_edge true g1 pz.1 pt.1 ()).2
  let g3 := (SimpleMapGraph.new_edge true g2 po.1 pt.1 ()).2
  let g4 := (SimpleMapGraph.new_edge true g3 pt.1 pz.1 ()).2
  (SimpleMapGraph.new_edge true g4 pt.1 pr.1 ()).2

/-- The five results of the test's BFS loop, started at node `0`
(handle `⟨0, 1⟩`) with the capacity hint `graph.node_count()`. -/
def bfsTestRun : List (Option (Option Nat)) :=
  BreadthFirstSearch.runNext bfsTestGraph 5
    (BreadthFirstSearch.with_capacity ⟨0, 1⟩ bfsTestGraph.count)

/-- The slot version currently stored at position `i` (0 when the position
does not exist).  Versions at a fixed position only ever grow, which is what
makes stale-handle detection sound. -/
def SlotMap.versionAt {A : Type} (m : SlotMap A) (i : Nat) : Nat :=
  match m.slots[i]? with
  | some s => s.version
  | none => 0

/-- Whether an edge record connects `a` to `b` in the sense of a `DIRECTED`
or undirected graph: directed adjacency records only the `a → b`
orientation, undirected adjacency answers for both orientations. -/
def endpointsMatch (DIRECTED : Bool) {E : Type} (a b : NodeIdx) (ed : Edge E) : Prop :=
  if DIRECTED then ed.src = a ∧ ed.dst = b
  else (ed.src = a ∧ ed.dst = b) ∨ (ed.src = b ∧ ed.dst = a)

/-- The adjacency-consistency invariant of `SimpleMapGraph` (spec §3):
adjacency records exist exactly for live nodes, no record holds a neighbour
key twice, every association points at a live edge whose endpoints match
it, no live edge is a self-loop, and every live edge is recorded on its
source side (and on its destination side when undirected). -/
structure SWF (DIRECTED : Bool) {N E : Type} (g : SimpleMapGraph N E) : Prop where
  nodesFree : g.nodes.WFfree
  edgesFree : g.edges.WFfree
  adjLive : ∀ k, (SecMap.get g.adjacencies k).isSome = g.nodes.containsKey k
  recNodup : ∀ a m, SecMap.get g.adjacencies a = some m → (m.map Prod.fst).Nodup
  recMatch : ∀ a m, SecMap.get g.adjacencies a = some m → ∀ p ∈ m,
    ∃ ed, g.edges.get p.2 = some ed ∧ endpointsMatch DIRECTED a p.1 ed
  edgeLoop : ∀ e ed, g.edges.get e = some ed → ed.src ≠ ed.dst
  edgeEnds : ∀ e ed, g.edges.get e = some ed →
    g.nodes.containsKey ed.src = true ∧ g.nodes.containsKey ed.dst = true
  edgeSrc : ∀ e ed, g.edges.get e = some ed →
    ∃ m, SecMap.get g.adjacencies ed.src = some m ∧ (ed.dst, e) ∈ m
  edgeDst : ∀ e ed, g.edges.get e = some ed → DIRECTED = false →
    ∃ m, SecMap.get g.adjacencies ed.dst = some m ∧ (ed.src, e) ∈ m

/-- The graphs reachable from `SimpleMapGraph::new()` by any sequence of
the public mutating operations of `graphs/simple/map.rs` (`new_node`,
`new_edge`, `remove_edge`, `remove_node`; error results leave the state as
it was, and a panicking `remove_node` produces no successor state). -/
inductive ReachableS (DIRECTED : Bool) {N E : Type} : SimpleMapGraph N E → Prop
  | new : ReachableS DIRECTED SimpleMapGraph.new
  | new_node (g : SimpleMapGraph N E) (v : N) : ReachableS DIRECTED g →
      ReachableS DIRECTED (g.new_node v).2
  | new_edge (g : SimpleMapGraph N E) (a b : NodeIdx) (v : E) :
      ReachableS DIRECTED g →
      ReachableS DIRECTED (SimpleMapGraph.new_edge DIRECTED g a b v).2
  | remove_edge (g : SimpleMapGraph N E) (e : EdgeIdx) : ReachableS DIRECTED g →
      ReachableS DIRECTED (SimpleMapGraph.remove_edge DIRECTED g e).2
  | remove_node (g : SimpleMapGraph N E) (n : NodeIdx)
      (r : Except GraphError N) (g2 : SimpleMapGraph N E) : ReachableS DIRECTED g →
      SimpleMapGraph.remove_node DIRECTED g n = some (r, g2) →
      ReachableS DIRECTED g2

/-- One public mutating call on a `SimpleMapGraph`, as data (used to
quantify over "every subsequent sequence of operations"). -/
inductive SimpleOp (N E : Type)
  | newNode (v : N)
  | newEdge (a b : NodeIdx) (v : E)
  | removeEdge (e : EdgeIdx)
  | removeNode (n : NodeIdx)

/-- Apply one operation, keeping the state behind: an erroring call leaves
the graph as it was, and a panicking `remove_node` aborts the run with the
state at the panic point. -/
def applySimpleOp (DIRECTED : Bool) {N E : Type} (g : SimpleMapGraph N E) :
    SimpleOp N E → SimpleMapGraph N E
  | .newNode v => (g.new_node v).2
  | .newEdge a b v => (SimpleMapGraph.new_edge DIRECTED g a b v).2
  | .removeEdge e => (SimpleMapGraph.remove_edge DIRECTED g e).2
  | .removeNode n =>
    match SimpleMapGraph.remove_node DIRECTED g n with
    | some p => p.2
    | none => g

/-- Apply a whole sequence of operations in order. -/
def applySimpleOps (DIRECTED : Bool) {N E : Type} (g : SimpleMapGraph N E)
    (ops : List (SimpleOp N E)) : SimpleMapGraph N E :=
  ops.foldl (applySimpleOp DIRECTED) g


/-- `utils/vecset.rs` (not under `src/`). Modelled from the spec: the
multigraph adjacency stores a sequence of edge handles per neighbour and
"support[s] removing one specific handle from that sequence (by value, not
position)" (§4.2); `remove_by_value` drops the first occurrence of the
value. -/
def removeByValue (l : List EdgeIdx) (e : EdgeIdx) : List EdgeIdx :=
  match l with
  | [] => []
  | x :: xs => if x = e then xs else x :: removeByValue xs e

/-- `graphs/adjacency_storage.rs` (not under `src/`; shape fixed by its
callers in `multi/map.rs` and the spec §4.2): directed nodes keep two
records (outgoing and incoming), undirected nodes keep a single record that
both accessors return. -/
inductive AdjacencyStorage (M : Type)
  | Directed (outgoing incoming : M)
  | Undirected (single : M)
deriving DecidableEq

namespace AdjacencyStorage

/-- `AdjacencyStorage::outgoing_mut` as a reader. -/
def outgoing {M : Type} : AdjacencyStorage M → M
  | Directed o _ => o
  | Undirected m => m

/-- `AdjacencyStorage::incoming_mut` as a reader. -/
def incoming {M : Type} : AdjacencyStorage M → M
  | Directed _ i => i
  | Undirected m => m

/-- Mutation through `outgoing_mut`. -/
def mapOutgoing {M : Type} (f : M → M) : AdjacencyStorage M → AdjacencyStorage M
  | Directed o i => Directed (f o) i
  | Undirected m => Undirected (f m)

/-- Mutation through `incoming_mut`. -/
def mapIncoming {M : Type} (f : M → M) : AdjacencyStorage M → AdjacencyStorage M
  | Directed o i => Directed o (f i)
  | Undirected m => Undirected (f m)

/-- `AdjacencyStorage::for_each_mut`. -/
def forEachMut {M : Type} (f : M → M) : AdjacencyStorage M → AdjacencyStorage M
  | Directed o i => Directed (f o) (f i)
  | Undirected m => Undirected (f m)

end AdjacencyStorage

/-- The per-node record of a map multigraph:
`HashMap<NodeIdx, Vec<EdgeIdx>>`. -/
abbrev MultiAdjMap := List (NodeIdx × List EdgeIdx)

/-- `.entry(key).or_default().push(idx)` on a `HashMap<NodeIdx, Vec<EdgeIdx>>`:
append the handle to the key's vector, creating the entry when absent. -/
def mapEntryPush (m : MultiAdjMap) (key : NodeIdx) (idx : EdgeIdx) : MultiAdjMap :=
  if AList.containsKey m key then
    m.map (fun p => if p.1 = key then (p.1, p.2 ++ [idx]) else p)
  else
    AList.insertNew m key [idx]

/-- `.get_mut(&key).unwrap().remove_by_value(&idx)`; the caller handles the
`unwrap` panic separately. -/
def mapEntryRemove (m : MultiAdjMap) (key : NodeIdx) (idx : EdgeIdx) : MultiAdjMap :=
  m.map (fun p => if p.1 = key then (p.1, removeByValue p.2 idx) else p)

/-- `graphs/multi/map.rs`: `MultiMapGraph<N, E, const DIRECTED: bool>`. -/
structure MultiMapGraph (N E : Type) where
  nodes : SlotMap N
  edges : SlotMap (Edge E)
  adjacencies : List (NodeIdx × AdjacencyStorage MultiAdjMap)
deriving DecidableEq

namespace MultiMapGraph

variable {N E : Type}

/-- `Graph::new` for `MultiMapGraph`. -/
def new : MultiMapGraph N E := ⟨SlotMap.empty, SlotMap.empty, []⟩

/-- `MultiMapGraph::node_count`. -/
def node_count (g : MultiMapGraph N E) : Nat := g.nodes.len

/-- `MultiMapGraph::edge_count`. -/
def edge_count (g : MultiMapGraph N E) : Nat := g.edges.len

/-- `MultiMapGraph::has_node`. -/
def has_node (g : MultiMapGraph N E) (node : NodeIdx) : Bool :=
  g.nodes.containsKey node

/-- `MultiMapGraph::add_node`: directed nodes get two empty records,
undirected nodes one. -/
def add_node (DIRECTED : Bool) (g : MultiMapGraph N E) (node : N) :
    NodeIdx × MultiMapGraph N E :=
  let p := g.nodes.insert node
  let storage : AdjacencyStorage MultiAdjMap :=
    if DIRECTED then .Directed [] [] else .Undirected []
  (p.1,
    { g with
      nodes := p.2
      adjacencies := SecMap.insert g.adjacencies p.1 storage })

/-- `MultiMapGraph::try_add_edge`: either endpoint absent fails with
`NodeNotFound` of that endpoint; otherwise the edge is stored and pushed on
`src`'s outgoing and `dst`'s incoming record (the same single record twice
for an undirected self-loop). -/
def try_add_edge (g : MultiMapGraph N E) (src dst : NodeIdx) (value : E) :
    Except GraphError EdgeIdx × MultiMapGraph N E :=
  if ¬g.has_node src then (.error (.NodeNotFound src), g)
  else if ¬g.has_node dst then (.error (.NodeNotFound dst), g)
  else
    let p := g.edges.insert ⟨src, dst, value⟩
    let adj1 := SecMap.modify g.adjacencies src
      (AdjacencyStorage.mapOutgoing (fun m => mapEntryPush m dst p.1))
    let adj2 := SecMap.modify adj1 dst
      (AdjacencyStorage.mapIncoming (fun m => mapEntryPush m src p.1))
    (.ok p.1, { g with edges := p.2, adjacencies := adj2 })

/-- `MultiMapGraph::contains_edge_between`: looks only at `src`'s outgoing
record; the `unwrap` of the adjacency lookup panics (`none`) when `src` has
no record. -/
def contains_edge_between (g : MultiMapGraph N E) (src dst : NodeIdx) :
    Option Bool :=
  match SecMap.get g.adjacencies src with
  | some st => some (AList.containsKey st.outgoing dst)
  | none => none

/-- `MultiMapGraph::remove_node` is `todo!()` — it panics unconditionally
for every input. -/
def remove_node (g : MultiMapGraph N E) (index : NodeIdx) :
    Option (Option N × MultiMapGraph N E) :=
  let _ := g
  let _ := index
  none

/-- `MultiMapGraph::degree` is `todo!()` — it panics unconditionally for
every input. -/
def degree (g : MultiMapGraph N E) (index : NodeIdx) : Option Nat :=
  let _ := g
  let _ := index
  none

/-- `MultiMapGraph::remove_edge`: free the edge slot, then drop the handle
(by value) from `src`'s outgoing and `dst`'s incoming vector; the interior
`unwrap`s panic (`none`) when the records or keys are missing. -/
def remove_edge (g : MultiMapGraph N E) (index : EdgeIdx) :
    Option (Option E × MultiMapGraph N E) :=
  match g.edges.get index with
  | some ed =>
    let edges1 := (g.edges.remove index).2
    match SecMap.get g.adjacencies ed.src with
    | none => none
    | some st =>
      if AList.containsKey st.outgoing ed.dst then
        let adj1 := SecMap.modify g.adjacencies ed.src
          (AdjacencyStorage.mapOutgoing (fun m => mapEntryRemove m ed.dst index))
        match SecMap.get adj1 ed.dst with
        | none => none
        | some st2 =>
          if AList.containsKey st2.incoming ed.src then
            let adj2 := SecMap.modify adj1 ed.dst
              (AdjacencyStorage.mapIncoming (fun m => mapEntryRemove m ed.src index))
            some (some ed.data, { g with edges := edges1, adjacencies := adj2 })
          else none
      else none
  | none => some (none, g)

/-- `MultiMapGraph::clear_edges`: every record of every node is emptied,
then the edge arena is cleared. -/
def clear_edges (g : MultiMapGraph N E) : MultiMapGraph N E :=
  { g with
    edges := ⟨g.edges.slots.map
        (fun s => if s.value.isSome then ⟨s.version + 1, none⟩ else s),
      List.range g.edges.slots.length⟩,
    adjacencies := g.adjacencies.map
      (fun p => (p.1, p.2.forEachMut (fun _ => []))) }

/-- `MultiMapGraph::clear`. -/
def clear (g : MultiMapGraph N E) : MultiMapGraph N E :=
  { nodes := ⟨g.nodes.slots.map
        (fun s => if s.value.isSome then ⟨s.version + 1, none⟩ else s),
      List.range g.nodes.slots.length⟩,
    edges := ⟨g.edges.slots.map
        (fun s => if s.value.isSome then ⟨s.version + 1, none⟩ else s),
      List.range g.edges.slots.length⟩,
    adjacencies := [] }

end MultiMapGraph

/-- `graphs/multi/list.rs`: `MultiListGraph<N, E, const DIRECTED: bool>`,
whose adjacency is `Vec<(NodeIdx, Vec<EdgeIdx>)>` per node.  Only the
undirected flavour is developed here. -/
structure MultiListGraph (N E : Type) where
  nodes : SlotMap N
  edges : SlotMap (Edge E)
  adjacencies : List (NodeIdx × List (NodeIdx × List EdgeIdx))
deriving DecidableEq

namespace MultiListGraph

variable {N E : Type}

/-- `find_edge_list`: linear scan for the neighbour's entry. -/
def find_edge_list (list : List (NodeIdx × List EdgeIdx)) (node : NodeIdx) :
    Option (List EdgeIdx) :=
  (list.find? (fun l => l.1 = node)).map (fun l => l.2)

/-- The `find_edge_list_mut`-based update: push onto the neighbour's vector
when the entry exists, else append a fresh `(other, vec![idx])` entry. -/
def adjPush (adjs : List (NodeIdx × List EdgeIdx)) (other : NodeIdx)
    (idx : EdgeIdx) : List (NodeIdx × List EdgeIdx) :=
  if (find_edge_list adjs other).isSome then
    adjs.map (fun l => if l.1 = other then (l.1, l.2 ++ [idx]) else l)
  else
    adjs ++ [(other, [idx])]

/-- `find_edge`: index of the handle inside the vector. -/
def find_edge (list : List EdgeIdx) (edge : EdgeIdx) : Option Nat :=
  list.findIdx? (fun e => e = edge)

/-- `Vec::swap_remove`: remove position `i`, moving the last element into
its place. -/
def swapRemove (l : List EdgeIdx) (i : Nat) : List EdgeIdx :=
  match l.getLast? with
  | none => l
  | some last => if i + 1 = l.length then l.dropLast else l.dropLast.set i last

/-- `Graph::new` for `MultiListGraph`. -/
def new : MultiListGraph N E := ⟨SlotMap.empty, SlotMap.empty, []⟩

/-- `MultiListGraph::new_node`. -/
def new_node (g : MultiListGraph N E) (node : N) : NodeIdx × MultiListGraph N E :=
  let p := g.nodes.insert node
  (p.1, { g with nodes := p.2, adjacencies := SecMap.insert g.adjacencies p.1 [] })

/-- `MultiListGraph::has_node`. -/
def has_node (g : MultiListGraph N E) (node : NodeIdx) : Bool :=
  g.nodes.containsKey node

/-- `MultiListGraph::edges_of` (undirected): flatten the node's adjacency
entries; an absent record gives the empty list (no panic here). -/
def edges_of (g : MultiListGraph N E) (node : NodeIdx) :
    List (NodeIdx × EdgeIdx) :=
  match SecMap.get g.adjacencies node with
  | some list => list.foldr (fun t acc => (t.2.map (fun e => (t.1, e))) ++ acc) []
  | none => []

/-- `MultiListGraph::new_edge_unchecked` (undirected): store the edge and
push its handle on both endpoints' vectors — one after the other, so a
self-loop pushes twice into the same vector. -/
def new_edge_unchecked (g : MultiListGraph N E) (node other : NodeIdx)
    (edge : E) : EdgeIdx × MultiListGraph N E :=
  let p := g.edges.insert ⟨node, other, edge⟩
  let adj1 := SecMap.modify g.adjacencies node (fun adjs => adjPush adjs other p.1)
  let adj2 := SecMap.modify adj1 other (fun adjs => adjPush adjs node p.1)
  (p.1, { g with edges := p.2, adjacencies := adj2 })

/-- `MultiListGraph::new_edge` (undirected, checked): only node existence
is verified — multigraphs accept loops and parallel edges. -/
def new_edge (g : MultiListGraph N E) (node other : NodeIdx) (edge : E) :
    Except GraphError EdgeIdx × MultiListGraph N E :=
  if g.has_node node then
    if g.has_node other then
      let p := g.new_edge_unchecked node other edge
      (.ok p.1, p.2)
    else (.error (.NodeIdxDoesntExist other), g)
  else (.error (.NodeIdxDoesntExist node), g)

/-- `MultiListGraph::remove_edge_unchecked` (undirected): look up the edge
record (UB on a dead handle — `none`), `swap_remove` the handle from the
`from`-side vector and then from the `to`-side vector (both lookups
`unwrap`), finally free the edge slot. -/
def remove_edge_unchecked (g : MultiListGraph N E) (edge : EdgeIdx) :
    Option (E × MultiListGraph N E) :=
  match g.edges.get edge with
  | none => none
  | some ed =>
    match SecMap.get g.adjacencies ed.src with
    | none => none
    | some adjs =>
      match find_edge_list adjs ed.dst with
      | none => none
      | some list =>
        match find_edge list edge with
        | none => none
        | some i =>
          let adj1 := SecMap.modify g.adjacencies ed.src
            (fun adjs => adjs.map
              (fun l => if l.1 = ed.dst then (l.1, swapRemove l.2 i) else l))
          match SecMap.get adj1 ed.dst with
          | none => none
          | some adjs2 =>
            match find_edge_list adjs2 ed.src with
            | none => none
            | some list2 =>
              match find_edge list2 edge with
              | none => none
              | some i2 =>
                let adj2 := SecMap.modify adj1 ed.dst
                  (fun adjs => adjs.map
                    (fun l => if l.1 = ed.src then (l.1, swapRemove l.2 i2) else l))
                some (ed.data,
                  { g with
                    edges := (g.edges.remove edge).2
                    adjacencies := adj2 })

/-- Folding `remove_edge_unchecked` over collected handles, as the
`remove_node` loop does. -/
def removeEdgesUnchecked2 :
    MultiListGraph N E → List EdgeIdx → Option (MultiListGraph N E)
  | g, [] => some g
  | g, e :: rest =>
    match g.remove_edge_unchecked e with
    | some p => removeEdgesUnchecked2 p.2 rest
    | none => none

/-- `MultiListGraph::remove_node` (undirected): remove every edge collected
from `edges_of(node)` — the collected list mentions a self-loop twice, so
the second `remove_edge_unchecked` call hits a dead handle — then free the
node slot and its record. -/
def remove_node (g : MultiListGraph N E) (node : NodeIdx) :
    Option (Except GraphError N × MultiListGraph N E) :=
  match removeEdgesUnchecked2 g ((g.edges_of node).map (fun p => p.2)) with
  | none => none
  | some g1 =>
    match g1.nodes.remove node with
    | (some n, nodes1) =>
      some (.ok n,
        { g1 with nodes := nodes1, adjacencies := SecMap.remove g1.adjacencies node })
    | (none, _) => some (.error (.NodeIdxDoesntExist node), g1)

end MultiListGraph


/-- Classifier used to state refutations: whether a result is the
"node handle not found" error (under either of the repo's two names for
it). -/
def isNodeNotFoundErr : Except GraphError EdgeIdx → Bool
  | .error (.NodeIdxDoesntExist _) => true
  | .error (.NodeNotFound _) => true
  | _ => false

/-- A one-node undirected `MultiListGraph` whose node carries a self-loop:
the smallest graph on which the cascade of `remove_node` goes wrong. -/
def c4Graph : MultiListGraph Nat Nat :=
  let p := (MultiListGraph.new : MultiListGraph Nat Nat).new_node 7
  (p.2.new_edge p.1 p.1 5).2

/-- The node handle of `c4Graph`'s only node. -/
def c4Node : NodeIdx := ⟨0, 1⟩

/-- A directed `MultiMapGraph` with one live node — the input on which the
`todo!()` placeholder methods are exercised. -/
def c5Graph : MultiMapGraph Nat Nat :=
  ((MultiMapGraph.new : MultiMapGraph Nat Nat).add_node true 0).2

/-- The node handle of `c5Graph`'s only node. -/
def c5Node : NodeIdx := ⟨0, 1⟩


/-- Repeated advances of the traversal: `runPop eo fuel s` performs up to
`fuel` calls of `popStep`, collecting the popped nodes, and stops early at
the terminal "no more nodes" result (which leaves the state unchanged). -/
def BreadthFirstSearch.runPop (edgesOf : NodeIdx → List (NodeIdx × EdgeIdx)) :
    Nat → BreadthFirstSearch → List NodeIdx × BreadthFirstSearch
  | 0, s => ([], s)
  | n + 1, s =>
    match BreadthFirstSearch.popStep edgesOf s with
    | (none, s1) => ([], s1)
    | (some x, s1) =>
      let p := BreadthFirstSearch.runPop edgesOf n s1
      (x :: p.1, p.2)

/-- Reachability along the adjacency function: the reflexive-transitive
closure of "is listed among the edges of". -/
def Reaches (edgesOf : NodeIdx → List (NodeIdx × EdgeIdx)) (a b : NodeIdx) : Prop :=
  Relation.ReflTransGen (fun x y => y ∈ (edgesOf x).map Prod.fst) a b

/-- The loop invariant of breadth-first search: `out` is the list of nodes
popped so far.  The queue holds no duplicates, no popped node is still
queued, the visited set is exactly the popped and queued nodes, everything
visited is reachable from the start, and every popped node has all its
neighbours visited already. -/
structure BfsInv (edgesOf : NodeIdx → List (NodeIdx × EdgeIdx)) (start : NodeIdx)
    (out : List NodeIdx) (s : BreadthFirstSearch) : Prop where
  qNodup : s.queue.Nodup
  oNodup : out.Nodup
  disj : ∀ x ∈ out, x ∉ s.queue
  union : ∀ x, x ∈ s.visited ↔ (x ∈ out ∨ x ∈ s.queue)
  startMem : start ∈ s.visited
  reach : ∀ x ∈ s.visited, Reaches edgesOf start x
  closed : ∀ x ∈ out, ∀ y ∈ (edgesOf x).map Prod.fst, y ∈ s.visited



/-- The number of occurrences of an edge handle in an adjacency vector
(`Vec<EdgeIdx>`). -/
def countIdx (l : List EdgeIdx) (e : EdgeIdx) : Nat :=
  l.countP (fun x => x = e)

/-- The number of times the handle `e` must occur in the vector stored under
key `y` of node `x`'s record of an *undirected* `MultiMapGraph`: once per
orientation of a live edge connecting `x` and `y` (hence twice for a
self-loop, whose two pushes land in the same vector), zero for dead
handles. -/
def expCountU {N E : Type} (g : MultiMapGraph N E) (x y : NodeIdx)
    (e : EdgeIdx) : Nat :=
  match g.edges.get e with
  | none => 0
  | some ed =>
    (if ed.src = x ∧ ed.dst = y then 1 else 0) +
    (if ed.dst = x ∧ ed.src = y then 1 else 0)

/-- The adjacency-consistency invariant of the *undirected* `MultiMapGraph`
(spec §4.2/§4.3): records exist exactly for live nodes and are all
single-map (`Undirected`) storages with duplicate-free key lists whose keys
are live nodes; key presence is symmetric between any two records; live
edges have live endpoints and are keyed in their source's record; and every
vector holds each edge handle exactly as often as `expCountU` demands. -/
structure MWF {N E : Type} (g : MultiMapGraph N E) : Prop where
  nodesFree : g.nodes.WFfree
  edgesFree : g.edges.WFfree
  adjLive : ∀ k, (SecMap.get g.adjacencies k).isSome = g.nodes.containsKey k
  adjUndir : ∀ k st, SecMap.get g.adjacencies k = some st →
    ∃ m, st = .Undirected m
  recNodup : ∀ x m, SecMap.get g.adjacencies x = some (.Undirected m) →
    (m.map Prod.fst).Nodup
  recKeysLive : ∀ x m, SecMap.get g.adjacencies x = some (.Undirected m) →
    ∀ y ∈ m.map Prod.fst, g.nodes.containsKey y = true
  keySym : ∀ a b ma mb, SecMap.get g.adjacencies a = some (.Undirected ma) →
    SecMap.get g.adjacencies b = some (.Undirected mb) →
    AList.containsKey ma b = AList.containsKey mb a
  edgeEnds : ∀ e ed, g.edges.get e = some ed →
    g.nodes.containsKey ed.src = true ∧ g.nodes.containsKey ed.dst = true
  edgeRec : ∀ e ed, g.edges.get e = some ed → ∃ m,
    SecMap.get g.adjacencies ed.src = some (.Undirected m) ∧
    AList.containsKey m ed.dst = true
  edgeOcc : ∀ x m, SecMap.get g.adjacencies x = some (.Undirected m) →
    ∀ y v, AList.get m y = some v → ∀ e, countIdx v e = expCountU g x y e

/-- The undirected map multigraphs reachable from `MultiMapGraph::new()` by
the public mutating operations that can return (`add_node`, `try_add_edge`,
`remove_edge` when it does not panic, `clear_edges`, `clear`; `remove_node`
and `degree` are `todo!()` and never produce a post-state). -/
inductive ReachableM {N E : Type} : MultiMapGraph N E → Prop
  | new : ReachableM MultiMapGraph.new
  | add_node (g : MultiMapGraph N E) (v : N) : ReachableM g →
      ReachableM (MultiMapGraph.add_node false g v).2
  | try_add_edge (g : MultiMapGraph N E) (src dst : NodeIdx) (v : E) :
      ReachableM g →
      ReachableM (MultiMapGraph.try_add_edge g src dst v).2
  | remove_edge (g : MultiMapGraph N E) (e : EdgeIdx) (r : Option E)
      (g2 : MultiMapGraph N E) : ReachableM g →
      MultiMapGraph.remove_edge g e = some (r, g2) → ReachableM g2
  | clear_edges (g : MultiMapGraph N E) : ReachableM g →
      ReachableM g.clear_edges
  | clear (g : MultiMapGraph N E) : ReachableM g → ReachableM g.clear

/-- A concrete undirected simple graph — two nodes joined by one edge —
used to instantiate the symmetry claim. -/
def c6SimpleGraph : SimpleMapGraph Nat Nat :=
  (SimpleMapGraph.new_edge false
    (((SimpleMapGraph.new.new_node 10).2).new_node 11).2 ⟨0, 1⟩ ⟨1, 1⟩ 5).2

/-- A concrete undirected map multigraph — two nodes joined by one edge —
used to instantiate the symmetry claim. -/
def c6MultiGraph : MultiMapGraph Nat Nat :=
  (MultiMapGraph.try_add_edge
    (MultiMapGraph.add_node false
      (MultiMapGraph.add_node false MultiMapGraph.new 10).2 11).2
    ⟨0, 1⟩ ⟨1, 1⟩ 5).2


/-! ## Lemmas about the generational arena -/

theorem list_getElem?_append_singleton {B : Type} (l : List B) (x : B) (n : Nat) :
    (l ++ [x])[n]? = if n = l.length then some x else l[n]? := by
  rw [List.getElem?_append]
  by_cases h : n < l.length
  · rw [if_pos h, if_neg (by omega)]
  · rw [if_neg h]
    by_cases h2 : n = l.length
    · rw [if_pos h2]
      simp [h2]
    · rw [if_neg h2]
      rw [List.getElem?_eq_none (l := [x]) (by simp; omega),
        List.getElem?_eq_none (by omega)]

theorem slotmap_get_eq {A : Type} (m : SlotMap A) (k : KeyData) :
    m.get k = (m.slots[k.idx]?).bind
      (fun s => if s.version = k.version then s.value else none) := by
  unfold SlotMap.get
  cases m.slots[k.idx]? <;> rfl

theorem slotmap_get_empty {A : Type} (k : KeyData) :
    (SlotMap.empty : SlotMap A).get k = none := rfl

theorem slotmap_wffree_empty {A : Type} : (SlotMap.empty : SlotMap A).WFfree :=
  ⟨List.nodup_nil, fun i hi => absurd hi (List.not_mem_nil i)⟩

theorem slotmap_len_empty {A : Type} : (SlotMap.empty : SlotMap A).len = 0 := rfl

/-- Characterisation of `insert`: the fresh key is live with the new value,
it was dead before, every other key is untouched, well-formedness of the
free list survives and the live count grows by one. -/
theorem slotmap_insert_spec {A : Type} (m : SlotMap A) (v : A) (hw : m.WFfree) :
    (m.insert v).2.get (m.insert v).1 = some v ∧
    m.get (m.insert v).1 = none ∧
    (∀ k, k ≠ (m.insert v).1 → (m.insert v).2.get k = m.get k) ∧
    (∀ k, k.idx = (m.insert v).1.idx → m.get k = none) ∧
    (m.insert v).2.WFfree ∧
    (m.insert v).2.len = m.len + 1 := by
  obtain ⟨slots, free⟩ := m
  obtain ⟨hnd, hfr⟩ := hw
  cases free with
  | nil =>
    simp only [SlotMap.insert]
    refine ⟨?_, ?_, ?_, ?_, ?_, ?_⟩
    · simp [slotmap_get_eq, list_getElem?_append_singleton]
    · simp [slotmap_get_eq, List.getElem?_eq_none (le_refl slots.length)]
    · intro k hk
      simp only [slotmap_get_eq, list_getElem?_append_singleton]
      by_cases hidx : k.idx = slots.length
      · have hv : k.version ≠ 1 := by
          intro hv
          apply hk
          cases k
          simp_all
        rw [if_pos hidx, hidx, List.getElem?_eq_none (le_refl slots.length)]
        simp only [Option.some_bind, Option.none_bind]
        exact if_neg (fun hh => hv hh.symm)
      · rw [if_neg hidx]
    · intro k hk
      simp only [slotmap_get_eq]
      rw [List.getElem?_eq_none (le_of_eq hk.symm), Option.none_bind]
    · exact ⟨List.nodup_nil, fun i hi => absurd hi (List.not_mem_nil i)⟩
    · simp [SlotMap.len, List.countP_append, List.countP_cons]
  | cons i rest =>
    obtain ⟨s, hs, hvac⟩ := hfr i (List.mem_cons_self i rest)
    have hlt : i < slots.length := (List.getElem?_eq_some.mp hs).1
    have hgl : slots[i] = s := (List.getElem?_eq_some.mp hs).2
    have hnd2 := List.nodup_cons.mp hnd
    simp only [SlotMap.insert, hs]
    refine ⟨?_, ?_, ?_, ?_, ?_, ?_⟩
    · simp [slotmap_get_eq, List.getElem?_set_self hlt]
    · simp [slotmap_get_eq, hs, hvac]
    · intro k hk
      simp only [slotmap_get_eq]
      by_cases hidx : k.idx = i
      · have hv : k.version ≠ s.version + 1 := by
          intro hv
          apply hk
          cases k
          simp_all
        rw [hidx, List.getElem?_set_self hlt, hs]
        simp only [Option.some_bind]
        rw [if_neg (fun hh => hv hh.symm), hvac, ite_self]
      · rw [List.getElem?_set_ne (fun h => hidx h.symm)]
    · intro k hk
      simp only [slotmap_get_eq, hk, hs, Option.some_bind, hvac, ite_self]
    · refine ⟨hnd2.2, ?_⟩
      intro j hj
      obtain ⟨sj, hsj, hsjv⟩ := hfr j (List.mem_cons_of_mem i hj)
      have hji : j ≠ i := fun h => hnd2.1 (h ▸ hj)
      exact ⟨sj, by rw [List.getElem?_set_ne (fun h => hji h.symm)]; exact hsj, hsjv⟩
    · simp [SlotMap.len, List.countP_set _ _ _ _ hlt, hgl, hvac]

/-- Characterisation of `remove` on a live key: the value comes back, the
key is dead afterwards, every other key is untouched, well-formedness of
the free list survives and the live count drops by one. -/
theorem slotmap_remove_spec {A : Type} (m : SlotMap A) (k : KeyData) (v : A)
    (h : m.get k = some v) (hw : m.WFfree) :
    (m.remove k).1 = some v ∧
    (m.remove k).2.get k = none ∧
    (∀ k2, k2 ≠ k → (m.remove k).2.get k2 = m.get k2) ∧
    (m.remove k).2.WFfree ∧
    (m.remove k).2.len + 1 = m.len := by
  obtain ⟨hnd, hfr⟩ := hw
  have hslot : ∃ s, m.slots[k.idx]? = some s ∧ s.version = k.version ∧
      s.value = some v := by
    rw [slotmap_get_eq] at h
    cases hval : m.slots[k.idx]? with
    | none => rw [hval] at h; exact absurd h (by simp)
    | some s =>
      rw [hval] at h
      simp only [Option.some_bind] at h
      by_cases hv : s.version = k.version
      · rw [if_pos hv] at h
        exact ⟨s, rfl, hv, h⟩
      · rw [if_neg hv] at h
        exact absurd h (by simp)
  obtain ⟨s, hs, hsv, hsval⟩ := hslot
  have hlt : k.idx < m.slots.length := (List.getElem?_eq_some.mp hs).1
  have hgl : m.slots[k.idx] = s := (List.getElem?_eq_some.mp hs).2
  unfold SlotMap.remove
  simp only [h]
  refine ⟨?_, ?_, ?_, ?_, ?_⟩
  · trivial
  · simp [slotmap_get_eq, List.getElem?_set_self hlt]
  · intro k2 hk2
    simp only [slotmap_get_eq]
    by_cases hidx : k2.idx = k.idx
    · have hv : k2.version ≠ k.version := by
        intro hv
        apply hk2
        cases k
        cases k2
        simp_all
      rw [hidx, List.getElem?_set_self hlt, hs]
      simp only [Option.some_bind, ite_self]
      exact (if_neg (fun hh => hv (hh.symm.trans hsv))).symm
    · rw [List.getElem?_set_ne (fun hh => hidx hh.symm)]
  · refine ⟨?_, ?_⟩
    · refine List.nodup_cons.mpr ⟨?_, hnd⟩
      intro hmem
      obtain ⟨sk, hsk, hskv⟩ := hfr k.idx hmem
      rw [hs] at hsk
      cases hsk
      rw [hskv] at hsval
      exact Option.noConfusion hsval
    · intro j hj
      rcases List.mem_cons.mp hj with hj | hj
      · subst hj
        exact ⟨⟨k.version + 1, none⟩, by rw [List.getElem?_set_self hlt], rfl⟩
      · obtain ⟨sj, hsj, hsjv⟩ := hfr j hj
        have hji : j ≠ k.idx := by
          intro hh
          subst hh
          rw [hs] at hsj
          cases hsj
          rw [hsjv] at hsval
          exact Option.noConfusion hsval
        exact ⟨sj, by rw [List.getElem?_set_ne (fun hh => hji hh.symm)]; exact hsj, hsjv⟩
  · have hps : (fun s : Slot A => s.value.isSome) s = true := by simp [hsval]
    have hpos : 0 < m.slots.countP (fun s => s.value.isSome) :=
      List.countP_pos_iff.mpr ⟨s, List.mem_iff_getElem?.mpr ⟨k.idx, hs⟩, hps⟩
    simp [SlotMap.len, List.countP_set _ _ _ _ hlt, hgl, hsval]
    omega

/-- `remove` on a dead key is a no-op. -/
theorem slotmap_remove_noop {A : Type} (m : SlotMap A) (k : KeyData)
    (h : m.get k = none) : m.remove k = (none, m) := by
  unfold SlotMap.remove
  rw [h]

/-! ## Lemmas about the adjacency association lists -/

theorem list_find?_filter_of_imp {B : Type} (l : List B) (p q : B → Bool)
    (h : ∀ x, p x = true → q x = true) : (l.filter q).find? p = l.find? p := by
  induction l with
  | nil => rfl
  | cons a l ih =>
    by_cases hq : q a
    · rw [List.filter_cons_of_pos hq]
      by_cases hpa : p a
      · rw [List.find?_cons_of_pos _ hpa, List.find?_cons_of_pos _ hpa]
      · rw [List.find?_cons_of_neg _ hpa, List.find?_cons_of_neg _ hpa]
        exact ih
    · have hp : ¬p a = true := by
        intro hpa
        exact hq (h a hpa)
      rw [List.filter_cons_of_neg (by simpa using hq), List.find?_cons_of_neg _ hp]
      exact ih

theorem alist_get_insertNew_self {B : Type} (l : List (KeyData × B)) (k : KeyData)
    (v : B) : AList.get (AList.insertNew l k v) k = some v := by
  unfold AList.get AList.insertNew
  rw [List.find?_cons_of_pos _ (by simp)]
  rfl

theorem alist_get_insertNew_ne {B : Type} (l : List (KeyData × B)) (k k2 : KeyData)
    (v : B) (hk : k2 ≠ k) : AList.get (AList.insertNew l k v) k2 = AList.get l k2 := by
  unfold AList.get AList.insertNew
  rw [List.find?_cons_of_neg _ (by simp [Ne.symm hk])]

theorem alist_containsKey_eq_isSome_get {B : Type} (l : List (KeyData × B))
    (k : KeyData) : AList.containsKey l k = (AList.get l k).isSome := by
  induction l with
  | nil => rfl
  | cons a l ih =>
    by_cases ha : a.1 = k
    · simp only [AList.containsKey, AList.get, List.any_cons]
      rw [List.find?_cons_of_pos _ (by simp [ha])]
      simp [ha]
    · simp only [AList.containsKey, AList.get, List.any_cons]
      rw [List.find?_cons_of_neg _ (by simp [ha])]
      rw [decide_eq_false ha, Bool.false_or]
      exact ih

theorem alist_get_eraseKey_self {B : Type} (l : List (KeyData × B)) (k : KeyData) :
    AList.get (AList.eraseKey l k) k = none := by
  simp only [AList.get, AList.eraseKey, Option.map_eq_none', List.find?_eq_none]
  intro p hp
  simp only [List.mem_filter] at hp
  simpa using hp.2

theorem alist_get_eraseKey_ne {B : Type} (l : List (KeyData × B)) (k k2 : KeyData)
    (hk : k2 ≠ k) : AList.get (AList.eraseKey l k) k2 = AList.get l k2 := by
  unfold AList.get AList.eraseKey
  rw [list_find?_filter_of_imp]
  intro x hx
  simp only [decide_eq_true_eq] at hx ⊢
  rw [hx]
  exact hk

theorem alist_mem_eraseKey {B : Type} (l : List (KeyData × B)) (k : KeyData)
    (p : KeyData × B) : p ∈ AList.eraseKey l k ↔ p ∈ l ∧ p.1 ≠ k := by
  simp [AList.eraseKey, List.mem_filter]

theorem alist_get_mem {B : Type} (l : List (KeyData × B)) (k : KeyData) (v : B)
    (h : AList.get l k = some v) : (k, v) ∈ l := by
  unfold AList.get at h
  cases hf : l.find? (fun p => p.1 = k) with
  | none => rw [hf] at h; exact absurd h (by simp)
  | some p =>
    rw [hf] at h
    have hm := List.mem_of_find?_eq_some hf
    have hp := List.find?_some hf
    simp only [decide_eq_true_eq] at hp
    have h2 : p.2 = v := by simpa using h
    have hpv : p = (k, v) := by
      cases p
      simp_all
    exact hpv ▸ hm

theorem alist_get_eq_some_of_mem {B : Type} (l : List (KeyData × B)) (k : KeyData)
    (v : B) (hnd : (l.map Prod.fst).Nodup) (h : (k, v) ∈ l) :
    AList.get l k = some v := by
  induction l with
  | nil => exact absurd h (List.not_mem_nil _)
  | cons a l ih =>
    simp only [List.map_cons, List.nodup_cons] at hnd
    rcases List.mem_cons.mp h with h | h
    · subst h
      unfold AList.get
      rw [List.find?_cons_of_pos _ (by simp)]
      rfl
    · have hak : a.1 ≠ k := by
        intro hh
        exact hnd.1 (hh ▸ (List.mem_map.mpr ⟨(k, v), h, rfl⟩))
      unfold AList.get
      rw [List.find?_cons_of_neg _ (by simp [hak])]
      exact ih hnd.2 h

theorem alist_containsKey_iff {B : Type} (l : List (KeyData × B)) (k : KeyData) :
    AList.containsKey l k = true ↔ ∃ v, (k, v) ∈ l := by
  constructor
  · intro h
    rw [alist_containsKey_eq_isSome_get] at h
    obtain ⟨v, hv⟩ := Option.isSome_iff_exists.mp h
    exact ⟨v, alist_get_mem l k v hv⟩
  · rintro ⟨v, hv⟩
    simp only [AList.containsKey, List.any_eq_true]
    exact ⟨(k, v), hv, by simp⟩

theorem secmap_get_insert_self {B : Type} (l : List (KeyData × B)) (k : KeyData)
    (v : B) : SecMap.get (SecMap.insert l k v) k = some v := by
  unfold SecMap.get SecMap.insert AList.get
  rw [List.find?_cons_of_pos _ (by simp)]
  rfl

theorem secmap_get_insert_ne {B : Type} (l : List (KeyData × B)) (k k2 : KeyData)
    (v : B) (hk : k2 ≠ k) :
    SecMap.get (SecMap.insert l k v) k2 =
      if k2.idx = k.idx then none else SecMap.get l k2 := by
  unfold SecMap.get SecMap.insert AList.get
  rw [List.find?_cons_of_neg _ (by simp [Ne.symm hk])]
  by_cases hidx : k2.idx = k.idx
  · rw [if_pos hidx]
    rw [List.find?_eq_none.mpr]
    · rfl
    · intro p hp
      simp only [List.mem_filter, decide_eq_true_eq] at hp
      simp only [decide_eq_true_eq]
      intro hpk
      exact hp.2 (by simp [hpk, hidx])
  · rw [if_neg hidx]
    rw [list_find?_filter_of_imp]
    intro x hx
    simp only [decide_eq_true_eq] at hx ⊢
    rw [hx]
    exact hidx

theorem secmap_get_modify {B : Type} (l : List (KeyData × B)) (k : KeyData)
    (f : B → B) (k2 : KeyData) :
    SecMap.get (SecMap.modify l k f) k2 =
      if k2 = k then (SecMap.get l k).map f else SecMap.get l k2 := by
  simp only [SecMap.get, SecMap.modify, AList.get]
  rw [List.find?_map]
  have hpred : ((fun p : KeyData × B => decide (p.1 = k2)) ∘
      (fun p : KeyData × B => if p.1 = k then (p.1, f p.2) else p)) =
      (fun p : KeyData × B => decide (p.1 = k2)) := by
    funext p
    by_cases hp : p.1 = k <;> simp [hp]
  rw [hpred]
  by_cases hk : k2 = k
  · subst hk
    rw [if_pos rfl]
    cases hf : l.find? (fun p => decide (p.1 = k2)) with
    | none => simp
    | some p =>
      have hp := List.find?_some hf
      simp only [decide_eq_true_eq] at hp
      simp [hp]
  · rw [if_neg hk]
    cases hf : l.find? (fun p => decide (p.1 = k2)) with
    | none => simp
    | some p =>
      have hp := List.find?_some hf
      simp only [decide_eq_true_eq] at hp
      simp [hp, hk]

theorem secmap_get_remove {B : Type} (l : List (KeyData × B)) (k k2 : KeyData) :
    SecMap.get (SecMap.remove l k) k2 = if k2 = k then none else SecMap.get l k2 := by
  by_cases hk : k2 = k
  · subst hk
    simp [SecMap.get, SecMap.remove, alist_get_eraseKey_self]
  · simp [SecMap.get, SecMap.remove, alist_get_eraseKey_ne l k k2 hk, hk]


/-! ## Breadth-first search lemmas -/

theorem bfs_processNeighbors_spec (neighbors : List (NodeIdx × EdgeIdx))
    (s : BreadthFirstSearch) :
    ∃ newq : List NodeIdx,
      (BreadthFirstSearch.processNeighbors s neighbors).queue = s.queue ++ newq ∧
      (BreadthFirstSearch.processNeighbors s neighbors).visited
        = s.visited ∪ newq.toFinset ∧
      newq.Nodup ∧
      (∀ x ∈ newq, x ∉ s.visited ∧ x ∈ neighbors.map Prod.fst) ∧
      (∀ x ∈ neighbors.map Prod.fst, x ∉ s.visited → x ∈ newq) := by
  induction neighbors generalizing s with
  | nil =>
    refine ⟨[], by simp [BreadthFirstSearch.processNeighbors], ?_, by simp, by simp, by simp⟩
    simp [BreadthFirstSearch.processNeighbors]
  | cons p rest ih =>
    by_cases hp : p.1 ∈ s.visited
    · have hstep : BreadthFirstSearch.processNeighbors s (p :: rest)
          = BreadthFirstSearch.processNeighbors s rest := by
        simp [BreadthFirstSearch.processNeighbors, hp]
      obtain ⟨newq, h1, h2, h3, h4, h5⟩ := ih s
      refine ⟨newq, hstep ▸ h1, hstep ▸ h2, h3, ?_, ?_⟩
      · intro x hx
        refine ⟨(h4 x hx).1, ?_⟩
        rw [List.map_cons]
        exact List.mem_cons_of_mem _ (h4 x hx).2
      · intro x hx hxv
        rcases List.mem_cons.mp hx with hx | hx
        · exact absurd (hx ▸ hp) hxv
        · exact h5 x hx hxv
    · have hstep : BreadthFirstSearch.processNeighbors s (p :: rest)
          = BreadthFirstSearch.processNeighbors
              ⟨s.queue ++ [p.1], insert p.1 s.visited⟩ rest := by
        simp [BreadthFirstSearch.processNeighbors, hp]
      obtain ⟨newq, h1, h2, h3, h4, h5⟩ := ih ⟨s.queue ++ [p.1], insert p.1 s.visited⟩
      refine ⟨p.1 :: newq, ?_, ?_, ?_, ?_, ?_⟩
      · rw [hstep, h1]
        simp
      · rw [hstep, h2]
        ext y
        simp only [Finset.mem_union, Finset.mem_insert, List.mem_toFinset,
          List.mem_cons]
        tauto
      · refine List.nodup_cons.mpr ⟨?_, h3⟩
        intro hmem
        exact (h4 p.1 hmem).1 (Finset.mem_insert_self p.1 s.visited)
      · intro x hx
        rcases List.mem_cons.mp hx with hx | hx
        · exact hx ▸ ⟨hp, by simp⟩
        · refine ⟨?_, ?_⟩
          · intro hxv
            exact (h4 x hx).1 (Finset.mem_insert_of_mem hxv)
          · simp only [List.map_cons, List.mem_cons]
            right
            exact (h4 x hx).2
      · intro x hx hxv
        rcases List.mem_cons.mp hx with hx | hx
        · exact hx ▸ List.mem_cons_self p.1 newq
        · by_cases hxp : x = p.1
          · exact hxp ▸ List.mem_cons_self p.1 newq
          · refine List.mem_cons_of_mem _ (h5 x hx ?_)
            intro hmem
            rcases Finset.mem_insert.mp hmem with hh | hh
            · exact hxp hh
            · exact hxv hh

theorem bfs_inv_init (edgesOf : NodeIdx → List (NodeIdx × EdgeIdx))
    (start : NodeIdx) :
    BfsInv edgesOf start [] (BreadthFirstSearch.new start) := by
  refine ⟨?_, List.nodup_nil, ?_, ?_, ?_, ?_, ?_⟩
  · simp [BreadthFirstSearch.new]
  · intro x hx
    cases hx
  · intro x
    simp [BreadthFirstSearch.new]
  · simp [BreadthFirstSearch.new]
  · intro x hx
    simp only [BreadthFirstSearch.new, Finset.mem_singleton] at hx
    exact hx ▸ Relation.ReflTransGen.refl
  · intro x hx
    cases hx

theorem bfs_inv_step (edgesOf : NodeIdx → List (NodeIdx × EdgeIdx))
    (start : NodeIdx) (out : List NodeIdx) (s : BreadthFirstSearch)
    (hinv : BfsInv edgesOf start out s) (n : NodeIdx) (rest : List NodeIdx)
    (hq : s.queue = n :: rest) :
    BreadthFirstSearch.popStep edgesOf s
      = (some n, BreadthFirstSearch.processNeighbors ⟨rest, s.visited⟩ (edgesOf n)) ∧
    BfsInv edgesOf start (out ++ [n])
      (BreadthFirstSearch.processNeighbors ⟨rest, s.visited⟩ (edgesOf n)) := by
  obtain ⟨qN, oN, dis, uni, stm, rea, clo⟩ := hinv
  have hnv : n ∈ s.visited := (uni n).mpr (Or.inr (hq ▸ List.mem_cons_self n rest))
  have hstep : BreadthFirstSearch.popStep edgesOf s
      = (some n, BreadthFirstSearch.processNeighbors ⟨rest, s.visited⟩ (edgesOf n)) := by
    unfold BreadthFirstSearch.popStep
    rw [hq]
  obtain ⟨newq, h1, h2, h3, h4, h5⟩ :=
    bfs_processNeighbors_spec (edgesOf n) ⟨rest, s.visited⟩
  have hrestN : rest.Nodup := (hq ▸ qN : (n :: rest).Nodup).of_cons
  have hnrest : n ∉ rest := (List.nodup_cons.mp (hq ▸ qN)).1
  refine ⟨hstep, ?_, ?_, ?_, ?_, ?_, ?_, ?_⟩
  · rw [h1]
    refine List.Nodup.append hrestN h3 ?_
    intro x hx1 hx2
    exact (h4 x hx2).1 ((uni x).mpr (Or.inr (hq ▸ List.mem_cons_of_mem n hx1)))
  · refine List.Nodup.append oN (by simp) ?_
    intro x hx1 hx2
    rw [List.mem_singleton] at hx2
    exact dis x hx1 (hq ▸ (hx2 ▸ List.mem_cons_self n rest))
  · intro x hx
    rw [h1, List.mem_append]
    rcases List.mem_append.mp hx with hx | hx
    · rintro (hc | hc)
      · exact dis x hx (hq ▸ List.mem_cons_of_mem n hc)
      · exact (h4 x hc).1 ((uni x).mpr (Or.inl hx))
    · rw [List.mem_singleton] at hx
      subst hx
      rintro (hc | hc)
      · exact hnrest hc
      · exact (h4 x hc).1 hnv
  · intro x
    rw [h1, h2]
    simp only [Finset.mem_union, List.mem_toFinset, List.mem_append,
      List.mem_singleton]
    constructor
    · rintro (hx | hx)
      · rcases (uni x).mp hx with hh | hh
        · exact Or.inl (Or.inl hh)
        · rw [hq] at hh
          rcases List.mem_cons.mp hh with hh | hh
          · exact Or.inl (Or.inr hh)
          · exact Or.inr (Or.inl hh)
      · exact Or.inr (Or.inr hx)
    · rintro ((hx | hx) | (hx | hx))
      · exact Or.inl ((uni x).mpr (Or.inl hx))
      · exact Or.inl ((uni x).mpr (Or.inr (hq ▸ (hx ▸ List.mem_cons_self n rest))))
      · exact Or.inl ((uni x).mpr (Or.inr (hq ▸ List.mem_cons_of_mem n hx)))
      · exact Or.inr hx
  · rw [h2]
    exact Finset.mem_union_left _ stm
  · intro x hx
    rw [h2] at hx
    rcases Finset.mem_union.mp hx with hx | hx
    · exact rea x hx
    · rw [List.mem_toFinset] at hx
      exact Relation.ReflTransGen.tail (rea n hnv) (h4 x hx).2
  · intro x hx y hy
    rw [h2]
    rcases List.mem_append.mp hx with hx | hx
    · exact Finset.mem_union_left _ (clo x hx y hy)
    · rw [List.mem_singleton] at hx
      subst hx
      by_cases hyv : y ∈ s.visited
      · exact Finset.mem_union_left _ hyv
      · exact Finset.mem_union_right _ (List.mem_toFinset.mpr (h5 y hy hyv))

theorem bfs_runPop_inv (edgesOf : NodeIdx → List (NodeIdx × EdgeIdx))
    (start : NodeIdx) :
    ∀ (fuel : Nat) (out : List NodeIdx) (s : BreadthFirstSearch),
      BfsInv edgesOf start out s →
      BfsInv edgesOf start (out ++ (BreadthFirstSearch.runPop edgesOf fuel s).1)
        (BreadthFirstSearch.runPop edgesOf fuel s).2 := by
  intro fuel
  induction fuel with
  | zero =>
    intro out s h
    simpa [BreadthFirstSearch.runPop] using h
  | succ n ih =>
    intro out s h
    cases hq : s.queue with
    | nil =>
      have hpop : BreadthFirstSearch.popStep edgesOf s = (none, s) := by
        unfold BreadthFirstSearch.popStep
        rw [hq]
      rw [BreadthFirstSearch.runPop, hpop]
      simpa using h
    | cons hd tl =>
      obtain ⟨hpop, hinv⟩ := bfs_inv_step edgesOf start out s h hd tl hq
      rw [BreadthFirstSearch.runPop, hpop]
      simp only []
      have := ih (out ++ [hd]) _ hinv
      simpa [List.append_assoc] using this


theorem bfs_reaches_mem (edgesOf : NodeIdx → List (NodeIdx × EdgeIdx))
    (start : NodeIdx) (S : Finset KeyData) (hstart : start ∈ S)
    (hcl : ∀ a ∈ S, ∀ p ∈ edgesOf a, p.1 ∈ S) (x : NodeIdx)
    (h : Reaches edgesOf start x) : x ∈ S := by
  induction h with
  | refl => exact hstart
  | tail hab hbc ih =>
    rename_i b c
    obtain ⟨p, hp, hpe⟩ := List.mem_map.mp hbc
    exact hpe ▸ hcl b ih p hp

theorem bfs_inv_visited_mem (edgesOf : NodeIdx → List (NodeIdx × EdgeIdx))
    (start : NodeIdx) (S : Finset KeyData) (hstart : start ∈ S)
    (hcl : ∀ a ∈ S, ∀ p ∈ edgesOf a, p.1 ∈ S) (out : List NodeIdx)
    (s : BreadthFirstSearch) (hinv : BfsInv edgesOf start out s) :
    out.length + s.queue.length ≤ S.card := by
  have hnd : (out ++ s.queue).Nodup :=
    List.Nodup.append hinv.oNodup hinv.qNodup hinv.disj
  have hsub : (out ++ s.queue).toFinset ⊆ S := by
    intro x hx
    rw [List.mem_toFinset] at hx
    have hv : x ∈ s.visited := (hinv.union x).mpr (by
      rcases List.mem_append.mp hx with hx | hx
      · exact Or.inl hx
      · exact Or.inr hx)
    exact bfs_reaches_mem edgesOf start S hstart hcl x (hinv.reach x hv)
  have hcard := Finset.card_le_card hsub
  rw [List.toFinset_card_of_nodup hnd] at hcard
  simpa using hcard

theorem bfs_runPop_terminal (edgesOf : NodeIdx → List (NodeIdx × EdgeIdx))
    (start : NodeIdx) (S : Finset KeyData) (hstart : start ∈ S)
    (hcl : ∀ a ∈ S, ∀ p ∈ edgesOf a, p.1 ∈ S) :
    ∀ (fuel : Nat) (out : List NodeIdx) (s : BreadthFirstSearch),
      BfsInv edgesOf start out s → S.card + 1 ≤ fuel + out.length →
      (BreadthFirstSearch.runPop edgesOf fuel s).2.queue = [] := by
  intro fuel
  induction fuel with
  | zero =>
    intro out s hinv hb
    have := bfs_inv_visited_mem edgesOf start S hstart hcl out s hinv
    omega
  | succ n ih =>
    intro out s hinv hb
    cases hq : s.queue with
    | nil =>
      have hpop : BreadthFirstSearch.popStep edgesOf s = (none, s) := by
        unfold BreadthFirstSearch.popStep
        rw [hq]
      rw [BreadthFirstSearch.runPop, hpop]
      exact hq
    | cons hd tl =>
      obtain ⟨hpop, hinv2⟩ := bfs_inv_step edgesOf start out s hinv hd tl hq
      rw [BreadthFirstSearch.runPop, hpop]
      simp only []
      have := ih (out ++ [hd]) _ hinv2 (by simp; omega)
      simpa using this

theorem bfs_final_mem (edgesOf : NodeIdx → List (NodeIdx × EdgeIdx))
    (start : NodeIdx) (out : List NodeIdx) (s : BreadthFirstSearch)
    (hinv : BfsInv edgesOf start out s) (hq : s.queue = []) (x : NodeIdx) :
    x ∈ out ↔ Reaches edgesOf start x := by
  constructor
  · intro hx
    exact hinv.reach x ((hinv.union x).mpr (Or.inl hx))
  · intro hx
    have hv : ∀ y, Reaches edgesOf start y → y ∈ s.visited := by
      intro y hy
      induction hy with
      | refl => exact hinv.startMem
      | tail hab hbc ih =>
        rename_i b c
        have hbout : b ∈ out := by
          rcases (hinv.union b).mp ih with hh | hh
          · exact hh
          · rw [hq] at hh
            cases hh
        exact hinv.closed b hbout c hbc
    rcases (hinv.union x).mp (hv x hx) with hh | hh
    · exact hh
    · rw [hq] at hh
      cases hh

/-! ## Invariant preservation for the simple map graph -/

theorem swf_new {N E : Type} (DIRECTED : Bool) :
    SWF DIRECTED (SimpleMapGraph.new : SimpleMapGraph N E) := by
  refine ⟨slotmap_wffree_empty, slotmap_wffree_empty, ?_, ?_, ?_, ?_, ?_, ?_, ?_⟩
  · intro k
    rfl
  · intro a m hm
    exact absurd hm (by simp [SimpleMapGraph.new, SecMap.get, AList.get])
  · intro a m hm
    exact absurd hm (by simp [SimpleMapGraph.new, SecMap.get, AList.get])
  · intro e ed he
    exact absurd he (by simp [SimpleMapGraph.new, slotmap_get_empty])
  · intro e ed he
    exact absurd he (by simp [SimpleMapGraph.new, slotmap_get_empty])
  · intro e ed he
    exact absurd he (by simp [SimpleMapGraph.new, slotmap_get_empty])
  · intro e ed he hD
    exact absurd he (by simp [SimpleMapGraph.new, slotmap_get_empty])

theorem swf_new_node {N E : Type} (DIRECTED : Bool) (g : SimpleMapGraph N E)
    (v : N) (h : SWF DIRECTED g) : SWF DIRECTED (g.new_node v).2 := by
  obtain ⟨hg1, hg2, hg3, hg4, hg5, hg6, hg7, hg8, hg9⟩ := h
  obtain ⟨hi1, hi2, hi3, hi4, hi5, hi6⟩ := slotmap_insert_spec g.nodes v hg1
  have hlive_ne : ∀ x, g.nodes.containsKey x = true →
      x ≠ (g.nodes.insert v).1 ∧ x.idx ≠ (g.nodes.insert v).1.idx := by
    intro x hx
    unfold SlotMap.containsKey at hx
    constructor
    · intro hxx
      rw [hxx, hi2] at hx
      simp at hx
    · intro hxx
      rw [hi4 x hxx] at hx
      simp at hx
  show SWF DIRECTED
    { g with
      nodes := (g.nodes.insert v).2
      adjacencies := SecMap.insert g.adjacencies (g.nodes.insert v).1 [] }
  refine ⟨hi5, hg2, ?_, ?_, ?_, hg6, ?_, ?_, ?_⟩
  · intro k2
    by_cases hkk : k2 = (g.nodes.insert v).1
    · subst hkk
      rw [secmap_get_insert_self]
      unfold SlotMap.containsKey
      rw [hi1]
      rfl
    · rw [secmap_get_insert_ne _ _ _ _ hkk]
      by_cases hidx : k2.idx = (g.nodes.insert v).1.idx
      · rw [if_pos hidx]
        unfold SlotMap.containsKey
        rw [hi3 k2 hkk, hi4 k2 hidx]
        rfl
      · rw [if_neg hidx]
        unfold SlotMap.containsKey
        rw [hi3 k2 hkk]
        exact hg3 k2
  · intro a m hm
    by_cases hkk : a = (g.nodes.insert v).1
    · subst hkk
      rw [secmap_get_insert_self] at hm
      cases hm
      simp
    · rw [secmap_get_insert_ne _ _ _ _ hkk] at hm
      by_cases hidx : a.idx = (g.nodes.insert v).1.idx
      · rw [if_pos hidx] at hm
        cases hm
      · rw [if_neg hidx] at hm
        exact hg4 a m hm
  · intro a m hm p hp
    by_cases hkk : a = (g.nodes.insert v).1
    · subst hkk
      rw [secmap_get_insert_self] at hm
      cases hm
      cases hp
    · rw [secmap_get_insert_ne _ _ _ _ hkk] at hm
      by_cases hidx : a.idx = (g.nodes.insert v).1.idx
      · rw [if_pos hidx] at hm
        cases hm
      · rw [if_neg hidx] at hm
        exact hg5 a m hm p hp
  · intro e ed he
    obtain ⟨hsrc, hdst⟩ := hg7 e ed he
    obtain ⟨hs1, _⟩ := hlive_ne ed.src hsrc
    obtain ⟨hd1, _⟩ := hlive_ne ed.dst hdst
    unfold SlotMap.containsKey
    rw [hi3 ed.src hs1, hi3 ed.dst hd1]
    exact ⟨hsrc, hdst⟩
  · intro e ed he
    obtain ⟨m, hm, hmem⟩ := hg8 e ed he
    obtain ⟨hs1, hs2⟩ := hlive_ne ed.src (hg7 e ed he).1
    refine ⟨m, ?_, hmem⟩
    rw [secmap_get_insert_ne _ _ _ _ hs1, if_neg hs2]
    exact hm
  · intro e ed he hD
    obtain ⟨m, hm, hmem⟩ := hg9 e ed he hD
    obtain ⟨hd1, hd2⟩ := hlive_ne ed.dst (hg7 e ed he).2
    refine ⟨m, ?_, hmem⟩
    rw [secmap_get_insert_ne _ _ _ _ hd1, if_neg hd2]
    exact hm


theorem alist_not_mem_of_containsKey_false {B : Type} (m : List (KeyData × B))
    (k : KeyData) (h : AList.containsKey m k = false) :
    k ∉ m.map Prod.fst := by
  intro hmem
  obtain ⟨p, hp, hfst⟩ := List.mem_map.mp hmem
  have : AList.containsKey m k = true := by
    simp only [AList.containsKey, List.any_eq_true]
    exact ⟨p, hp, by simp [hfst]⟩
  rw [h] at this
  cases this

theorem alist_mem_eq_of_nodup {B : Type} (m : List (KeyData × B)) (k : KeyData)
    (v1 v2 : B) (hnd : (m.map Prod.fst).Nodup) (h1 : (k, v1) ∈ m)
    (h2 : (k, v2) ∈ m) : v1 = v2 := by
  have e1 := alist_get_eq_some_of_mem m k v1 hnd h1
  have e2 := alist_get_eq_some_of_mem m k v2 hnd h2
  rw [e1] at e2
  injection e2

theorem alist_eraseKey_fst_nodup {B : Type} (m : List (KeyData × B)) (k : KeyData)
    (hnd : (m.map Prod.fst).Nodup) :
    ((AList.eraseKey m k).map Prod.fst).Nodup :=
  ((List.filter_sublist m).map Prod.fst).nodup hnd

theorem swf_new_edge_unchecked {N E : Type} (DIRECTED : Bool)
    (g : SimpleMapGraph N E) (a b : NodeIdx) (v : E) (ma : List (NodeIdx × EdgeIdx))
    (h : SWF DIRECTED g) (hab : a ≠ b)
    (ha : SecMap.get g.adjacencies a = some ma)
    (hma : AList.containsKey ma b = false)
    (hb : g.nodes.containsKey b = true)
    (hundir : DIRECTED = false → ∃ mb, SecMap.get g.adjacencies b = some mb ∧
      AList.containsKey mb a = false) :
    SWF DIRECTED (SimpleMapGraph.new_edge_unchecked DIRECTED g a b v).2 := by
  obtain ⟨hg1, hg2, hg3, hg4, hg5, hg6, hg7, hg8, hg9⟩ := h
  obtain ⟨hi1, hi2, hi3, hi4, hi5, hi6⟩ :=
    slotmap_insert_spec g.edges (⟨a, b, v⟩ : Edge E) hg2
  have halive : g.nodes.containsKey a = true := by
    rw [← hg3 a, ha]
    rfl
  have hfresh : ∀ e2 (ed2 : Edge E), g.edges.get e2 = some ed2 →
      e2 ≠ (g.edges.insert ⟨a, b, v⟩).1 := by
    intro e2 ed2 he2 hee
    rw [hee, hi2] at he2
    cases he2
  cases DIRECTED with
  | true =>
    show SWF true
      { g with
        edges := (g.edges.insert ⟨a, b, v⟩).2
        adjacencies := SecMap.modify g.adjacencies a
          (fun m => AList.insertNew m b (g.edges.insert ⟨a, b, v⟩).1) }
    refine ⟨hg1, hi5, ?_, ?_, ?_, ?_, ?_, ?_, ?_⟩
    · intro k
      rw [secmap_get_modify]
      by_cases hk : k = a
      · rw [if_pos hk, ha, hk]
        rw [← hg3 a, ha]
        rfl
      · rw [if_neg hk]
        exact hg3 k
    · intro x m hm
      rw [secmap_get_modify] at hm
      by_cases hx : x = a
      · rw [if_pos hx, ha] at hm
        cases hm
        simp only [AList.insertNew, List.map_cons]
        exact List.nodup_cons.mpr
          ⟨alist_not_mem_of_containsKey_false ma b hma, hg4 a ma ha⟩
      · rw [if_neg hx] at hm
        exact hg4 x m hm
    · intro x m hm p hp
      rw [secmap_get_modify] at hm
      by_cases hx : x = a
      · rw [if_pos hx, ha] at hm
        cases hm
        rw [hx]
        rcases List.mem_cons.mp hp with hp | hp
        · rw [hp]
          exact ⟨⟨a, b, v⟩, hi1, rfl, rfl⟩
        · obtain ⟨ed, hed, hmat⟩ := hg5 a ma ha p hp
          exact ⟨ed, by rw [hi3 p.2 (hfresh p.2 ed hed)]; exact hed, hmat⟩
      · rw [if_neg hx] at hm
        obtain ⟨ed, hed, hmat⟩ := hg5 x m hm p hp
        exact ⟨ed, by rw [hi3 p.2 (hfresh p.2 ed hed)]; exact hed, hmat⟩
    · intro e ed he
      by_cases hee : e = (g.edges.insert ⟨a, b, v⟩).1
      · rw [hee, hi1] at he
        cases he
        exact hab
      · rw [hi3 e hee] at he
        exact hg6 e ed he
    · intro e ed he
      by_cases hee : e = (g.edges.insert ⟨a, b, v⟩).1
      · rw [hee, hi1] at he
        cases he
        exact ⟨halive, hb⟩
      · rw [hi3 e hee] at he
        exact hg7 e ed he
    · intro e ed he
      by_cases hee : e = (g.edges.insert ⟨a, b, v⟩).1
      · rw [hee, hi1] at he
        cases he
        rw [hee]
        refine ⟨AList.insertNew ma b (g.edges.insert ⟨a, b, v⟩).1, ?_, ?_⟩
        · rw [secmap_get_modify, if_pos rfl, ha]
          rfl
        · exact List.mem_cons.mpr (Or.inl rfl)
      · rw [hi3 e hee] at he
        obtain ⟨m, hm, hmem⟩ := hg8 e ed he
        rw [secmap_get_modify]
        by_cases hx : ed.src = a
        · rw [if_pos hx]
          rw [hx, ha] at hm
          cases hm
          exact ⟨_, by rw [ha]; rfl, List.mem_cons_of_mem _ hmem⟩
        · rw [if_neg hx]
          exact ⟨m, hm, hmem⟩
    · intro e ed he hD
      cases hD
  | false =>
    obtain ⟨mb, hbrec, hmb⟩ := hundir rfl
    show SWF false
      { g with
        edges := (g.edges.insert ⟨a, b, v⟩).2
        adjacencies := SecMap.modify
          (SecMap.modify g.adjacencies a
            (fun m => AList.insertNew m b (g.edges.insert ⟨a, b, v⟩).1))
          b (fun m => AList.insertNew m a (g.edges.insert ⟨a, b, v⟩).1) }
    have hgetA : ∀ k, SecMap.get (SecMap.modify
        (SecMap.modify g.adjacencies a
          (fun m => AList.insertNew m b (g.edges.insert ⟨a, b, v⟩).1))
        b (fun m => AList.insertNew m a (g.edges.insert ⟨a, b, v⟩).1)) k =
        if k = b then some (AList.insertNew mb a (g.edges.insert ⟨a, b, v⟩).1)
        else if k = a then some (AList.insertNew ma b (g.edges.insert ⟨a, b, v⟩).1)
        else SecMap.get g.adjacencies k := by
      intro k
      by_cases hk : k = b
      · rw [hk, if_pos rfl, secmap_get_modify, if_pos rfl, secmap_get_modify,
          if_neg (Ne.symm hab), hbrec]
        rfl
      · by_cases hk2 : k = a
        · rw [hk2, if_neg (fun hh => hab hh), if_pos rfl, secmap_get_modify,
            if_neg (fun hh => hab hh), secmap_get_modify, if_pos rfl, ha]
          rfl
        · rw [if_neg hk, if_neg hk2, secmap_get_modify, if_neg hk,
            secmap_get_modify, if_neg hk2]
    refine ⟨hg1, hi5, ?_, ?_, ?_, ?_, ?_, ?_, ?_⟩
    · intro k
      rw [hgetA]
      by_cases hk : k = b
      · rw [if_pos hk, hk]
        rw [← hg3 b, hbrec]
        rfl
      · rw [if_neg hk]
        by_cases hk2 : k = a
        · rw [if_pos hk2, hk2]
          rw [← hg3 a, ha]
          rfl
        · rw [if_neg hk2]
          exact hg3 k
    · intro x m hm
      rw [hgetA] at hm
      by_cases hx : x = b
      · rw [if_pos hx] at hm
        cases hm
        simp only [AList.insertNew, List.map_cons]
        exact List.nodup_cons.mpr
          ⟨alist_not_mem_of_containsKey_false mb a hmb, hg4 b mb hbrec⟩
      · rw [if_neg hx] at hm
        by_cases hx2 : x = a
        · rw [if_pos hx2] at hm
          cases hm
          simp only [AList.insertNew, List.map_cons]
          exact List.nodup_cons.mpr
            ⟨alist_not_mem_of_containsKey_false ma b hma, hg4 a ma ha⟩
        · rw [if_neg hx2] at hm
          exact hg4 x m hm
    · intro x m hm p hp
      rw [hgetA] at hm
      by_cases hx : x = b
      · rw [if_pos hx] at hm
        cases hm
        rw [hx]
        rcases List.mem_cons.mp hp with hp | hp
        · rw [hp]
          exact ⟨⟨a, b, v⟩, hi1, Or.inr ⟨rfl, rfl⟩⟩
        · obtain ⟨ed, hed, hmat⟩ := hg5 b mb hbrec p hp
          exact ⟨ed, by rw [hi3 p.2 (hfresh p.2 ed hed)]; exact hed, hmat⟩
      · rw [if_neg hx] at hm
        by_cases hx2 : x = a
        · rw [if_pos hx2] at hm
          cases hm
          rw [hx2]
          rcases List.mem_cons.mp hp with hp | hp
          · rw [hp]
            exact ⟨⟨a, b, v⟩, hi1, Or.inl ⟨rfl, rfl⟩⟩
          · obtain ⟨ed, hed, hmat⟩ := hg5 a ma ha p hp
            exact ⟨ed, by rw [hi3 p.2 (hfresh p.2 ed hed)]; exact hed, hmat⟩
        · rw [if_neg hx2] at hm
          obtain ⟨ed, hed, hmat⟩ := hg5 x m hm p hp
          exact ⟨ed, by rw [hi3 p.2 (hfresh p.2 ed hed)]; exact hed, hmat⟩
    · intro e ed he
      by_cases hee : e = (g.edges.insert ⟨a, b, v⟩).1
      · rw [hee, hi1] at he
        cases he
        exact hab
      · rw [hi3 e hee] at he
        exact hg6 e ed he
    · intro e ed he
      by_cases hee : e = (g.edges.insert ⟨a, b, v⟩).1
      · rw [hee, hi1] at he
        cases he
        exact ⟨halive, hb⟩
      · rw [hi3 e hee] at he
        exact hg7 e ed he
    · intro e ed he
      by_cases hee : e = (g.edges.insert ⟨a, b, v⟩).1
      · rw [hee, hi1] at he
        cases he
        rw [hee]
        refine ⟨AList.insertNew ma b (g.edges.insert ⟨a, b, v⟩).1, ?_, ?_⟩
        · rw [hgetA, if_neg (by intro hh; exact hab hh), if_pos rfl]
        · exact List.mem_cons.mpr (Or.inl rfl)
      · rw [hi3 e hee] at he
        obtain ⟨m, hm, hmem⟩ := hg8 e ed he
        rw [hgetA]
        by_cases hx : ed.src = b
        · rw [if_pos hx]
          rw [hx, hbrec] at hm
          cases hm
          exact ⟨_, rfl, List.mem_cons_of_mem _ hmem⟩
        · rw [if_neg hx]
          by_cases hx2 : ed.src = a
          · rw [if_pos hx2]
            rw [hx2, ha] at hm
            cases hm
            exact ⟨_, rfl, List.mem_cons_of_mem _ hmem⟩
          · rw [if_neg hx2]
            exact ⟨m, hm, hmem⟩
    · intro e ed he hD
      by_cases hee : e = (g.edges.insert ⟨a, b, v⟩).1
      · rw [hee, hi1] at he
        cases he
        rw [hee]
        refine ⟨AList.insertNew mb a (g.edges.insert ⟨a, b, v⟩).1, ?_, ?_⟩
        · rw [hgetA, if_pos rfl]
        · exact List.mem_cons.mpr (Or.inl rfl)
      · rw [hi3 e hee] at he
        obtain ⟨m, hm, hmem⟩ := hg9 e ed he rfl
        rw [hgetA]
        by_cases hx : ed.dst = b
        · rw [if_pos hx]
          rw [hx, hbrec] at hm
          cases hm
          exact ⟨_, rfl, List.mem_cons_of_mem _ hmem⟩
        · rw [if_neg hx]
          by_cases hx2 : ed.dst = a
          · rw [if_pos hx2]
            rw [hx2, ha] at hm
            cases hm
            exact ⟨_, rfl, List.mem_cons_of_mem _ hmem⟩
          · rw [if_neg hx2]
            exact ⟨m, hm, hmem⟩

theorem new_edge_eq_loop {N E : Type} (DIRECTED : Bool) (g : SimpleMapGraph N E)
    (a b : NodeIdx) (v : E) (hab : a = b) :
    SimpleMapGraph.new_edge DIRECTED g a b v = (.error (.EdgeBetweenSameNode a), g) := by
  cases DIRECTED <;>
    · unfold SimpleMapGraph.new_edge
      simp [hab]

theorem new_edge_eq_nosrc {N E : Type} (DIRECTED : Bool) (g : SimpleMapGraph N E)
    (a b : NodeIdx) (v : E) (hab : ¬a = b)
    (hma : SecMap.get g.adjacencies a = none) :
    SimpleMapGraph.new_edge DIRECTED g a b v = (.error (.NodeIdxDoesntExist a), g) := by
  cases DIRECTED with
  | true =>
    unfold SimpleMapGraph.new_edge
    rw [if_pos rfl, if_neg hab]
    simp only [hma]
  | false =>
    unfold SimpleMapGraph.new_edge
    rw [if_neg Bool.false_ne_true, if_neg hab]
    simp only [hma]

theorem new_edge_eq_dup {N E : Type} (DIRECTED : Bool) (g : SimpleMapGraph N E)
    (a b : NodeIdx) (v : E) (ma : List (NodeIdx × EdgeIdx)) (hab : ¬a = b)
    (hma : SecMap.get g.adjacencies a = some ma)
    (hck : AList.containsKey ma b = true) :
    SimpleMapGraph.new_edge DIRECTED g a b v
      = (.error (.EdgeBetweenAlreadyExists a b), g) := by
  cases DIRECTED with
  | true =>
    unfold SimpleMapGraph.new_edge
    rw [if_pos rfl, if_neg hab]
    simp only [hma]
    rw [if_pos hck]
  | false =>
    unfold SimpleMapGraph.new_edge
    rw [if_neg Bool.false_ne_true, if_neg hab]
    simp only [hma]
    rw [if_pos hck]

theorem new_edge_true_eq_nodst {N E : Type} (g : SimpleMapGraph N E)
    (a b : NodeIdx) (v : E) (ma : List (NodeIdx × EdgeIdx)) (hab : ¬a = b)
    (hma : SecMap.get g.adjacencies a = some ma)
    (hck : AList.containsKey ma b = false) (hb : g.has_node b = false) :
    SimpleMapGraph.new_edge true g a b v = (.error (.NodeIdxDoesntExist b), g) := by
  unfold SimpleMapGraph.new_edge
  rw [if_pos rfl, if_neg hab]
  simp only [hma]
  rw [if_neg (by rw [hck]; exact Bool.false_ne_true), if_neg (by rw [hb]; exact Bool.false_ne_true)]

theorem new_edge_true_eq_ok {N E : Type} (g : SimpleMapGraph N E)
    (a b : NodeIdx) (v : E) (ma : List (NodeIdx × EdgeIdx)) (hab : ¬a = b)
    (hma : SecMap.get g.adjacencies a = some ma)
    (hck : AList.containsKey ma b = false) (hb : g.has_node b = true) :
    SimpleMapGraph.new_edge true g a b v
      = (.ok (SimpleMapGraph.new_edge_unchecked true g a b v).1,
        (SimpleMapGraph.new_edge_unchecked true g a b v).2) := by
  unfold SimpleMapGraph.new_edge
  rw [if_pos rfl, if_neg hab]
  simp only [hma]
  rw [if_neg (by rw [hck]; exact Bool.false_ne_true), if_pos hb]

theorem new_edge_false_eq_nodst {N E : Type} (g : SimpleMapGraph N E)
    (a b : NodeIdx) (v : E) (ma : List (NodeIdx × EdgeIdx)) (hab : ¬a = b)
    (hma : SecMap.get g.adjacencies a = some ma)
    (hck : AList.containsKey ma b = false)
    (hmb : SecMap.get g.adjacencies b = none) :
    SimpleMapGraph.new_edge false g a b v = (.error (.NodeIdxDoesntExist b), g) := by
  unfold SimpleMapGraph.new_edge
  rw [if_neg (Bool.false_ne_true), if_neg hab]
  simp only [hma]
  rw [if_neg (by rw [hck]; exact Bool.false_ne_true)]
  simp only [hmb]

theorem new_edge_false_eq_dup2 {N E : Type} (g : SimpleMapGraph N E)
    (a b : NodeIdx) (v : E) (ma mb : List (NodeIdx × EdgeIdx)) (hab : ¬a = b)
    (hma : SecMap.get g.adjacencies a = some ma)
    (hck : AList.containsKey ma b = false)
    (hmb : SecMap.get g.adjacencies b = some mb)
    (hck2 : AList.containsKey mb a = true) :
    SimpleMapGraph.new_edge false g a b v
      = (.error (.EdgeBetweenAlreadyExists a b), g) := by
  unfold SimpleMapGraph.new_edge
  rw [if_neg (Bool.false_ne_true), if_neg hab]
  simp only [hma]
  rw [if_neg (by rw [hck]; exact Bool.false_ne_true)]
  simp only [hmb]
  rw [if_pos hck2]

theorem new_edge_false_eq_ok {N E : Type} (g : SimpleMapGraph N E)
    (a b : NodeIdx) (v : E) (ma mb : List (NodeIdx × EdgeIdx)) (hab : ¬a = b)
    (hma : SecMap.get g.adjacencies a = some ma)
    (hck : AList.containsKey ma b = false)
    (hmb : SecMap.get g.adjacencies b = some mb)
    (hck2 : AList.containsKey mb a = false) :
    SimpleMapGraph.new_edge false g a b v
      = (.ok (SimpleMapGraph.new_edge_unchecked false g a b v).1,
        (SimpleMapGraph.new_edge_unchecked false g a b v).2) := by
  unfold SimpleMapGraph.new_edge
  rw [if_neg (Bool.false_ne_true), if_neg hab]
  simp only [hma]
  rw [if_neg (by rw [hck]; exact Bool.false_ne_true)]
  simp only [hmb]
  rw [if_neg (by rw [hck2]; exact Bool.false_ne_true)]

theorem swf_new_edge {N E : Type} (DIRECTED : Bool) (g : SimpleMapGraph N E)
    (a b : NodeIdx) (v : E) (h : SWF DIRECTED g) :
    SWF DIRECTED (SimpleMapGraph.new_edge DIRECTED g a b v).2 := by
  by_cases hab : a = b
  · rw [new_edge_eq_loop DIRECTED g a b v hab]
    exact h
  · cases hma : SecMap.get g.adjacencies a with
    | none =>
      rw [new_edge_eq_nosrc DIRECTED g a b v hab hma]
      exact h
    | some ma =>
      cases hck : AList.containsKey ma b with
      | true =>
        rw [new_edge_eq_dup DIRECTED g a b v ma hab hma hck]
        exact h
      | false =>
        cases DIRECTED with
        | true =>
          cases hb : g.has_node b with
          | false =>
            rw [new_edge_true_eq_nodst g a b v ma hab hma hck hb]
            exact h
          | true =>
            rw [new_edge_true_eq_ok g a b v ma hab hma hck hb]
            exact swf_new_edge_unchecked true g a b v ma h hab hma hck hb
              (fun hD => by cases hD)
        | false =>
          cases hmb : SecMap.get g.adjacencies b with
          | none =>
            rw [new_edge_false_eq_nodst g a b v ma hab hma hck hmb]
            exact h
          | some mb =>
            cases hck2 : AList.containsKey mb a with
            | true =>
              rw [new_edge_false_eq_dup2 g a b v ma mb hab hma hck hmb hck2]
              exact h
            | false =>
              rw [new_edge_false_eq_ok g a b v ma mb hab hma hck hmb hck2]
              have hb : g.has_node b = true := by
                unfold SimpleMapGraph.has_node
                rw [← h.adjLive b, hmb]
                rfl
              exact swf_new_edge_unchecked false g a b v ma h hab hma hck hb
                (fun _ => ⟨mb, hmb, hck2⟩)


theorem option_isSome_map {A B : Type} (f : A → B) (x : Option A) :
    (Option.map f x).isSome = x.isSome := by
  cases x <;> rfl

/-- Full characterisation of `remove_edge_unchecked` on a live edge: it
returns the payload, the invariant survives, nodes are untouched, the edge
is freed (all other edges unchanged), record existence is unchanged, and —
the heart of the symmetry property — no surviving adjacency entry anywhere
mentions the removed handle. -/
theorem swf_remove_edge_unchecked {N E : Type} (DIRECTED : Bool)
    (g : SimpleMapGraph N E) (e : EdgeIdx) (ed : Edge E) (h : SWF DIRECTED g)
    (he : g.edges.get e = some ed) :
    ∃ g2, SimpleMapGraph.remove_edge_unchecked DIRECTED g e = some (ed.data, g2) ∧
      SWF DIRECTED g2 ∧
      g2.nodes = g.nodes ∧
      g2.edges.get e = none ∧
      (∀ e2, e2 ≠ e → g2.edges.get e2 = g.edges.get e2) ∧
      (∀ x, (SecMap.get g2.adjacencies x).isSome = (SecMap.get g.adjacencies x).isSome) ∧
      (∀ x m2 p, SecMap.get g2.adjacencies x = some m2 → p ∈ m2 →
        p.2 ≠ e ∧ ∃ m, SecMap.get g.adjacencies x = some m ∧ p ∈ m) := by
  obtain ⟨hg1, hg2, hg3, hg4, hg5, hg6, hg7, hg8, hg9⟩ := h
  obtain ⟨hr1, hr2, hr3, hr4, hr5⟩ := slotmap_remove_spec g.edges e ed he hg2
  have hds : ed.src ≠ ed.dst := hg6 e ed he
  obtain ⟨msrc, hmsrc, hmemsrc⟩ := hg8 e ed he
  cases DIRECTED with
  | true =>
    refine ⟨{ g with
        edges := (g.edges.remove e).2
        adjacencies := SecMap.modify g.adjacencies ed.src
          (fun m => AList.eraseKey m ed.dst) }, ?_, ?_, rfl, hr2, hr3, ?_, ?_⟩
    · unfold SimpleMapGraph.remove_edge_unchecked
      simp only [he]
      rw [if_pos trivial]
    · have hsurv : ∀ x m2 p, SecMap.get (SecMap.modify g.adjacencies ed.src
          (fun m => AList.eraseKey m ed.dst)) x = some m2 → p ∈ m2 →
          p.2 ≠ e ∧ ∃ m, SecMap.get g.adjacencies x = some m ∧ p ∈ m := by
        intro x m2 p hm2 hp
        rw [secmap_get_modify] at hm2
        by_cases hx : x = ed.src
        · rw [if_pos hx, hmsrc] at hm2
          cases hm2
          obtain ⟨hpm, hpk⟩ := (alist_mem_eraseKey msrc ed.dst p).mp hp
          refine ⟨?_, msrc, hx ▸ hmsrc, hpm⟩
          intro hpe
          obtain ⟨ed2, hed2, hmat⟩ := hg5 ed.src msrc hmsrc p hpm
          rw [hpe, he] at hed2
          cases hed2
          exact hpk hmat.2.symm
        · rw [if_neg hx] at hm2
          refine ⟨?_, m2, hm2, hp⟩
          intro hpe
          obtain ⟨ed2, hed2, hmat⟩ := hg5 x m2 hm2 p hp
          rw [hpe, he] at hed2
          cases hed2
          exact hx hmat.1.symm
      refine ⟨hg1, hr4, ?_, ?_, ?_, ?_, ?_, ?_, ?_⟩
      · intro k
        rw [secmap_get_modify]
        by_cases hk : k = ed.src
        · rw [if_pos hk, option_isSome_map, hk]
          exact hg3 ed.src
        · rw [if_neg hk]
          exact hg3 k
      · intro x m2 hm2
        rw [secmap_get_modify] at hm2
        by_cases hx : x = ed.src
        · rw [if_pos hx, hmsrc] at hm2
          cases hm2
          exact alist_eraseKey_fst_nodup msrc ed.dst (hg4 ed.src msrc hmsrc)
        · rw [if_neg hx] at hm2
          exact hg4 x m2 hm2
      · intro x m2 hm2 p hp
        obtain ⟨hpe, m, hm, hpm⟩ := hsurv x m2 p hm2 hp
        obtain ⟨ed2, hed2, hmat⟩ := hg5 x m hm p hpm
        exact ⟨ed2, by rw [hr3 p.2 hpe]; exact hed2, hmat⟩
      · intro e2 ed2 he2
        by_cases hee : e2 = e
        · rw [hee, hr2] at he2
          cases he2
        · rw [hr3 e2 hee] at he2
          exact hg6 e2 ed2 he2
      · intro e2 ed2 he2
        by_cases hee : e2 = e
        · rw [hee, hr2] at he2
          cases he2
        · rw [hr3 e2 hee] at he2
          exact hg7 e2 ed2 he2
      · intro e2 ed2 he2
        by_cases hee : e2 = e
        · rw [hee, hr2] at he2
          cases he2
        · rw [hr3 e2 hee] at he2
          obtain ⟨m, hm, hmem⟩ := hg8 e2 ed2 he2
          rw [secmap_get_modify]
          by_cases hx : ed2.src = ed.src
          · rw [if_pos hx]
            rw [hx, hmsrc] at hm
            cases hm
            refine ⟨_, by rw [hmsrc]; rfl,
              (alist_mem_eraseKey msrc ed.dst _).mpr ⟨hmem, ?_⟩⟩
            intro hdd
            have he2e : e2 = e := alist_mem_eq_of_nodup msrc ed.dst e2 e
              (hg4 ed.src msrc hmsrc) (hdd ▸ hmem) hmemsrc
            exact hee he2e
          · rw [if_neg hx]
            exact ⟨m, hm, hmem⟩
      · intro e2 ed2 he2 hD
        cases hD
    · intro x
      rw [secmap_get_modify]
      by_cases hx : x = ed.src
      · rw [if_pos hx, option_isSome_map, hx]
      · rw [if_neg hx]
    · intro x m2 p hm2 hp
      rw [secmap_get_modify] at hm2
      by_cases hx : x = ed.src
      · rw [if_pos hx, hmsrc] at hm2
        cases hm2
        obtain ⟨hpm, hpk⟩ := (alist_mem_eraseKey msrc ed.dst p).mp hp
        refine ⟨?_, msrc, hx ▸ hmsrc, hpm⟩
        intro hpe
        obtain ⟨ed2, hed2, hmat⟩ := hg5 ed.src msrc hmsrc p hpm
        rw [hpe, he] at hed2
        cases hed2
        exact hpk hmat.2.symm
      · rw [if_neg hx] at hm2
        refine ⟨?_, m2, hm2, hp⟩
        intro hpe
        obtain ⟨ed2, hed2, hmat⟩ := hg5 x m2 hm2 p hp
        rw [hpe, he] at hed2
        cases hed2
        exact hx hmat.1.symm
  | false =>
    obtain ⟨mdst, hmdst, hmemdst⟩ := hg9 e ed he rfl
    have hget2 : ∀ k, SecMap.get (SecMap.modify
        (SecMap.modify g.adjacencies ed.src (fun m => AList.eraseKey m ed.dst))
        ed.dst (fun m => AList.eraseKey m ed.src)) k =
        if k = ed.dst then some (AList.eraseKey mdst ed.src)
        else if k = ed.src then some (AList.eraseKey msrc ed.dst)
        else SecMap.get g.adjacencies k := by
      intro k
      by_cases hk : k = ed.dst
      · rw [hk, if_pos rfl, secmap_get_modify, if_pos rfl, secmap_get_modify,
          if_neg (Ne.symm hds), hmdst]
        rfl
      · by_cases hk2 : k = ed.src
        · rw [hk2, if_neg hds, if_pos rfl, secmap_get_modify,
            if_neg hds, secmap_get_modify, if_pos rfl, hmsrc]
          rfl
        · rw [if_neg hk, if_neg hk2, secmap_get_modify, if_neg hk,
            secmap_get_modify, if_neg hk2]
    have hsurv : ∀ x m2 p, SecMap.get (SecMap.modify
        (SecMap.modify g.adjacencies ed.src (fun m => AList.eraseKey m ed.dst))
        ed.dst (fun m => AList.eraseKey m ed.src)) x = some m2 → p ∈ m2 →
        p.2 ≠ e ∧ ∃ m, SecMap.get g.adjacencies x = some m ∧ p ∈ m := by
      intro x m2 p hm2 hp
      rw [hget2] at hm2
      by_cases hx : x = ed.dst
      · rw [if_pos hx] at hm2
        cases hm2
        obtain ⟨hpm, hpk⟩ := (alist_mem_eraseKey mdst ed.src p).mp hp
        refine ⟨?_, mdst, hx ▸ hmdst, hpm⟩
        intro hpe
        obtain ⟨ed2, hed2, hmat⟩ := hg5 ed.dst mdst hmdst p hpm
        rw [hpe, he] at hed2
        cases hed2
        rcases hmat with ⟨h1, h2⟩ | ⟨h1, h2⟩
        · exact hds h1
        · exact hpk h1.symm
      · rw [if_neg hx] at hm2
        by_cases hx2 : x = ed.src
        · rw [if_pos hx2] at hm2
          cases hm2
          obtain ⟨hpm, hpk⟩ := (alist_mem_eraseKey msrc ed.dst p).mp hp
          refine ⟨?_, msrc, hx2 ▸ hmsrc, hpm⟩
          intro hpe
          obtain ⟨ed2, hed2, hmat⟩ := hg5 ed.src msrc hmsrc p hpm
          rw [hpe, he] at hed2
          cases hed2
          rcases hmat with ⟨h1, h2⟩ | ⟨h1, h2⟩
          · exact hpk h2.symm
          · exact hds h2.symm
        · rw [if_neg hx2] at hm2
          refine ⟨?_, m2, hm2, hp⟩
          intro hpe
          obtain ⟨ed2, hed2, hmat⟩ := hg5 x m2 hm2 p hp
          rw [hpe, he] at hed2
          cases hed2
          rcases hmat with ⟨h1, _⟩ | ⟨_, h2⟩
          · exact hx2 h1.symm
          · exact hx h2.symm
    refine ⟨{ g with
        edges := (g.edges.remove e).2
        adjacencies := SecMap.modify
          (SecMap.modify g.adjacencies ed.src (fun m => AList.eraseKey m ed.dst))
          ed.dst (fun m => AList.eraseKey m ed.src) }, ?_, ?_, rfl, hr2, hr3, ?_, hsurv⟩
    · unfold SimpleMapGraph.remove_edge_unchecked
      simp [he]
    · refine ⟨hg1, hr4, ?_, ?_, ?_, ?_, ?_, ?_, ?_⟩
      · intro k
        rw [hget2]
        by_cases hk : k = ed.dst
        · rw [if_pos hk, hk, ← hg3 ed.dst, hmdst]
          rfl
        · rw [if_neg hk]
          by_cases hk2 : k = ed.src
          · rw [if_pos hk2, hk2, ← hg3 ed.src, hmsrc]
            rfl
          · rw [if_neg hk2]
            exact hg3 k
      · intro x m2 hm2
        rw [hget2] at hm2
        by_cases hx : x = ed.dst
        · rw [if_pos hx] at hm2
          cases hm2
          exact alist_eraseKey_fst_nodup mdst ed.src (hg4 ed.dst mdst hmdst)
        · rw [if_neg hx] at hm2
          by_cases hx2 : x = ed.src
          · rw [if_pos hx2] at hm2
            cases hm2
            exact alist_eraseKey_fst_nodup msrc ed.dst (hg4 ed.src msrc hmsrc)
          · rw [if_neg hx2] at hm2
            exact hg4 x m2 hm2
      · intro x m2 hm2 p hp
        obtain ⟨hpe, m, hm, hpm⟩ := hsurv x m2 p hm2 hp
        obtain ⟨ed2, hed2, hmat⟩ := hg5 x m hm p hpm
        exact ⟨ed2, by rw [hr3 p.2 hpe]; exact hed2, hmat⟩
      · intro e2 ed2 he2
        by_cases hee : e2 = e
        · rw [hee, hr2] at he2
          cases he2
        · rw [hr3 e2 hee] at he2
          exact hg6 e2 ed2 he2
      · intro e2 ed2 he2
        by_cases hee : e2 = e
        · rw [hee, hr2] at he2
          cases he2
        · rw [hr3 e2 hee] at he2
          exact hg7 e2 ed2 he2
      · intro e2 ed2 he2
        by_cases hee : e2 = e
        · rw [hee, hr2] at he2
          cases he2
        · rw [hr3 e2 hee] at he2
          obtain ⟨m, hm, hmem⟩ := hg8 e2 ed2 he2
          rw [hget2]
          by_cases hx : ed2.src = ed.dst
          · rw [if_pos hx]
            rw [hx, hmdst] at hm
            cases hm
            refine ⟨_, rfl, (alist_mem_eraseKey mdst ed.src _).mpr ⟨hmem, ?_⟩⟩
            intro hdd
            have : e2 = e := alist_mem_eq_of_nodup mdst ed.src e2 e
              (hg4 ed.dst mdst hmdst) (hdd ▸ hmem) hmemdst
            exact hee this
          · rw [if_neg hx]
            by_cases hx2 : ed2.src = ed.src
            · rw [if_pos hx2]
              rw [hx2, hmsrc] at hm
              cases hm
              refine ⟨_, rfl, (alist_mem_eraseKey msrc ed.dst _).mpr ⟨hmem, ?_⟩⟩
              intro hdd
              have : e2 = e := alist_mem_eq_of_nodup msrc ed.dst e2 e
                (hg4 ed.src msrc hmsrc) (hdd ▸ hmem) hmemsrc
              exact hee this
            · rw [if_neg hx2]
              exact ⟨m, hm, hmem⟩
      · intro e2 ed2 he2 hD
        by_cases hee : e2 = e
        · rw [hee, hr2] at he2
          cases he2
        · rw [hr3 e2 hee] at he2
          obtain ⟨m, hm, hmem⟩ := hg9 e2 ed2 he2 rfl
          rw [hget2]
          by_cases hx : ed2.dst = ed.dst
          · rw [if_pos hx]
            rw [hx, hmdst] at hm
            cases hm
            refine ⟨_, rfl, (alist_mem_eraseKey mdst ed.src _).mpr ⟨hmem, ?_⟩⟩
            intro hdd
            have : e2 = e := alist_mem_eq_of_nodup mdst ed.src e2 e
              (hg4 ed.dst mdst hmdst) (hdd ▸ hmem) hmemdst
            exact hee this
          · rw [if_neg hx]
            by_cases hx2 : ed2.dst = ed.src
            · rw [if_pos hx2]
              rw [hx2, hmsrc] at hm
              cases hm
              refine ⟨_, rfl, (alist_mem_eraseKey msrc ed.dst _).mpr ⟨hmem, ?_⟩⟩
              intro hdd
              have : e2 = e := alist_mem_eq_of_nodup msrc ed.dst e2 e
                (hg4 ed.src msrc hmsrc) (hdd ▸ hmem) hmemsrc
              exact hee this
            · rw [if_neg hx2]
              exact ⟨m, hm, hmem⟩
    · intro x
      rw [hget2]
      by_cases hx : x = ed.dst
      · rw [if_pos hx, hx, hmdst]
        rfl
      · rw [if_neg hx]
        by_cases hx2 : x = ed.src
        · rw [if_pos hx2, hx2, hmsrc]
          rfl
        · rw [if_neg hx2]


theorem list_filterMap_fst_sublist {C A B : Type} (l : List (C × A))
    (f : C × A → Option B) (g : B → C)
    (hf : ∀ x b, f x = some b → g b = x.1) :
    (((l.filterMap f).map g)).Sublist (l.map Prod.fst) := by
  induction l with
  | nil => exact List.Sublist.refl _
  | cons x l ih =>
    rw [List.filterMap_cons, List.map_cons]
    cases hfx : f x with
    | none => exact ih.cons x.1
    | some b =>
      rw [List.map_cons, hf x b hfx]
      exact ih.cons₂ x.1

theorem slotmap_entries_fst_nodup {A : Type} (m : SlotMap A) :
    (m.entries.map Prod.fst).Nodup := by
  have h1 : ((m.entries.map Prod.fst).map KeyData.idx).Nodup := by
    rw [List.map_map]
    have hs := list_filterMap_fst_sublist m.slots.enum
      (fun p => match p.2.value with
        | some v => some ((⟨p.1, p.2.version⟩ : KeyData), v)
        | none => none)
      (fun q => q.1.idx) ?_
    · exact (List.Nodup.sublist hs (List.nodup_enum_map_fst _))
    · intro x b hb
      cases hx : x.2.value with
      | none =>
        simp only [hx] at hb
        exact absurd hb (by simp)
      | some v =>
        simp only [hx] at hb
        cases hb
        rfl
  exact List.Nodup.of_map KeyData.idx h1

theorem slotmap_entries_mem {A : Type} (m : SlotMap A) (k : KeyData) (a : A) :
    (k, a) ∈ m.entries ↔ m.get k = some a := by
  unfold SlotMap.entries
  rw [List.mem_filterMap]
  constructor
  · rintro ⟨p, hp, hfp⟩
    obtain ⟨n, hn⟩ := List.mem_iff_getElem?.mp hp
    rw [List.getElem?_enum] at hn
    cases hsl : m.slots[n]? with
    | none => rw [hsl] at hn; cases hn
    | some s =>
      rw [hsl] at hn
      cases hn
      cases hv : s.value with
      | none => rw [hv] at hfp; cases hfp
      | some v =>
        rw [hv] at hfp
        cases hfp
        rw [slotmap_get_eq, hsl]
        simp [hv]
  · intro hget
    rw [slotmap_get_eq] at hget
    cases hsl : m.slots[k.idx]? with
    | none => rw [hsl] at hget; cases hget
    | some s =>
      rw [hsl] at hget
      simp only [Option.some_bind] at hget
      by_cases hv : s.version = k.version
      · rw [if_pos hv] at hget
        refine ⟨(k.idx, s), ?_, ?_⟩
        · exact List.mem_iff_getElem?.mpr ⟨k.idx, by rw [List.getElem?_enum, hsl]; rfl⟩
        · rw [hget]
          cases k
          simp_all
      · rw [if_neg hv] at hget
        cases hget

theorem swf_remove_edge {N E : Type} (DIRECTED : Bool) (g : SimpleMapGraph N E)
    (e : EdgeIdx) (h : SWF DIRECTED g) :
    SWF DIRECTED (SimpleMapGraph.remove_edge DIRECTED g e).2 := by
  unfold SimpleMapGraph.remove_edge
  by_cases hc : g.edges.containsKey e = true
  · rw [if_pos hc]
    obtain ⟨ed, hed⟩ := Option.isSome_iff_exists.mp hc
    obtain ⟨g2, heq, hswf, _⟩ := swf_remove_edge_unchecked DIRECTED g e ed h hed
    rw [heq]
    exact hswf
  · rw [if_neg hc]
    exact h

theorem swf_removeEdgesUnchecked {N E : Type} (DIRECTED : Bool) :
    ∀ (es : List EdgeIdx) (g : SimpleMapGraph N E), SWF DIRECTED g →
    (∀ e ∈ es, (g.edges.get e).isSome = true) → es.Nodup →
    ∃ g2, SimpleMapGraph.removeEdgesUnchecked DIRECTED g es = some g2 ∧
      SWF DIRECTED g2 ∧
      g2.nodes = g.nodes ∧
      (∀ e ∈ es, g2.edges.get e = none) ∧
      (∀ e, e ∉ es → g2.edges.get e = g.edges.get e) ∧
      (∀ x, (SecMap.get g2.adjacencies x).isSome = (SecMap.get g.adjacencies x).isSome) := by
  intro es
  induction es with
  | nil =>
    intro g h hl hn
    refine ⟨g, rfl, h, rfl, ?_, ?_, ?_⟩
    · intro e he
      cases he
    · intro e he
      rfl
    · intro x
      rfl
  | cons e rest ih =>
    intro g h hlive hnd
    obtain ⟨ed, hed⟩ := Option.isSome_iff_exists.mp
      (hlive e (List.mem_cons_self e rest))
    obtain ⟨g1, heq1, hswf1, hnodes1, hzero1, hoth1, hadj1, hsurv1⟩ :=
      swf_remove_edge_unchecked DIRECTED g e ed h hed
    have hne : e ∉ rest := (List.nodup_cons.mp hnd).1
    obtain ⟨g2, heq2, hswf2, hnodes2, hzero2, hoth2, hadj2⟩ :=
      ih g1 hswf1 (by
        intro e2 he2
        have hne2 : e2 ≠ e := fun hh => hne (hh ▸ he2)
        rw [hoth1 e2 hne2]
        exact hlive e2 (List.mem_cons_of_mem e he2))
        (List.nodup_cons.mp hnd).2
    refine ⟨g2, ?_, hswf2, hnodes2.trans hnodes1, ?_, ?_, ?_⟩
    · unfold SimpleMapGraph.removeEdgesUnchecked
      rw [heq1]
      exact heq2
    · intro e2 he2
      rcases List.mem_cons.mp he2 with he2 | he2
      · rw [he2]
        by_cases hin : e ∈ rest
        · exact hzero2 e hin
        · rw [hoth2 e hin]
          exact hzero1
      · exact hzero2 e2 he2
    · intro e2 he2
      have h1 : e2 ∉ rest := fun hh => he2 (List.mem_cons_of_mem e hh)
      have h2 : e2 ≠ e := fun hh => he2 (hh ▸ List.mem_cons_self e rest)
      rw [hoth2 e2 h1, hoth1 e2 h2]
    · intro x
      rw [hadj2 x, hadj1 x]


theorem swf_record_snd_nodup {N E : Type} (DIRECTED : Bool)
    (g : SimpleMapGraph N E) (h : SWF DIRECTED g) (nn : NodeIdx)
    (m : List (NodeIdx × EdgeIdx)) (hm : SecMap.get g.adjacencies nn = some m) :
    (m.map Prod.snd).Nodup := by
  have hfst := List.pairwise_map.mp (h.recNodup nn m hm)
  refine List.pairwise_map.mpr (List.Pairwise.imp_of_mem ?_ hfst)
  intro p q hp hq hne hsnd
  obtain ⟨ed1, hed1, hmat1⟩ := h.recMatch nn m hm p hp
  obtain ⟨ed2, hed2, hmat2⟩ := h.recMatch nn m hm q hq
  rw [hsnd, hed2] at hed1
  cases hed1
  apply hne
  cases DIRECTED with
  | true => exact hmat1.2.symm.trans hmat2.2
  | false =>
    rcases hmat1 with ⟨h1, h2⟩ | ⟨h1, h2⟩ <;> rcases hmat2 with ⟨h3, h4⟩ | ⟨h3, h4⟩
    · exact h2.symm.trans h4
    · exact h2.symm.trans (h4.trans (h1.symm.trans h3))
    · exact h1.symm.trans (h3.trans (h2.symm.trans h4))
    · exact h1.symm.trans h3

theorem swf_remove_node {N E : Type} (DIRECTED : Bool) (g : SimpleMapGraph N E)
    (n : NodeIdx) (h : SWF DIRECTED g) (r : Except GraphError N)
    (g2 : SimpleMapGraph N E)
    (heq : SimpleMapGraph.remove_node DIRECTED g n = some (r, g2)) :
    SWF DIRECTED g2 := by
  have tail : ∀ (g1 : SimpleMapGraph N E), SWF DIRECTED g1 →
      (∀ e ed, g1.edges.get e = some ed → ed.src ≠ n ∧ ed.dst ≠ n) →
      (match g1.nodes.remove n with
        | (some nn, nodes1) => some ((.ok nn : Except GraphError N),
            { g1 with
              nodes := nodes1
              adjacencies := SecMap.remove g1.adjacencies n })
        | (none, _) => some (.error (.NodeIdxDoesntExist n), g1)) = some (r, g2) →
      SWF DIRECTED g2 := by
    intro g1 h1 hinc heq2
    cases hrem : g1.nodes.remove n with
    | mk fst nodes1 =>
      cases fst with
      | none =>
        rw [hrem] at heq2
        simp only [] at heq2
        cases heq2
        exact h1
      | some nn =>
        rw [hrem] at heq2
        simp only [] at heq2
        cases heq2
        have hget : g1.nodes.get n = some nn := by
          unfold SlotMap.remove at hrem
          cases hget : g1.nodes.get n with
          | none =>
            rw [hget] at hrem
            cases hrem
          | some v =>
            rw [hget] at hrem
            cases hrem
            rfl
        obtain ⟨hr1, hr2, hr3, hr4, hr5⟩ := slotmap_remove_spec g1.nodes n nn hget h1.nodesFree
        have hnodes1 : (g1.nodes.remove n).2 = nodes1 := by rw [hrem]
        rw [hnodes1] at hr2 hr3 hr4 hr5
        refine ⟨hr4, h1.edgesFree, ?_, ?_, ?_, h1.edgeLoop, ?_, ?_, ?_⟩
        · intro k
          rw [secmap_get_remove]
          by_cases hk : k = n
          · rw [if_pos hk]
            unfold SlotMap.containsKey
            rw [hk, hr2]
            rfl
          · rw [if_neg hk]
            unfold SlotMap.containsKey
            rw [hr3 k hk]
            exact h1.adjLive k
        · intro x m hm
          rw [secmap_get_remove] at hm
          by_cases hx : x = n
          · rw [if_pos hx] at hm
            cases hm
          · rw [if_neg hx] at hm
            exact h1.recNodup x m hm
        · intro x m hm p hp
          rw [secmap_get_remove] at hm
          by_cases hx : x = n
          · rw [if_pos hx] at hm
            cases hm
          · rw [if_neg hx] at hm
            exact h1.recMatch x m hm p hp
        · intro e ed he
          obtain ⟨hs, hd⟩ := h1.edgeEnds e ed he
          obtain ⟨hsn, hdn⟩ := hinc e ed he
          unfold SlotMap.containsKey
          rw [hr3 ed.src hsn, hr3 ed.dst hdn]
          exact ⟨hs, hd⟩
        · intro e ed he
          obtain ⟨m, hm, hmem⟩ := h1.edgeSrc e ed he
          refine ⟨m, ?_, hmem⟩
          rw [secmap_get_remove, if_neg (hinc e ed he).1]
          exact hm
        · intro e ed he hD
          obtain ⟨m, hm, hmem⟩ := h1.edgeDst e ed he hD
          refine ⟨m, ?_, hmem⟩
          rw [secmap_get_remove, if_neg (hinc e ed he).2]
          exact hm
  cases DIRECTED with
  | true =>
    unfold SimpleMapGraph.remove_node at heq
    rw [if_pos rfl] at heq
    have hlive : ∀ e ∈ ((g.edges.entries.filter
        (fun p => decide (p.2.dst = n ∨ p.2.src = n))).map (fun p => p.1)),
        (g.edges.get e).isSome = true := by
      intro e he
      obtain ⟨p, hp, hpe⟩ := List.mem_map.mp he
      have hpm := (List.mem_filter.mp hp).1
      have := (slotmap_entries_mem g.edges p.1 p.2).mp (by cases p; exact hpm)
      rw [← hpe, this]
      rfl
    have hnd : ((g.edges.entries.filter
        (fun p => decide (p.2.dst = n ∨ p.2.src = n))).map (fun p => p.1)).Nodup := by
      have hsub := (List.filter_sublist
        (p := fun p : KeyData × Edge E => decide (p.2.dst = n ∨ p.2.src = n))
        g.edges.entries).map (fun p => p.1)
      exact List.Nodup.sublist hsub (slotmap_entries_fst_nodup g.edges)
    obtain ⟨g1, heq1, hswf1, hnodes1, hzero1, hoth1, hadj1⟩ :=
      swf_removeEdgesUnchecked true _ g h hlive hnd
    simp only [heq1] at heq
    refine tail g1 hswf1 ?_ heq
    intro e ed hed
    by_cases hin : e ∈ ((g.edges.entries.filter
        (fun p => decide (p.2.dst = n ∨ p.2.src = n))).map (fun p => p.1))
    · rw [hzero1 e hin] at hed
      cases hed
    · rw [hoth1 e hin] at hed
      constructor
      · intro hsrc
        apply hin
        refine List.mem_map.mpr ⟨(e, ed), ?_, rfl⟩
        refine List.mem_filter.mpr ⟨(slotmap_entries_mem g.edges e ed).mpr hed, ?_⟩
        simp [hsrc]
      · intro hdst
        apply hin
        refine List.mem_map.mpr ⟨(e, ed), ?_, rfl⟩
        refine List.mem_filter.mpr ⟨(slotmap_entries_mem g.edges e ed).mpr hed, ?_⟩
        simp [hdst]
  | false =>
    unfold SimpleMapGraph.remove_node at heq
    rw [if_neg Bool.false_ne_true] at heq
    cases hm : SimpleMapGraph.edges_of g n with
    | none =>
      rw [hm] at heq
      cases heq
    | some m =>
      simp only [hm] at heq
      have hmrec : SecMap.get g.adjacencies n = some m := hm
      have hlive : ∀ e ∈ m.map (fun p => p.2), (g.edges.get e).isSome = true := by
        intro e he
        obtain ⟨p, hp, hpe⟩ := List.mem_map.mp he
        obtain ⟨ed, hed, _⟩ := h.recMatch n m hmrec p hp
        rw [← hpe, hed]
        rfl
      have hnd : (m.map (fun p => p.2)).Nodup :=
        swf_record_snd_nodup false g h n m hmrec
      obtain ⟨g1, heq1, hswf1, hnodes1, hzero1, hoth1, hadj1⟩ :=
        swf_removeEdgesUnchecked false _ g h hlive hnd
      simp only [heq1] at heq
      refine tail g1 hswf1 ?_ heq
      intro e ed hed
      by_cases hin : e ∈ m.map (fun p => p.2)
      · rw [hzero1 e hin] at hed
        cases hed
      · rw [hoth1 e hin] at hed
        constructor
        · intro hsrc
          apply hin
          obtain ⟨m2, hm2, hmem⟩ := h.edgeSrc e ed hed
          rw [hsrc, hmrec] at hm2
          cases hm2
          exact List.mem_map.mpr ⟨(ed.dst, e), hmem, rfl⟩
        · intro hdst
          apply hin
          obtain ⟨m2, hm2, hmem⟩ := h.edgeDst e ed hed rfl
          rw [hdst, hmrec] at hm2
          cases hm2
          exact List.mem_map.mpr ⟨(ed.src, e), hmem, rfl⟩


theorem reachable_swf {N E : Type} (DIRECTED : Bool) (g : SimpleMapGraph N E)
    (h : ReachableS DIRECTED g) : SWF DIRECTED g := by
  induction h with
  | new => exact swf_new DIRECTED
  | new_node g v _ ih => exact swf_new_node DIRECTED g v ih
  | new_edge g a b v _ ih => exact swf_new_edge DIRECTED g a b v ih
  | remove_edge g e _ ih => exact swf_remove_edge DIRECTED g e ih
  | remove_node g nn r g2 _ heq ih => exact swf_remove_node DIRECTED g nn ih r g2 heq

theorem new_edge_ok_dup_state {N E : Type} (DIRECTED : Bool)
    (g : SimpleMapGraph N E) (a b : NodeIdx) (v : E) (e : EdgeIdx)
    (g1 : SimpleMapGraph N E)
    (hok : SimpleMapGraph.new_edge DIRECTED g a b v = (.ok e, g1)) :
    ¬a = b ∧
    (∃ m1, SecMap.get g1.adjacencies a = some m1 ∧ AList.containsKey m1 b = true) ∧
    (DIRECTED = false →
      ∃ m2, SecMap.get g1.adjacencies b = some m2 ∧ AList.containsKey m2 a = true) := by
  by_cases hab : a = b
  · rw [new_edge_eq_loop DIRECTED g a b v hab] at hok
    simp at hok
  · cases hma : SecMap.get g.adjacencies a with
    | none =>
      rw [new_edge_eq_nosrc DIRECTED g a b v hab hma] at hok
      simp at hok
    | some ma =>
      cases hck : AList.containsKey ma b with
      | true =>
        rw [new_edge_eq_dup DIRECTED g a b v ma hab hma hck] at hok
        simp at hok
      | false =>
        cases DIRECTED with
        | true =>
          cases hb : g.has_node b with
          | false =>
            rw [new_edge_true_eq_nodst g a b v ma hab hma hck hb] at hok
            simp at hok
          | true =>
            rw [new_edge_true_eq_ok g a b v ma hab hma hck hb] at hok
            cases hok
            refine ⟨hab, ?_, fun hD => by cases hD⟩
            refine ⟨AList.insertNew ma b (g.edges.insert ⟨a, b, v⟩).1, ?_, ?_⟩
            · show SecMap.get (SecMap.modify g.adjacencies a
                (fun m => AList.insertNew m b (g.edges.insert ⟨a, b, v⟩).1)) a = _
              rw [secmap_get_modify, if_pos rfl, hma]
              rfl
            · simp [AList.containsKey, AList.insertNew]
        | false =>
          cases hmb : SecMap.get g.adjacencies b with
          | none =>
            rw [new_edge_false_eq_nodst g a b v ma hab hma hck hmb] at hok
            simp at hok
          | some mb =>
            cases hck2 : AList.containsKey mb a with
            | true =>
              rw [new_edge_false_eq_dup2 g a b v ma mb hab hma hck hmb hck2] at hok
              simp at hok
            | false =>
              rw [new_edge_false_eq_ok g a b v ma mb hab hma hck hmb hck2] at hok
              cases hok
              have hget : ∀ k, SecMap.get (SimpleMapGraph.new_edge_unchecked false
                  g a b v).2.adjacencies k =
                  if k = b then some (AList.insertNew mb a (g.edges.insert ⟨a, b, v⟩).1)
                  else if k = a then some (AList.insertNew ma b (g.edges.insert ⟨a, b, v⟩).1)
                  else SecMap.get g.adjacencies k := by
                intro k
                show SecMap.get (SecMap.modify (SecMap.modify g.adjacencies a
                  (fun m => AList.insertNew m b (g.edges.insert ⟨a, b, v⟩).1)) b
                  (fun m => AList.insertNew m a (g.edges.insert ⟨a, b, v⟩).1)) k = _
                by_cases hk : k = b
                · rw [hk, if_pos rfl, secmap_get_modify, if_pos rfl,
                    secmap_get_modify, if_neg (Ne.symm hab), hmb]
                  rfl
                · by_cases hk2 : k = a
                  · rw [hk2, if_neg hab, if_pos rfl, secmap_get_modify,
                      if_neg hab, secmap_get_modify, if_pos rfl, hma]
                    rfl
                  · rw [if_neg hk, if_neg hk2, secmap_get_modify, if_neg hk,
                      secmap_get_modify, if_neg hk2]
              refine ⟨hab, ?_, fun _ => ?_⟩
              · refine ⟨AList.insertNew ma b (g.edges.insert ⟨a, b, v⟩).1, ?_, ?_⟩
                · rw [hget, if_neg hab, if_pos rfl]
                · simp [AList.containsKey, AList.insertNew]
              · refine ⟨AList.insertNew mb a (g.edges.insert ⟨a, b, v⟩).1, ?_, ?_⟩
                · rw [hget, if_pos rfl]
                · simp [AList.containsKey, AList.insertNew]


/-! ## Lemmas for the undirected map multigraph -/

theorem countIdx_cons (x : EdgeIdx) (l : List EdgeIdx) (e : EdgeIdx) :
    countIdx (x :: l) e = countIdx l e + if x = e then 1 else 0 := by
  by_cases h : x = e <;> simp [countIdx, List.countP_cons, h]

theorem countIdx_append (l1 l2 : List EdgeIdx) (e : EdgeIdx) :
    countIdx (l1 ++ l2) e = countIdx l1 e + countIdx l2 e := by
  simp [countIdx, List.countP_append]

theorem countIdx_singleton (x e : EdgeIdx) :
    countIdx [x] e = if x = e then 1 else 0 := by
  by_cases h : x = e <;> simp [countIdx, h]

theorem countIdx_eq_zero (l : List EdgeIdx) (e : EdgeIdx) :
    countIdx l e = 0 ↔ e ∉ l := by
  unfold countIdx
  rw [List.countP_eq_zero]
  constructor
  · intro h hmem
    have := h e hmem
    simp at this
  · intro h a ha
    simp only [decide_eq_true_eq]
    intro hae
    subst hae
    exact h ha

theorem removeByValue_countIdx_self (l : List EdgeIdx) (e : EdgeIdx) :
    countIdx (removeByValue l e) e = countIdx l e - 1 := by
  induction l with
  | nil => rfl
  | cons x xs ih =>
    unfold removeByValue
    by_cases hx : x = e
    · rw [if_pos hx, countIdx_cons, if_pos hx]
      omega
    · rw [if_neg hx, countIdx_cons, if_neg hx, countIdx_cons, if_neg hx, ih]
      omega

theorem removeByValue_countIdx_ne (l : List EdgeIdx) (e e2 : EdgeIdx)
    (h : ¬e2 = e) :
    countIdx (removeByValue l e) e2 = countIdx l e2 := by
  induction l with
  | nil => rfl
  | cons x xs ih =>
    unfold removeByValue
    by_cases hx : x = e
    · rw [if_pos hx, countIdx_cons, if_neg (by rw [hx]; exact fun h2 => h h2.symm)]
      omega
    · rw [if_neg hx, countIdx_cons, countIdx_cons, ih]

theorem alist_containsKey_iff_mem_keys {B : Type} (m : List (KeyData × B))
    (k : KeyData) :
    AList.containsKey m k = true ↔ k ∈ m.map Prod.fst := by
  rw [alist_containsKey_iff]
  constructor
  · rintro ⟨v, hv⟩
    exact List.mem_map.mpr ⟨(k, v), hv, rfl⟩
  · intro h
    obtain ⟨p, hp, hfst⟩ := List.mem_map.mp h
    exact ⟨p.2, by rw [← hfst]; simpa using hp⟩

theorem secmap_modify_keys {B : Type} (l : List (KeyData × B)) (k : KeyData)
    (f : B → B) : (SecMap.modify l k f).map Prod.fst = l.map Prod.fst := by
  induction l with
  | nil => rfl
  | cons p ps ih =>
    simp only [SecMap.modify, List.map_cons] at ih ⊢
    by_cases hp : p.1 = k
    · rw [if_pos hp]
      simp [ih]
    · rw [if_neg hp]
      simp [ih]

theorem secmap_get_mapval {B : Type} (l : List (KeyData × B)) (f : B → B)
    (k : KeyData) :
    SecMap.get (l.map (fun p => (p.1, f p.2))) k = (SecMap.get l k).map f := by
  simp only [SecMap.get, AList.get]
  rw [List.find?_map]
  have hpred : ((fun p : KeyData × B => decide (p.1 = k)) ∘
      (fun p : KeyData × B => (p.1, f p.2))) =
      (fun p : KeyData × B => decide (p.1 = k)) := by
    funext p
    rfl
  rw [hpred]
  cases l.find? (fun p : KeyData × B => decide (p.1 = k)) <;> rfl

theorem mapEntryRemove_eq_modify (m : MultiAdjMap) (k : NodeIdx) (e : EdgeIdx) :
    mapEntryRemove m k e = SecMap.modify m k (fun v => removeByValue v e) := rfl

theorem mapEntryPush_eq_modify (m : MultiAdjMap) (k : NodeIdx) (e : EdgeIdx)
    (hc : AList.containsKey m k = true) :
    mapEntryPush m k e = SecMap.modify m k (fun v => v ++ [e]) := by
  unfold mapEntryPush
  rw [if_pos hc]
  rfl

theorem mapEntryPush_get_self (m : MultiAdjMap) (k : NodeIdx) (e : EdgeIdx) :
    AList.get (mapEntryPush m k e) k = some ((AList.get m k).getD [] ++ [e]) := by
  cases hc : AList.containsKey m k with
  | true =>
    rw [mapEntryPush_eq_modify m k e hc]
    have hmod : SecMap.get (SecMap.modify m k (fun v => v ++ [e])) k =
        (SecMap.get m k).map (fun v => v ++ [e]) := by
      rw [secmap_get_modify, if_pos rfl]
    rw [show AList.get (SecMap.modify m k fun v => v ++ [e]) k =
      SecMap.get (SecMap.modify m k fun v => v ++ [e]) k from rfl, hmod]
    obtain ⟨v, hv⟩ := Option.isSome_iff_exists.mp
      (by rw [← alist_containsKey_eq_isSome_get]; exact hc)
    rw [show SecMap.get m k = AList.get m k from rfl, hv]
    rfl
  | false =>
    unfold mapEntryPush
    rw [if_neg (by simp [hc])]
    rw [alist_get_insertNew_self]
    have hnone : AList.get m k = none := by
      rw [alist_containsKey_eq_isSome_get] at hc
      cases ho : AList.get m k with
      | none => rfl
      | some v => rw [ho] at hc; simp at hc
    rw [hnone]
    rfl

theorem mapEntryPush_get_ne (m : MultiAdjMap) (k : NodeIdx) (e : EdgeIdx)
    (x : NodeIdx) (hx : ¬x = k) :
    AList.get (mapEntryPush m k e) x = AList.get m x := by
  cases hc : AList.containsKey m k with
  | true =>
    rw [mapEntryPush_eq_modify m k e hc]
    rw [show AList.get (SecMap.modify m k fun v => v ++ [e]) x =
      SecMap.get (SecMap.modify m k fun v => v ++ [e]) x from rfl]
    rw [secmap_get_modify, if_neg hx]
    rfl
  | false =>
    unfold mapEntryPush
    rw [if_neg (by simp [hc])]
    exact alist_get_insertNew_ne m k x [e] hx

theorem mapEntryPush_containsKey (m : MultiAdjMap) (k : NodeIdx) (e : EdgeIdx)
    (x : NodeIdx) :
    AList.containsKey (mapEntryPush m k e) x =
      if x = k then true else AList.containsKey m x := by
  by_cases hx : x = k
  · rw [if_pos hx, hx, alist_containsKey_eq_isSome_get, mapEntryPush_get_self]
    rfl
  · rw [if_neg hx, alist_containsKey_eq_isSome_get,
      mapEntryPush_get_ne m k e x hx, ← alist_containsKey_eq_isSome_get]

theorem mapEntryPush_keys (m : MultiAdjMap) (k : NodeIdx) (e : EdgeIdx) :
    (mapEntryPush m k e).map Prod.fst =
      if AList.containsKey m k then m.map Prod.fst
      else k :: m.map Prod.fst := by
  cases hc : AList.containsKey m k with
  | true =>
    rw [mapEntryPush_eq_modify m k e hc, if_pos rfl]
    exact secmap_modify_keys m k _
  | false =>
    rw [if_neg Bool.false_ne_true]
    unfold mapEntryPush
    rw [if_neg (by simp [hc])]
    rfl

theorem cleared_slot_value_none {A : Type} (s : Slot A) :
    (if s.value.isSome then (⟨s.version + 1, none⟩ : Slot A) else s).value
      = none := by
  by_cases hv : s.value.isSome = true
  · rw [if_pos hv]
  · rw [if_neg hv]
    cases hsv : s.value with
    | none => rfl
    | some v => rw [hsv] at hv; simp at hv

theorem slotmap_cleared_get {A : Type} (m : SlotMap A) (k : KeyData) :
    SlotMap.get ⟨m.slots.map
        (fun s => if s.value.isSome then ⟨s.version + 1, none⟩ else s),
      List.range m.slots.length⟩ k = none := by
  rw [slotmap_get_eq]
  simp only
  rw [List.getElem?_map]
  cases ho : m.slots[k.idx]? with
  | none => rfl
  | some s =>
    simp only [Option.map_some', Option.some_bind]
    by_cases hver : (if s.value.isSome then (⟨s.version + 1, none⟩ : Slot A)
        else s).version = k.version
    · rw [if_pos hver, cleared_slot_value_none]
    · rw [if_neg hver]

theorem slotmap_cleared_wffree {A : Type} (m : SlotMap A) :
    SlotMap.WFfree ⟨m.slots.map
        (fun s => if s.value.isSome then ⟨s.version + 1, none⟩ else s),
      List.range m.slots.length⟩ := by
  refine ⟨List.nodup_range _, ?_⟩
  intro i hi
  simp only [List.mem_range] at hi
  refine ⟨if m.slots[i].value.isSome then ⟨m.slots[i].version + 1, none⟩
    else m.slots[i], ?_, cleared_slot_value_none _⟩
  simp only
  rw [List.getElem?_map, List.getElem?_eq_getElem hi]
  rfl


theorem mwf_new {N E : Type} : MWF (MultiMapGraph.new : MultiMapGraph N E) := by
  refine ⟨slotmap_wffree_empty, slotmap_wffree_empty, ?_, ?_, ?_, ?_, ?_, ?_,
    ?_, ?_⟩
  · intro k
    rfl
  · intro k st h
    exact Option.noConfusion h
  · intro x m h
    exact Option.noConfusion h
  · intro x m h
    exact Option.noConfusion h
  · intro a b ma mb ha hb
    exact Option.noConfusion ha
  · intro e ed h
    exact Option.noConfusion h
  · intro e ed h
    exact Option.noConfusion h
  · intro x m h
    exact Option.noConfusion h

theorem mwf_clear {N E : Type} (g : MultiMapGraph N E) : MWF g.clear := by
  have hadj : g.clear.adjacencies = [] := rfl
  have hedge : ∀ e, g.clear.edges.get e = none :=
    fun e => slotmap_cleared_get g.edges e
  have hnode : ∀ k, g.clear.nodes.containsKey k = false := by
    intro k
    unfold SlotMap.containsKey
    rw [show g.clear.nodes = ⟨g.nodes.slots.map
        (fun s => if s.value.isSome then ⟨s.version + 1, none⟩ else s),
      List.range g.nodes.slots.length⟩ from rfl]
    rw [slotmap_cleared_get]
    rfl
  refine ⟨slotmap_cleared_wffree g.nodes, slotmap_cleared_wffree g.edges,
    ?_, ?_, ?_, ?_, ?_, ?_, ?_, ?_⟩
  · intro k
    rw [hadj, hnode]
    rfl
  · intro k st h
    rw [hadj] at h
    exact Option.noConfusion h
  · intro x m h
    rw [hadj] at h
    exact Option.noConfusion h
  · intro x m h
    rw [hadj] at h
    exact Option.noConfusion h
  · intro a b ma mb ha hb
    rw [hadj] at ha
    exact Option.noConfusion ha
  · intro e ed h
    rw [hedge] at h
    exact Option.noConfusion h
  · intro e ed h
    rw [hedge] at h
    exact Option.noConfusion h
  · intro x m h
    rw [hadj] at h
    exact Option.noConfusion h

theorem mwf_clear_edges {N E : Type} (g : MultiMapGraph N E) (h : MWF g) :
    MWF g.clear_edges := by
  have hnodes : g.clear_edges.nodes = g.nodes := rfl
  have hadj : g.clear_edges.adjacencies = g.adjacencies.map
      (fun p => (p.1, p.2.forEachMut (fun _ => ([] : MultiAdjMap)))) := rfl
  have hedge : ∀ e, g.clear_edges.edges.get e = none := by
    intro e
    rw [show g.clear_edges.edges = ⟨g.edges.slots.map
        (fun s => if s.value.isSome then ⟨s.version + 1, none⟩ else s),
      List.range g.edges.slots.length⟩ from rfl]
    exact slotmap_cleared_get g.edges e
  have hget : ∀ k, SecMap.get g.clear_edges.adjacencies k =
      (SecMap.get g.adjacencies k).map
        (fun st => st.forEachMut (fun _ => ([] : MultiAdjMap))) := by
    intro k
    rw [hadj]
    exact secmap_get_mapval g.adjacencies _ k
  have hrec : ∀ k m, SecMap.get g.clear_edges.adjacencies k =
      some (.Undirected m) → m = [] := by
    intro k m hk
    rw [hget] at hk
    obtain ⟨st0, hst0, hmap⟩ := Option.map_eq_some'.mp hk
    obtain ⟨m0, hm0⟩ := h.adjUndir k st0 hst0
    subst hm0
    simp only [AdjacencyStorage.forEachMut] at hmap
    injection hmap with hmap
    exact hmap.symm
  refine ⟨?_, ?_, ?_, ?_, ?_, ?_, ?_, ?_, ?_, ?_⟩
  · rw [show g.clear_edges.nodes = g.nodes from rfl]
    exact h.nodesFree
  · rw [show g.clear_edges.edges = ⟨g.edges.slots.map
        (fun s => if s.value.isSome then ⟨s.version + 1, none⟩ else s),
      List.range g.edges.slots.length⟩ from rfl]
    exact slotmap_cleared_wffree g.edges
  · intro k
    rw [hget, hnodes, option_isSome_map]
    exact h.adjLive k
  · intro k st hst
    rw [hget] at hst
    obtain ⟨st0, hst0, hmap⟩ := Option.map_eq_some'.mp hst
    obtain ⟨m0, hm0⟩ := h.adjUndir k st0 hst0
    subst hm0
    exact ⟨[], hmap.symm⟩
  · intro x m hm
    rw [hrec x m hm]
    exact List.Pairwise.nil
  · intro x m hm y hy
    rw [hrec x m hm] at hy
    simp at hy
  · intro a b ma mb ha hb
    rw [hrec a ma ha, hrec b mb hb]
    rfl
  · intro e ed he
    rw [hedge] at he
    exact Option.noConfusion he
  · intro e ed he
    rw [hedge] at he
    exact Option.noConfusion he
  · intro x m hm y v hv
    rw [hrec x m hm] at hv
    exact Option.noConfusion hv


theorem mwf_add_node {N E : Type} (g : MultiMapGraph N E) (v : N) (h : MWF g) :
    MWF (MultiMapGraph.add_node false g v).2 := by
  obtain ⟨hi1, hi2, hi3, hi4, hi5, hi6⟩ := slotmap_insert_spec g.nodes v h.nodesFree
  have hA : (MultiMapGraph.add_node false g v).2.adjacencies =
      SecMap.insert g.adjacencies (g.nodes.insert v).1
        (AdjacencyStorage.Undirected []) := rfl
  have hN : (MultiMapGraph.add_node false g v).2.nodes = (g.nodes.insert v).2 := rfl
  have hE : (MultiMapGraph.add_node false g v).2.edges = g.edges := rfl
  have hfreshdead : g.nodes.containsKey (g.nodes.insert v).1 = false := by
    unfold SlotMap.containsKey
    rw [hi2]
    rfl
  have hidxdead : ∀ k, k.idx = (g.nodes.insert v).1.idx →
      g.nodes.containsKey k = false := by
    intro k hk
    unfold SlotMap.containsKey
    rw [hi4 k hk]
    rfl
  have hadj : ∀ k, SecMap.get (SecMap.insert g.adjacencies (g.nodes.insert v).1
      (AdjacencyStorage.Undirected [])) k =
      if k = (g.nodes.insert v).1 then some (AdjacencyStorage.Undirected [])
      else if k.idx = (g.nodes.insert v).1.idx then none
      else SecMap.get g.adjacencies k := by
    intro k
    by_cases hk : k = (g.nodes.insert v).1
    · rw [if_pos hk, hk, secmap_get_insert_self]
    · rw [if_neg hk, secmap_get_insert_ne _ _ _ _ hk]
  have hnode : ∀ k, (g.nodes.insert v).2.containsKey k =
      if k = (g.nodes.insert v).1 then true
      else g.nodes.containsKey k := by
    intro k
    by_cases hk : k = (g.nodes.insert v).1
    · rw [if_pos hk, hk]
      unfold SlotMap.containsKey
      rw [hi1]
      rfl
    · rw [if_neg hk]
      unfold SlotMap.containsKey
      rw [hi3 k hk]
  have hnolive : ∀ mb x, SecMap.get g.adjacencies x = some (.Undirected mb) →
      AList.containsKey mb (g.nodes.insert v).1 = false := by
    intro mb x hx
    cases hc : AList.containsKey mb (g.nodes.insert v).1 with
    | false => rfl
    | true =>
      have hmem := (alist_containsKey_iff_mem_keys mb _).mp hc
      have hlive := h.recKeysLive x mb hx _ hmem
      rw [hfreshdead] at hlive
      exact Bool.noConfusion hlive
  have hexp : ∀ x y e0, expCountU (MultiMapGraph.add_node false g v).2 x y e0 =
      expCountU g x y e0 := by
    intro x y e0
    unfold expCountU
    rw [hE]
  refine ⟨?_, ?_, ?_, ?_, ?_, ?_, ?_, ?_, ?_, ?_⟩
  · rw [hN]
    exact hi5
  · rw [hE]
    exact h.edgesFree
  · intro k
    rw [hA, hN, hadj, hnode]
    by_cases hk : k = (g.nodes.insert v).1
    · rw [if_pos hk, if_pos hk]
      rfl
    · rw [if_neg hk, if_neg hk]
      by_cases hidx : k.idx = (g.nodes.insert v).1.idx
      · rw [if_pos hidx, hidxdead k hidx]
        rfl
      · rw [if_neg hidx]
        exact h.adjLive k
  · intro k st hst
    rw [hA, hadj] at hst
    by_cases hk : k = (g.nodes.insert v).1
    · rw [if_pos hk] at hst
      injection hst with hst
      exact ⟨[], hst.symm⟩
    · rw [if_neg hk] at hst
      by_cases hidx : k.idx = (g.nodes.insert v).1.idx
      · rw [if_pos hidx] at hst
        exact Option.noConfusion hst
      · rw [if_neg hidx] at hst
        exact h.adjUndir k st hst
  · intro x m hm
    rw [hA, hadj] at hm
    by_cases hk : x = (g.nodes.insert v).1
    · rw [if_pos hk] at hm
      injection hm with hm
      injection hm with hm
      rw [← hm]
      exact List.Pairwise.nil
    · rw [if_neg hk] at hm
      by_cases hidx : x.idx = (g.nodes.insert v).1.idx
      · rw [if_pos hidx] at hm
        exact Option.noConfusion hm
      · rw [if_neg hidx] at hm
        exact h.recNodup x m hm
  · intro x m hm y hy
    rw [hA, hadj] at hm
    rw [hN, hnode]
    by_cases hk : x = (g.nodes.insert v).1
    · rw [if_pos hk] at hm
      injection hm with hm
      injection hm with hm
      rw [← hm] at hy
      simp at hy
    · rw [if_neg hk] at hm
      by_cases hidx : x.idx = (g.nodes.insert v).1.idx
      · rw [if_pos hidx] at hm
        exact Option.noConfusion hm
      · rw [if_neg hidx] at hm
        by_cases hyf : y = (g.nodes.insert v).1
        · rw [if_pos hyf]
        · rw [if_neg hyf]
          exact h.recKeysLive x m hm y hy
  · intro a b ma mb ha hb
    rw [hA, hadj] at ha hb
    by_cases hak : a = (g.nodes.insert v).1
    · rw [if_pos hak] at ha
      injection ha with ha
      injection ha with ha
      by_cases hbk : b = (g.nodes.insert v).1
      · rw [if_pos hbk] at hb
        injection hb with hb
        injection hb with hb
        rw [← ha, ← hb]
        rfl
      · rw [if_neg hbk] at hb
        by_cases hbidx : b.idx = (g.nodes.insert v).1.idx
        · rw [if_pos hbidx] at hb
          exact Option.noConfusion hb
        · rw [if_neg hbidx] at hb
          rw [← ha, hak, hnolive mb b hb]
          rfl
    · rw [if_neg hak] at ha
      by_cases haidx : a.idx = (g.nodes.insert v).1.idx
      · rw [if_pos haidx] at ha
        exact Option.noConfusion ha
      · rw [if_neg haidx] at ha
        by_cases hbk : b = (g.nodes.insert v).1
        · rw [if_pos hbk] at hb
          injection hb with hb
          injection hb with hb
          rw [← hb, hbk, hnolive ma a ha]
          rfl
        · rw [if_neg hbk] at hb
          by_cases hbidx : b.idx = (g.nodes.insert v).1.idx
          · rw [if_pos hbidx] at hb
            exact Option.noConfusion hb
          · rw [if_neg hbidx] at hb
            exact h.keySym a b ma mb ha hb
  · intro e ed he
    rw [hE] at he
    obtain ⟨hs, hd⟩ := h.edgeEnds e ed he
    rw [hN, hnode, hnode]
    constructor
    · by_cases hk : ed.src = (g.nodes.insert v).1
      · rw [if_pos hk]
      · rw [if_neg hk]
        exact hs
    · by_cases hk : ed.dst = (g.nodes.insert v).1
      · rw [if_pos hk]
      · rw [if_neg hk]
        exact hd
  · intro e ed he
    rw [hE] at he
    obtain ⟨m, hm, hck⟩ := h.edgeRec e ed he
    have hsrclive : g.nodes.containsKey ed.src = true := (h.edgeEnds e ed he).1
    have h1 : ¬ed.src = (g.nodes.insert v).1 := by
      intro heq
      rw [heq, hfreshdead] at hsrclive
      exact Bool.noConfusion hsrclive
    have h2 : ¬ed.src.idx = (g.nodes.insert v).1.idx := by
      intro heq
      rw [hidxdead ed.src heq] at hsrclive
      exact Bool.noConfusion hsrclive
    refine ⟨m, ?_, hck⟩
    rw [hA, hadj, if_neg h1, if_neg h2]
    exact hm
  · intro x m hm y vv hv e0
    rw [hA, hadj] at hm
    rw [hexp]
    by_cases hk : x = (g.nodes.insert v).1
    · rw [if_pos hk] at hm
      injection hm with hm
      injection hm with hm
      rw [← hm] at hv
      exact Option.noConfusion hv
    · rw [if_neg hk] at hm
      by_cases hidx : x.idx = (g.nodes.insert v).1.idx
      · rw [if_pos hidx] at hm
        exact Option.noConfusion hm
      · rw [if_neg hidx] at hm
        exact h.edgeOcc x m hm y vv hv e0


theorem secmap_modify_isSome {B : Type} (l : List (KeyData × B)) (k : KeyData)
    (f : B → B) (k2 : KeyData) :
    (SecMap.get (SecMap.modify l k f) k2).isSome = (SecMap.get l k2).isSome := by
  rw [secmap_get_modify]
  by_cases hk : k2 = k
  · rw [if_pos hk, option_isSome_map, hk]
  · rw [if_neg hk]

theorem mapEntryPush_keys_nodup (m : MultiAdjMap) (k : NodeIdx) (e : EdgeIdx)
    (h : (m.map Prod.fst).Nodup) :
    ((mapEntryPush m k e).map Prod.fst).Nodup := by
  rw [mapEntryPush_keys]
  cases hc : AList.containsKey m k with
  | true => rw [if_pos rfl]; exact h
  | false =>
    rw [if_neg Bool.false_ne_true]
    refine List.nodup_cons.mpr ⟨?_, h⟩
    intro hmem
    rw [← alist_containsKey_iff_mem_keys] at hmem
    rw [hc] at hmem
    exact Bool.noConfusion hmem

theorem mapEntryPush_keys_sub (m : MultiAdjMap) (k : NodeIdx) (e : EdgeIdx) :
    ∀ y ∈ (mapEntryPush m k e).map Prod.fst, y = k ∨ y ∈ m.map Prod.fst := by
  intro y hy
  rw [mapEntryPush_keys] at hy
  cases hc : AList.containsKey m k with
  | true => rw [hc, if_pos rfl] at hy; exact Or.inr hy
  | false =>
    rw [hc, if_neg Bool.false_ne_true] at hy
    rcases List.mem_cons.mp hy with hk | hold
    · exact Or.inl hk
    · exact Or.inr hold

theorem mwf_exp_zero {N E : Type} (g : MultiMapGraph N E) (h : MWF g)
    (a b : NodeIdx) (ma : MultiAdjMap)
    (hma : SecMap.get g.adjacencies a = some (.Undirected ma))
    (hck : AList.containsKey ma b = false) (e0 : EdgeIdx) :
    expCountU g a b e0 = 0 := by
  unfold expCountU
  cases hge : g.edges.get e0 with
  | none => rfl
  | some ed =>
    show ((if ed.src = a ∧ ed.dst = b then 1 else 0) +
      if ed.dst = a ∧ ed.src = b then 1 else 0) = 0
    rw [if_neg ?h1, if_neg ?h2]
    case h1 =>
      rintro ⟨h1, h2⟩
      obtain ⟨m, hm, hc⟩ := h.edgeRec e0 ed hge
      rw [h1, hma] at hm
      injection hm with hm
      injection hm with hm
      rw [← hm, h2, hck] at hc
      exact Bool.noConfusion hc
    case h2 =>
      rintro ⟨h1, h2⟩
      obtain ⟨m, hm, hc⟩ := h.edgeRec e0 ed hge
      rw [h2] at hm
      have hsym := h.keySym a b ma m hma hm
      rw [hck] at hsym
      rw [h1] at hc
      rw [← hsym] at hc
      exact Bool.noConfusion hc


theorem mwf_try_add_edge {N E : Type} (g : MultiMapGraph N E) (src dst : NodeIdx)
    (v : E) (h : MWF g) : MWF (MultiMapGraph.try_add_edge g src dst v).2 := by
  by_cases hs : g.has_node src = true
  case neg =>
    have hpost : (MultiMapGraph.try_add_edge g src dst v).2 = g := by
      unfold MultiMapGraph.try_add_edge
      rw [if_pos hs]
    rw [hpost]
    exact h
  by_cases hd : g.has_node dst = true
  case neg =>
    have hpost : (MultiMapGraph.try_add_edge g src dst v).2 = g := by
      unfold MultiMapGraph.try_add_edge
      rw [if_neg (not_not_intro hs), if_pos hd]
    rw [hpost]
    exact h
  have hA : (MultiMapGraph.try_add_edge g src dst v).2.adjacencies =
      SecMap.modify (SecMap.modify g.adjacencies src
          (AdjacencyStorage.mapOutgoing
            (fun m => mapEntryPush m dst (g.edges.insert ⟨src, dst, v⟩).1))) dst
        (AdjacencyStorage.mapIncoming
          (fun m => mapEntryPush m src (g.edges.insert ⟨src, dst, v⟩).1)) := by
    unfold MultiMapGraph.try_add_edge
    rw [if_neg (not_not_intro hs), if_neg (not_not_intro hd)]
  have hE : (MultiMapGraph.try_add_edge g src dst v).2.edges =
      (g.edges.insert ⟨src, dst, v⟩).2 := by
    unfold MultiMapGraph.try_add_edge
    rw [if_neg (not_not_intro hs), if_neg (not_not_intro hd)]
  have hN : (MultiMapGraph.try_add_edge g src dst v).2.nodes = g.nodes := by
    unfold MultiMapGraph.try_add_edge
    rw [if_neg (not_not_intro hs), if_neg (not_not_intro hd)]
  obtain ⟨he1, he2, he3, he4, he5, he6⟩ :=
    slotmap_insert_spec g.edges ⟨src, dst, v⟩ h.edgesFree
  have hexp : ∀ x y e0, expCountU (MultiMapGraph.try_add_edge g src dst v).2 x y e0 =
      if e0 = (g.edges.insert ⟨src, dst, v⟩).1 then
        ((if src = x ∧ dst = y then 1 else 0) +
          (if dst = x ∧ src = y then 1 else 0))
      else expCountU g x y e0 := by
    intro x y e0
    unfold expCountU
    rw [hE]
    by_cases hf : e0 = (g.edges.insert ⟨src, dst, v⟩).1
    · rw [if_pos hf, hf, he1]
    · rw [if_neg hf, he3 e0 hf]
  have hfreshexp : ∀ x y, expCountU g x y (g.edges.insert ⟨src, dst, v⟩).1 = 0 := by
    intro x y
    unfold expCountU
    rw [he2]
  have hsK : g.nodes.containsKey src = true := hs
  have hdK : g.nodes.containsKey dst = true := hd
  obtain ⟨ms, hms⟩ : ∃ ms, SecMap.get g.adjacencies src =
      some (.Undirected ms) := by
    have hlive := h.adjLive src
    rw [hsK] at hlive
    obtain ⟨st, hst⟩ := Option.isSome_iff_exists.mp hlive
    obtain ⟨ms, hms⟩ := h.adjUndir src st hst
    exact ⟨ms, by rw [hst, hms]⟩
  by_cases hsd : src = dst
  case pos =>
    subst hsd
    have hadj : ∀ k, SecMap.get (MultiMapGraph.try_add_edge g src src v).2.adjacencies k =
        if k = src then some (.Undirected
          (mapEntryPush (mapEntryPush ms src (g.edges.insert ⟨src, src, v⟩).1)
            src (g.edges.insert ⟨src, src, v⟩).1))
        else SecMap.get g.adjacencies k := by
      intro k
      rw [hA, secmap_get_modify]
      by_cases hk : k = src
      · rw [if_pos hk, if_pos hk, secmap_get_modify, if_pos rfl, hms]
        rfl
      · rw [if_neg hk, if_neg hk, secmap_get_modify, if_neg hk]
    refine ⟨?_, ?_, ?_, ?_, ?_, ?_, ?_, ?_, ?_, ?_⟩
    · rw [hN]
      exact h.nodesFree
    · rw [hE]
      exact he5
    · intro k
      rw [hA, hN, secmap_modify_isSome, secmap_modify_isSome]
      exact h.adjLive k
    · intro k st hst
      rw [hadj] at hst
      by_cases hk : k = src
      · rw [if_pos hk] at hst
        injection hst with hst
        exact ⟨_, hst.symm⟩
      · rw [if_neg hk] at hst
        exact h.adjUndir k st hst
    · intro x m hm
      rw [hadj] at hm
      by_cases hk : x = src
      · rw [if_pos hk] at hm
        injection hm with hm
        injection hm with hm
        rw [← hm]
        exact mapEntryPush_keys_nodup _ _ _
          (mapEntryPush_keys_nodup _ _ _ (h.recNodup src ms hms))
      · rw [if_neg hk] at hm
        exact h.recNodup x m hm
    · intro x m hm y hy
      rw [hadj] at hm
      rw [hN]
      by_cases hk : x = src
      · rw [if_pos hk] at hm
        injection hm with hm
        injection hm with hm
        rw [← hm] at hy
        rcases mapEntryPush_keys_sub _ _ _ y hy with hysrc | hy2
        · rw [hysrc]
          exact hsK
        · rcases mapEntryPush_keys_sub _ _ _ y hy2 with hysrc | hy3
          · rw [hysrc]
            exact hsK
          · exact h.recKeysLive src ms hms y hy3
      · rw [if_neg hk] at hm
        exact h.recKeysLive x m hm y hy
    · intro a b ma mb ha hb
      rw [hadj] at ha hb
      by_cases hak : a = src
      · rw [if_pos hak] at ha
        injection ha with ha
        injection ha with ha
        by_cases hbk : b = src
        · rw [if_pos hbk] at hb
          injection hb with hb
          injection hb with hb
          rw [← ha, ← hb, hak, hbk]
        · rw [if_neg hbk] at hb
          rw [← ha, hak]
          rw [mapEntryPush_containsKey, if_neg hbk, mapEntryPush_containsKey,
            if_neg hbk]
          exact h.keySym src b ms mb hms hb
      · rw [if_neg hak] at ha
        by_cases hbk : b = src
        · rw [if_pos hbk] at hb
          injection hb with hb
          injection hb with hb
          rw [← hb, hbk]
          rw [mapEntryPush_containsKey, if_neg hak, mapEntryPush_containsKey,
            if_neg hak]
          exact h.keySym a src ma ms ha hms
        · rw [if_neg hbk] at hb
          exact h.keySym a b ma mb ha hb
    · intro e ed he
      rw [hE] at he
      rw [hN]
      by_cases hf : e = (g.edges.insert ⟨src, src, v⟩).1
      · rw [hf, he1] at he
        injection he with he
        rw [← he]
        exact ⟨hsK, hsK⟩
      · rw [he3 e hf] at he
        exact h.edgeEnds e ed he
    · intro e ed he
      rw [hE] at he
      by_cases hf : e = (g.edges.insert ⟨src, src, v⟩).1
      · rw [hf, he1] at he
        injection he with he
        rw [← he]
        refine ⟨_, by rw [hadj, if_pos rfl], ?_⟩
        rw [mapEntryPush_containsKey, if_pos rfl]
      · rw [he3 e hf] at he
        obtain ⟨m, hm, hck⟩ := h.edgeRec e ed he
        by_cases hk : ed.src = src
        · rw [hk, hms] at hm
          injection hm with hm
          injection hm with hm
          refine ⟨_, by rw [hadj, hk, if_pos rfl], ?_⟩
          rw [mapEntryPush_containsKey]
          by_cases hdk : ed.dst = src
          · rw [if_pos hdk]
          · rw [if_neg hdk, mapEntryPush_containsKey, if_neg hdk]
            rw [← hm] at hck
            exact hck
        · refine ⟨m, by rw [hadj, if_neg hk]; exact hm, hck⟩
    · intro x m hm y vv hv e0
      rw [hadj] at hm
      rw [hexp]
      by_cases hk : x = src
      · rw [if_pos hk] at hm
        injection hm with hm
        injection hm with hm
        rw [← hm] at hv
        by_cases hy : y = src
        · rw [hy, mapEntryPush_get_self, mapEntryPush_get_self] at hv
          injection hv with hv
          rw [← hv]
          cases hck : AList.containsKey ms src with
          | true =>
            obtain ⟨w, hw⟩ := Option.isSome_iff_exists.mp
              (by rw [← alist_containsKey_eq_isSome_get]; exact hck)
            rw [hw]
            simp only [Option.getD_some]
            have hcw := h.edgeOcc src ms hms src w hw e0
            by_cases hf : e0 = (g.edges.insert ⟨src, src, v⟩).1
            · subst hf
              rw [hfreshexp] at hcw
              rw [if_pos rfl, hk, hy, if_pos ⟨rfl, rfl⟩]
              rw [countIdx_append, countIdx_append, countIdx_singleton,
                if_pos rfl, hcw]
            · rw [if_neg hf]
              rw [countIdx_append, countIdx_append, countIdx_singleton,
                if_neg (fun hh => hf hh.symm), hcw, hk, hy]
              omega
          | false =>
            have hgn : AList.get ms src = none := by
              rw [alist_containsKey_eq_isSome_get] at hck
              cases hgo : AList.get ms src with
              | none => rfl
              | some w => rw [hgo] at hck; simp at hck
            rw [hgn]
            simp only [Option.getD_none, Option.getD_some, List.nil_append]
            by_cases hf : e0 = (g.edges.insert ⟨src, src, v⟩).1
            · subst hf
              rw [if_pos rfl, hk, hy, if_pos ⟨rfl, rfl⟩]
              rw [countIdx_append, countIdx_singleton, if_pos rfl]
            · rw [if_neg hf]
              rw [countIdx_append, countIdx_singleton,
                if_neg (fun hh => hf hh.symm), hk]
              rw [mwf_exp_zero g h src y ms hms (by rw [hy]; exact hck) e0]
        · rw [mapEntryPush_get_ne _ _ _ _ hy, mapEntryPush_get_ne _ _ _ _ hy]
            at hv
          have hcw := h.edgeOcc src ms hms y vv hv e0
          by_cases hf : e0 = (g.edges.insert ⟨src, src, v⟩).1
          · subst hf
            rw [hfreshexp] at hcw
            rw [if_pos rfl, hcw, hk]
            rw [if_neg (fun hh => hy hh.2.symm)]
          · rw [if_neg hf, hk]
            exact hcw
      · rw [if_neg hk] at hm
        have hcw := h.edgeOcc x m hm y vv hv e0
        by_cases hf : e0 = (g.edges.insert ⟨src, src, v⟩).1
        · subst hf
          rw [hfreshexp] at hcw
          rw [if_pos rfl, hcw]
          rw [if_neg (fun hh => hk hh.1.symm)]
        · rw [if_neg hf]
          exact hcw
  case neg =>
    obtain ⟨md, hmd⟩ : ∃ md, SecMap.get g.adjacencies dst =
        some (.Undirected md) := by
      have hlive := h.adjLive dst
      rw [hdK] at hlive
      obtain ⟨st, hst⟩ := Option.isSome_iff_exists.mp hlive
      obtain ⟨md, hmd⟩ := h.adjUndir dst st hst
      exact ⟨md, by rw [hst, hmd]⟩
    have hadj : ∀ k, SecMap.get (MultiMapGraph.try_add_edge g src dst v).2.adjacencies k =
        if k = dst then some (.Undirected
          (mapEntryPush md src (g.edges.insert ⟨src, dst, v⟩).1))
        else if k = src then some (.Undirected
          (mapEntryPush ms dst (g.edges.insert ⟨src, dst, v⟩).1))
        else SecMap.get g.adjacencies k := by
      intro k
      rw [hA, secmap_get_modify]
      by_cases hk : k = dst
      · rw [if_pos hk, if_pos hk, secmap_get_modify,
          if_neg (fun hh => hsd hh.symm), hmd]
        rfl
      · rw [if_neg hk, if_neg hk, secmap_get_modify]
        by_cases hk2 : k = src
        · rw [if_pos hk2, if_pos hk2, hms]
          rfl
        · rw [if_neg hk2, if_neg hk2]
    refine ⟨?_, ?_, ?_, ?_, ?_, ?_, ?_, ?_, ?_, ?_⟩
    · rw [hN]
      exact h.nodesFree
    · rw [hE]
      exact he5
    · intro k
      rw [hA, hN, secmap_modify_isSome, secmap_modify_isSome]
      exact h.adjLive k
    · intro k st hst
      rw [hadj] at hst
      by_cases hk : k = dst
      · rw [if_pos hk] at hst
        injection hst with hst
        exact ⟨_, hst.symm⟩
      · rw [if_neg hk] at hst
        by_cases hk2 : k = src
        · rw [if_pos hk2] at hst
          injection hst with hst
          exact ⟨_, hst.symm⟩
        · rw [if_neg hk2] at hst
          exact h.adjUndir k st hst
    · intro x m hm
      rw [hadj] at hm
      by_cases hk : x = dst
      · rw [if_pos hk] at hm
        injection hm with hm
        injection hm with hm
        rw [← hm]
        exact mapEntryPush_keys_nodup _ _ _ (h.recNodup dst md hmd)
      · rw [if_neg hk] at hm
        by_cases hk2 : x = src
        · rw [if_pos hk2] at hm
          injection hm with hm
          injection hm with hm
          rw [← hm]
          exact mapEntryPush_keys_nodup _ _ _ (h.recNodup src ms hms)
        · rw [if_neg hk2] at hm
          exact h.recNodup x m hm
    · intro x m hm y hy
      rw [hadj] at hm
      rw [hN]
      by_cases hk : x = dst
      · rw [if_pos hk] at hm
        injection hm with hm
        injection hm with hm
        rw [← hm] at hy
        rcases mapEntryPush_keys_sub _ _ _ y hy with hysrc | hy2
        · rw [hysrc]
          exact hsK
        · exact h.recKeysLive dst md hmd y hy2
      · rw [if_neg hk] at hm
        by_cases hk2 : x = src
        · rw [if_pos hk2] at hm
          injection hm with hm
          injection hm with hm
          rw [← hm] at hy
          rcases mapEntryPush_keys_sub _ _ _ y hy with hydst | hy2
          · rw [hydst]
            exact hdK
          · exact h.recKeysLive src ms hms y hy2
        · rw [if_neg hk2] at hm
          exact h.recKeysLive x m hm y hy
    · intro a b ma mb ha hb
      rw [hadj] at ha hb
      by_cases hak : a = dst
      · rw [if_pos hak] at ha
        injection ha with ha
        injection ha with ha
        by_cases hbk : b = dst
        · rw [if_pos hbk] at hb
          injection hb with hb
          injection hb with hb
          rw [← ha, ← hb, hak, hbk]
        · rw [if_neg hbk] at hb
          by_cases hbk2 : b = src
          · rw [if_pos hbk2] at hb
            injection hb with hb
            injection hb with hb
            rw [← ha, ← hb, hak, hbk2]
            rw [mapEntryPush_containsKey, if_pos rfl,
              mapEntryPush_containsKey, if_pos rfl]
          · rw [if_neg hbk2] at hb
            rw [← ha, hak]
            rw [mapEntryPush_containsKey, if_neg (fun hh => hbk2 hh)]
            exact h.keySym dst b md mb hmd hb
      · rw [if_neg hak] at ha
        by_cases hak2 : a = src
        · rw [if_pos hak2] at ha
          injection ha with ha
          injection ha with ha
          by_cases hbk : b = dst
          · rw [if_pos hbk] at hb
            injection hb with hb
            injection hb with hb
            rw [← ha, ← hb, hak2, hbk]
            rw [mapEntryPush_containsKey, if_pos rfl,
              mapEntryPush_containsKey, if_pos rfl]
          · rw [if_neg hbk] at hb
            by_cases hbk2 : b = src
            · rw [if_pos hbk2] at hb
              injection hb with hb
              injection hb with hb
              rw [← ha, ← hb, hak2, hbk2]
            · rw [if_neg hbk2] at hb
              rw [← ha, hak2]
              rw [mapEntryPush_containsKey, if_neg (fun hh => hbk hh)]
              exact h.keySym src b ms mb hms hb
        · rw [if_neg hak2] at ha
          by_cases hbk : b = dst
          · rw [if_pos hbk] at hb
            injection hb with hb
            injection hb with hb
            rw [← hb, hbk]
            rw [mapEntryPush_containsKey, if_neg (fun hh => hak2 hh)]
            exact h.keySym a dst ma md ha hmd
          · rw [if_neg hbk] at hb
            by_cases hbk2 : b = src
            · rw [if_pos hbk2] at hb
              injection hb with hb
              injection hb with hb
              rw [← hb, hbk2]
              rw [mapEntryPush_containsKey, if_neg (fun hh => hak hh)]
              exact h.keySym a src ma ms ha hms
            · rw [if_neg hbk2] at hb
              exact h.keySym a b ma mb ha hb
    · intro e ed he
      rw [hE] at he
      rw [hN]
      by_cases hf : e = (g.edges.insert ⟨src, dst, v⟩).1
      · rw [hf, he1] at he
        injection he with he
        rw [← he]
        exact ⟨hsK, hdK⟩
      · rw [he3 e hf] at he
        exact h.edgeEnds e ed he
    · intro e ed he
      rw [hE] at he
      by_cases hf : e = (g.edges.insert ⟨src, dst, v⟩).1
      · rw [hf, he1] at he
        injection he with he
        rw [← he]
        refine ⟨_, by rw [hadj, if_neg hsd, if_pos rfl], ?_⟩
        rw [mapEntryPush_containsKey, if_pos rfl]
      · rw [he3 e hf] at he
        obtain ⟨m, hm, hck⟩ := h.edgeRec e ed he
        by_cases hk : ed.src = dst
        · rw [hk, hmd] at hm
          injection hm with hm
          injection hm with hm
          refine ⟨_, by rw [hadj, hk, if_pos rfl], ?_⟩
          rw [mapEntryPush_containsKey]
          by_cases hdk : ed.dst = src
          · rw [if_pos hdk]
          · rw [if_neg hdk]
            rw [← hm] at hck
            exact hck
        · by_cases hk2 : ed.src = src
          · rw [hk2, hms] at hm
            injection hm with hm
            injection hm with hm
            refine ⟨_, by rw [hadj, hk2, if_neg hsd, if_pos rfl], ?_⟩
            rw [mapEntryPush_containsKey]
            by_cases hdk : ed.dst = dst
            · rw [if_pos hdk]
            · rw [if_neg hdk]
              rw [← hm] at hck
              exact hck
          · refine ⟨m, by rw [hadj, if_neg hk, if_neg hk2]; exact hm, hck⟩
    · intro x m hm y vv hv e0
      rw [hadj] at hm
      rw [hexp]
      by_cases hk : x = dst
      · rw [if_pos hk] at hm
        injection hm with hm
        injection hm with hm
        rw [← hm] at hv
        by_cases hy : y = src
        · rw [hy, mapEntryPush_get_self] at hv
          injection hv with hv
          rw [← hv]
          cases hck : AList.containsKey md src with
          | true =>
            obtain ⟨w, hw⟩ := Option.isSome_iff_exists.mp
              (by rw [← alist_containsKey_eq_isSome_get]; exact hck)
            rw [hw]
            simp only [Option.getD_some]
            have hcw := h.edgeOcc dst md hmd src w hw e0
            by_cases hf : e0 = (g.edges.insert ⟨src, dst, v⟩).1
            · subst hf
              rw [hfreshexp] at hcw
              rw [if_pos rfl, hk, hy, if_neg (fun hh => hsd hh.1),
                if_pos ⟨rfl, rfl⟩]
              rw [countIdx_append, countIdx_singleton, if_pos rfl, hcw]
            · rw [if_neg hf]
              rw [countIdx_append, countIdx_singleton,
                if_neg (fun hh => hf hh.symm), hcw, hk, hy]
              omega
          | false =>
            have hgn : AList.get md src = none := by
              rw [alist_containsKey_eq_isSome_get] at hck
              cases hgo : AList.get md src with
              | none => rfl
              | some w => rw [hgo] at hck; simp at hck
            rw [hgn]
            simp only [Option.getD_none, Option.getD_some, List.nil_append]
            by_cases hf : e0 = (g.edges.insert ⟨src, dst, v⟩).1
            · subst hf
              rw [if_pos rfl, hk, hy, if_neg (fun hh => hsd hh.1),
                if_pos ⟨rfl, rfl⟩, countIdx_singleton, if_pos rfl]
            · rw [if_neg hf, countIdx_singleton,
                if_neg (fun hh => hf hh.symm), hk]
              rw [mwf_exp_zero g h dst y md hmd (by rw [hy]; exact hck) e0]
        · rw [mapEntryPush_get_ne _ _ _ _ hy] at hv
          have hcw := h.edgeOcc dst md hmd y vv hv e0
          by_cases hf : e0 = (g.edges.insert ⟨src, dst, v⟩).1
          · subst hf
            rw [hfreshexp] at hcw
            rw [if_pos rfl, hcw, hk]
            rw [if_neg (fun hh => hsd hh.1), if_neg (fun hh => hy hh.2.symm)]
          · rw [if_neg hf, hk]
            exact hcw
      · rw [if_neg hk] at hm
        by_cases hk2 : x = src
        · rw [if_pos hk2] at hm
          injection hm with hm
          injection hm with hm
          rw [← hm] at hv
          by_cases hy : y = dst
          · rw [hy, mapEntryPush_get_self] at hv
            injection hv with hv
            rw [← hv]
            cases hck : AList.containsKey ms dst with
            | true =>
              obtain ⟨w, hw⟩ := Option.isSome_iff_exists.mp
                (by rw [← alist_containsKey_eq_isSome_get]; exact hck)
              rw [hw]
              simp only [Option.getD_some]
              have hcw := h.edgeOcc src ms hms dst w hw e0
              by_cases hf : e0 = (g.edges.insert ⟨src, dst, v⟩).1
              · subst hf
                rw [hfreshexp] at hcw
                rw [if_pos rfl, hk2, hy, if_pos ⟨rfl, rfl⟩,
                  if_neg (fun hh => hsd hh.2)]
                rw [countIdx_append, countIdx_singleton, if_pos rfl, hcw]
              · rw [if_neg hf]
                rw [countIdx_append, countIdx_singleton,
                  if_neg (fun hh => hf hh.symm), hcw, hk2, hy]
                omega
            | false =>
              have hgn : AList.get ms dst = none := by
                rw [alist_containsKey_eq_isSome_get] at hck
                cases hgo : AList.get ms dst with
                | none => rfl
                | some w => rw [hgo] at hck; simp at hck
              rw [hgn]
              simp only [Option.getD_none, Option.getD_some, List.nil_append]
              by_cases hf : e0 = (g.edges.insert ⟨src, dst, v⟩).1
              · subst hf
                rw [if_pos rfl, hk2, hy, if_pos ⟨rfl, rfl⟩,
                  if_neg (fun hh => hsd hh.2), countIdx_singleton,
                  if_pos rfl]
              · rw [if_neg hf, countIdx_singleton,
                  if_neg (fun hh => hf hh.symm), hk2]
                rw [mwf_exp_zero g h src y ms hms (by rw [hy]; exact hck) e0]
          · rw [mapEntryPush_get_ne _ _ _ _ hy] at hv
            have hcw := h.edgeOcc src ms hms y vv hv e0
            by_cases hf : e0 = (g.edges.insert ⟨src, dst, v⟩).1
            · subst hf
              rw [hfreshexp] at hcw
              rw [if_pos rfl, hcw, hk2]
              rw [if_neg (fun hh => hy hh.2.symm),
                if_neg (fun hh => hsd hh.1.symm)]
            · rw [if_neg hf, hk2]
              exact hcw
        · rw [if_neg hk2] at hm
          have hcw := h.edgeOcc x m hm y vv hv e0
          by_cases hf : e0 = (g.edges.insert ⟨src, dst, v⟩).1
          · subst hf
            rw [hfreshexp] at hcw
            rw [if_pos rfl, hcw]
            rw [if_neg (fun hh => hk2 hh.1.symm), if_neg (fun hh => hk hh.1.symm)]
          · rw [if_neg hf]
            exact hcw

theorem secmap_modify_containsKey {B : Type} (l : List (KeyData × B))
    (k : KeyData) (f : B → B) (x : KeyData) :
    AList.containsKey (SecMap.modify l k f) x = AList.containsKey l x := by
  rw [alist_containsKey_eq_isSome_get, alist_containsKey_eq_isSome_get]
  exact secmap_modify_isSome l k f x

theorem alist_containsKey_eq_of_keys_eq {B : Type} (m1 m2 : List (KeyData × B))
    (hk : m1.map Prod.fst = m2.map Prod.fst) (x : KeyData) :
    AList.containsKey m1 x = AList.containsKey m2 x := by
  cases hc : AList.containsKey m2 x with
  | true =>
    have hmem := (alist_containsKey_iff_mem_keys m2 x).mp hc
    rw [← hk] at hmem
    exact (alist_containsKey_iff_mem_keys m1 x).mpr hmem
  | false =>
    cases hc1 : AList.containsKey m1 x with
    | false => rfl
    | true =>
      have hmem := (alist_containsKey_iff_mem_keys m1 x).mp hc1
      rw [hk] at hmem
      rw [(alist_containsKey_iff_mem_keys m2 x).mpr hmem] at hc
      exact hc

theorem mapEntryRemove_keys (m : MultiAdjMap) (k : NodeIdx) (e : EdgeIdx) :
    (mapEntryRemove m k e).map Prod.fst = m.map Prod.fst := by
  rw [mapEntryRemove_eq_modify]
  exact secmap_modify_keys m k _

theorem mapEntryRemove_containsKey (m : MultiAdjMap) (k : NodeIdx)
    (e : EdgeIdx) (x : NodeIdx) :
    AList.containsKey (mapEntryRemove m k e) x = AList.containsKey m x := by
  rw [mapEntryRemove_eq_modify]
  exact secmap_modify_containsKey m k _ x

theorem mapEntryRemove_get (m : MultiAdjMap) (k : NodeIdx) (e : EdgeIdx)
    (x : NodeIdx) :
    AList.get (mapEntryRemove m k e) x =
      if x = k then (AList.get m x).map (fun v => removeByValue v e)
      else AList.get m x := by
  rw [mapEntryRemove_eq_modify]
  rw [show AList.get (SecMap.modify m k fun v => removeByValue v e) x =
    SecMap.get (SecMap.modify m k fun v => removeByValue v e) x from rfl]
  rw [secmap_get_modify]
  by_cases hx : x = k
  · rw [if_pos hx, if_pos hx, hx]
    rfl
  · rw [if_neg hx, if_neg hx]
    rfl


theorem mwf_remove_edge {N E : Type} (g : MultiMapGraph N E) (e : EdgeIdx)
    (r : Option E) (g2 : MultiMapGraph N E) (h : MWF g)
    (heq : MultiMapGraph.remove_edge g e = some (r, g2)) :
    MWF g2 ∧ g2.edges.get e = none := by
  cases hge : g.edges.get e with
  | none =>
    unfold MultiMapGraph.remove_edge at heq
    simp only [hge] at heq
    injection heq with heq
    have hgg : g = g2 := congrArg Prod.snd heq
    rw [← hgg]
    exact ⟨h, hge⟩
  | some ed =>
    obtain ⟨s0, d0, val⟩ := ed
    have hsK : g.nodes.containsKey s0 = true := (h.edgeEnds e ⟨s0, d0, val⟩ hge).1
    have hdK : g.nodes.containsKey d0 = true := (h.edgeEnds e ⟨s0, d0, val⟩ hge).2
    obtain ⟨ms, hms, hckd⟩ := h.edgeRec e ⟨s0, d0, val⟩ hge
    obtain ⟨hr1, hr2, hr3, hr4, hr5⟩ :=
      slotmap_remove_spec g.edges e ⟨s0, d0, val⟩ hge h.edgesFree
    have hexpolds : ∀ x y, expCountU g x y e =
        (if s0 = x ∧ d0 = y then 1 else 0) +
        (if d0 = x ∧ s0 = y then 1 else 0) := by
      intro x y
      unfold expCountU
      rw [hge]
    unfold MultiMapGraph.remove_edge at heq
    simp only [hge, hms, AdjacencyStorage.outgoing] at heq
    rw [if_pos hckd] at heq
    by_cases hloop : d0 = s0
    · subst hloop
      have hst2 : SecMap.get (SecMap.modify g.adjacencies d0
          (AdjacencyStorage.mapOutgoing (fun m => mapEntryRemove m d0 e))) d0 =
          some (.Undirected (mapEntryRemove ms d0 e)) := by
        rw [secmap_get_modify, if_pos rfl]
        rw [show SecMap.get g.adjacencies d0 =
          some (AdjacencyStorage.Undirected ms) from hms]
        rfl
      have hck2 : AList.containsKey (mapEntryRemove ms d0 e) d0 = true := by
        rw [mapEntryRemove_containsKey]
        exact hckd
      simp only [hst2, AdjacencyStorage.incoming] at heq
      rw [if_pos hck2] at heq
      injection heq with heq
      have hgg := congrArg Prod.snd heq
      simp only [] at hgg
      have hN2 : g2.nodes = g.nodes := by rw [← hgg]
      have hE2 : g2.edges = (g.edges.remove e).2 := by rw [← hgg]
      have hA2 : g2.adjacencies = SecMap.modify (SecMap.modify g.adjacencies d0
          (AdjacencyStorage.mapOutgoing (fun m => mapEntryRemove m d0 e))) d0
          (AdjacencyStorage.mapIncoming (fun m => mapEntryRemove m d0 e)) := by
        rw [← hgg]
      have hadj2 : ∀ k, SecMap.get g2.adjacencies k =
          if k = d0 then some (.Undirected
            (mapEntryRemove (mapEntryRemove ms d0 e) d0 e))
          else SecMap.get g.adjacencies k := by
        intro k
        rw [hA2, secmap_get_modify]
        by_cases hk : k = d0
        · rw [if_pos hk, if_pos hk, secmap_get_modify, if_pos rfl, hms]
          rfl
        · rw [if_neg hk, if_neg hk, secmap_get_modify, if_neg hk]
      have hexp2 : ∀ x y e0, expCountU g2 x y e0 =
          if e0 = e then 0 else expCountU g x y e0 := by
        intro x y e0
        unfold expCountU
        rw [hE2]
        by_cases hf : e0 = e
        · rw [if_pos hf, hf, hr2]
        · rw [if_neg hf, hr3 e0 hf]
      have hrecchar : ∀ k mm, SecMap.get g2.adjacencies k =
          some (.Undirected mm) → ∃ m0,
          SecMap.get g.adjacencies k = some (.Undirected m0) ∧
          mm.map Prod.fst = m0.map Prod.fst := by
        intro k mm hk
        rw [hadj2] at hk
        by_cases h1 : k = d0
        · rw [if_pos h1] at hk
          injection hk with hk
          injection hk with hk
          refine ⟨ms, by rw [h1]; exact hms, ?_⟩
          rw [← hk, mapEntryRemove_keys, mapEntryRemove_keys]
        · rw [if_neg h1] at hk
          exact ⟨mm, hk, rfl⟩
      refine ⟨⟨?_, ?_, ?_, ?_, ?_, ?_, ?_, ?_, ?_, ?_⟩, by rw [hE2]; exact hr2⟩
      · rw [hN2]
        exact h.nodesFree
      · rw [hE2]
        exact hr4
      · intro k
        rw [hA2, hN2, secmap_modify_isSome, secmap_modify_isSome]
        exact h.adjLive k
      · intro k st hst
        rw [hadj2] at hst
        by_cases h1 : k = d0
        · rw [if_pos h1] at hst
          injection hst with hst
          exact ⟨_, hst.symm⟩
        · rw [if_neg h1] at hst
          exact h.adjUndir k st hst
      · intro x mm hmx
        obtain ⟨m0, h0, hk⟩ := hrecchar x mm hmx
        rw [hk]
        exact h.recNodup x m0 h0
      · intro x mm hmx y hy
        obtain ⟨m0, h0, hk⟩ := hrecchar x mm hmx
        rw [hN2]
        rw [hk] at hy
        exact h.recKeysLive x m0 h0 y hy
      · intro a b ma2 mb2 ha hb
        obtain ⟨m0a, ha0, hka⟩ := hrecchar a ma2 ha
        obtain ⟨m0b, hb0, hkb⟩ := hrecchar b mb2 hb
        rw [alist_containsKey_eq_of_keys_eq ma2 m0a hka b,
          alist_containsKey_eq_of_keys_eq mb2 m0b hkb a]
        exact h.keySym a b m0a m0b ha0 hb0
      · intro e0 ed0 he0
        rw [hE2] at he0
        have hne : e0 ≠ e := by
          intro hh
          rw [hh, hr2] at he0
          exact Option.noConfusion he0
        rw [hr3 e0 hne] at he0
        rw [hN2]
        exact h.edgeEnds e0 ed0 he0
      · intro e0 ed0 he0
        rw [hE2] at he0
        have hne : e0 ≠ e := by
          intro hh
          rw [hh, hr2] at he0
          exact Option.noConfusion he0
        rw [hr3 e0 hne] at he0
        obtain ⟨m, hm, hck⟩ := h.edgeRec e0 ed0 he0
        by_cases h1 : ed0.src = d0
        · refine ⟨mapEntryRemove (mapEntryRemove ms d0 e) d0 e,
            by rw [hadj2, if_pos h1], ?_⟩
          rw [mapEntryRemove_containsKey, mapEntryRemove_containsKey]
          rw [h1, hms] at hm
          injection hm with hm
          injection hm with hm
          rw [← hm] at hck
          exact hck
        · refine ⟨m, by rw [hadj2, if_neg h1]; exact hm, hck⟩
      · intro x mm hm y vv hv e0
        rw [hadj2] at hm
        rw [hexp2]
        by_cases hk : x = d0
        · rw [if_pos hk] at hm
          injection hm with hm
          injection hm with hm
          rw [← hm] at hv
          rw [mapEntryRemove_get] at hv
          by_cases hy : y = d0
          · rw [if_pos hy] at hv
            obtain ⟨w1, hw1, hvv⟩ := Option.map_eq_some'.mp hv
            rw [mapEntryRemove_get, if_pos hy] at hw1
            obtain ⟨w, hw, hww⟩ := Option.map_eq_some'.mp hw1
            rw [← hvv, ← hww]
            have hcw := h.edgeOcc d0 ms hms y w hw e0
            by_cases hf : e0 = e
            · subst hf
              rw [if_pos rfl]
              rw [removeByValue_countIdx_self, removeByValue_countIdx_self,
                hcw, hy, hexpolds]
              rw [if_pos ⟨rfl, rfl⟩]
            · rw [if_neg hf]
              rw [removeByValue_countIdx_ne _ e e0 hf,
                removeByValue_countIdx_ne _ e e0 hf, hcw, hk, hy]
          · rw [if_neg hy] at hv
            rw [mapEntryRemove_get, if_neg hy] at hv
            have hcw := h.edgeOcc d0 ms hms y vv hv e0
            by_cases hf : e0 = e
            · subst hf
              rw [if_pos rfl, hcw, hexpolds]
              rw [if_neg (fun hh => hy hh.2.symm)]
            · rw [if_neg hf, hcw, hk]
        · rw [if_neg hk] at hm
          have hcw := h.edgeOcc x mm hm y vv hv e0
          by_cases hf : e0 = e
          · subst hf
            rw [if_pos rfl, hcw, hexpolds]
            rw [if_neg (fun hh => hk hh.1.symm)]
          · rw [if_neg hf]
            exact hcw
    · obtain ⟨md, hmd⟩ : ∃ md, SecMap.get g.adjacencies d0 =
          some (.Undirected md) := by
        have hlive := h.adjLive d0
        rw [hdK] at hlive
        obtain ⟨st, hst⟩ := Option.isSome_iff_exists.mp hlive
        obtain ⟨md, hmd⟩ := h.adjUndir d0 st hst
        exact ⟨md, by rw [hst, hmd]⟩
      have hckd2 : AList.containsKey md s0 = true := by
        have hsym := h.keySym s0 d0 ms md hms hmd
        rw [hckd] at hsym
        exact hsym.symm
      have hst2 : SecMap.get (SecMap.modify g.adjacencies s0
          (AdjacencyStorage.mapOutgoing (fun m => mapEntryRemove m d0 e))) d0 =
          some (.Undirected md) := by
        rw [secmap_get_modify, if_neg hloop, hmd]
      simp only [hst2, AdjacencyStorage.incoming] at heq
      rw [if_pos hckd2] at heq
      injection heq with heq
      have hgg := congrArg Prod.snd heq
      simp only [] at hgg
      have hN2 : g2.nodes = g.nodes := by rw [← hgg]
      have hE2 : g2.edges = (g.edges.remove e).2 := by rw [← hgg]
      have hA2 : g2.adjacencies = SecMap.modify (SecMap.modify g.adjacencies s0
          (AdjacencyStorage.mapOutgoing (fun m => mapEntryRemove m d0 e))) d0
          (AdjacencyStorage.mapIncoming (fun m => mapEntryRemove m s0 e)) := by
        rw [← hgg]
      have hadj2 : ∀ k, SecMap.get g2.adjacencies k =
          if k = d0 then some (.Undirected (mapEntryRemove md s0 e))
          else if k = s0 then some (.Undirected (mapEntryRemove ms d0 e))
          else SecMap.get g.adjacencies k := by
        intro k
        rw [hA2, secmap_get_modify]
        by_cases hk : k = d0
        · rw [if_pos hk, if_pos hk, secmap_get_modify, if_neg hloop, hmd]
          rfl
        · rw [if_neg hk, if_neg hk, secmap_get_modify]
          by_cases hk2 : k = s0
          · rw [if_pos hk2, if_pos hk2, hms]
            rfl
          · rw [if_neg hk2, if_neg hk2]
      have hexp2 : ∀ x y e0, expCountU g2 x y e0 =
          if e0 = e then 0 else expCountU g x y e0 := by
        intro x y e0
        unfold expCountU
        rw [hE2]
        by_cases hf : e0 = e
        · rw [if_pos hf, hf, hr2]
        · rw [if_neg hf, hr3 e0 hf]
      have hrecchar : ∀ k mm, SecMap.get g2.adjacencies k =
          some (.Undirected mm) → ∃ m0,
          SecMap.get g.adjacencies k = some (.Undirected m0) ∧
          mm.map Prod.fst = m0.map Prod.fst := by
        intro k mm hk
        rw [hadj2] at hk
        by_cases h1 : k = d0
        · rw [if_pos h1] at hk
          injection hk with hk
          injection hk with hk
          refine ⟨md, by rw [h1]; exact hmd, ?_⟩
          rw [← hk, mapEntryRemove_keys]
        · rw [if_neg h1] at hk
          by_cases h2 : k = s0
          · rw [if_pos h2] at hk
            injection hk with hk
            injection hk with hk
            refine ⟨ms, by rw [h2]; exact hms, ?_⟩
            rw [← hk, mapEntryRemove_keys]
          · rw [if_neg h2] at hk
            exact ⟨mm, hk, rfl⟩
      refine ⟨⟨?_, ?_, ?_, ?_, ?_, ?_, ?_, ?_, ?_, ?_⟩, by rw [hE2]; exact hr2⟩
      · rw [hN2]
        exact h.nodesFree
      · rw [hE2]
        exact hr4
      · intro k
        rw [hA2, hN2, secmap_modify_isSome, secmap_modify_isSome]
        exact h.adjLive k
      · intro k st hst
        rw [hadj2] at hst
        by_cases h1 : k = d0
        · rw [if_pos h1] at hst
          injection hst with hst
          exact ⟨_, hst.symm⟩
        · rw [if_neg h1] at hst
          by_cases h2 : k = s0
          · rw [if_pos h2] at hst
            injection hst with hst
            exact ⟨_, hst.symm⟩
          · rw [if_neg h2] at hst
            exact h.adjUndir k st hst
      · intro x mm hmx
        obtain ⟨m0, h0, hk⟩ := hrecchar x mm hmx
        rw [hk]
        exact h.recNodup x m0 h0
      · intro x mm hmx y hy
        obtain ⟨m0, h0, hk⟩ := hrecchar x mm hmx
        rw [hN2]
        rw [hk] at hy
        exact h.recKeysLive x m0 h0 y hy
      · intro a b ma2 mb2 ha hb
        obtain ⟨m0a, ha0, hka⟩ := hrecchar a ma2 ha
        obtain ⟨m0b, hb0, hkb⟩ := hrecchar b mb2 hb
        rw [alist_containsKey_eq_of_keys_eq ma2 m0a hka b,
          alist_containsKey_eq_of_keys_eq mb2 m0b hkb a]
        exact h.keySym a b m0a m0b ha0 hb0
      · intro e0 ed0 he0
        rw [hE2] at he0
        have hne : e0 ≠ e := by
          intro hh
          rw [hh, hr2] at he0
          exact Option.noConfusion he0
        rw [hr3 e0 hne] at he0
        rw [hN2]
        exact h.edgeEnds e0 ed0 he0
      · intro e0 ed0 he0
        rw [hE2] at he0
        have hne : e0 ≠ e := by
          intro hh
          rw [hh, hr2] at he0
          exact Option.noConfusion he0
        rw [hr3 e0 hne] at he0
        obtain ⟨m, hm, hck⟩ := h.edgeRec e0 ed0 he0
        by_cases h1 : ed0.src = d0
        · refine ⟨mapEntryRemove md s0 e, by rw [hadj2, if_pos h1], ?_⟩
          rw [mapEntryRemove_containsKey]
          rw [h1, hmd] at hm
          injection hm with hm
          injection hm with hm
          rw [← hm] at hck
          exact hck
        · by_cases h2 : ed0.src = s0
          · refine ⟨mapEntryRemove ms d0 e,
              by rw [hadj2, if_neg h1, if_pos h2], ?_⟩
            rw [mapEntryRemove_containsKey]
            rw [h2, hms] at hm
            injection hm with hm
            injection hm with hm
            rw [← hm] at hck
            exact hck
          · refine ⟨m, by rw [hadj2, if_neg h1, if_neg h2]; exact hm, hck⟩
      · intro x mm hm y vv hv e0
        rw [hadj2] at hm
        rw [hexp2]
        by_cases hk : x = d0
        · rw [if_pos hk] at hm
          injection hm with hm
          injection hm with hm
          rw [← hm] at hv
          rw [mapEntryRemove_get] at hv
          by_cases hy : y = s0
          · rw [if_pos hy] at hv
            obtain ⟨w, hw, hvv⟩ := Option.map_eq_some'.mp hv
            rw [← hvv]
            have hcw := h.edgeOcc d0 md hmd y w hw e0
            by_cases hf : e0 = e
            · subst hf
              rw [if_pos rfl]
              rw [removeByValue_countIdx_self, hcw, hy, hexpolds]
              rw [if_neg (fun hh => hloop hh.1.symm), if_pos ⟨rfl, rfl⟩]
            · rw [if_neg hf]
              rw [removeByValue_countIdx_ne _ e e0 hf, hcw, hk, hy]
          · rw [if_neg hy] at hv
            have hcw := h.edgeOcc d0 md hmd y vv hv e0
            by_cases hf : e0 = e
            · subst hf
              rw [if_pos rfl, hcw, hexpolds]
              rw [if_neg (fun hh => hloop hh.1.symm),
                if_neg (fun hh => hy hh.2.symm)]
            · rw [if_neg hf, hcw, hk]
        · rw [if_neg hk] at hm
          by_cases hk2 : x = s0
          · rw [if_pos hk2] at hm
            injection hm with hm
            injection hm with hm
            rw [← hm] at hv
            rw [mapEntryRemove_get] at hv
            by_cases hy : y = d0
            · rw [if_pos hy] at hv
              obtain ⟨w, hw, hvv⟩ := Option.map_eq_some'.mp hv
              rw [← hvv]
              have hcw := h.edgeOcc s0 ms hms y w hw e0
              by_cases hf : e0 = e
              · subst hf
                rw [if_pos rfl]
                rw [removeByValue_countIdx_self, hcw, hy, hexpolds]
                rw [if_pos ⟨rfl, rfl⟩, if_neg (fun hh => hloop hh.1)]
              · rw [if_neg hf]
                rw [removeByValue_countIdx_ne _ e e0 hf, hcw, hk2, hy]
            · rw [if_neg hy] at hv
              have hcw := h.edgeOcc s0 ms hms y vv hv e0
              by_cases hf : e0 = e
              · subst hf
                rw [if_pos rfl, hcw, hexpolds]
                rw [if_neg (fun hh => hy hh.2.symm),
                  if_neg (fun hh => hloop hh.1)]
              · rw [if_neg hf, hcw, hk2]
          · rw [if_neg hk2] at hm
            have hcw := h.edgeOcc x mm hm y vv hv e0
            by_cases hf : e0 = e
            · subst hf
              rw [if_pos rfl, hcw, hexpolds]
              rw [if_neg (fun hh => hk2 hh.1.symm),
                if_neg (fun hh => hk hh.1.symm)]
            · rw [if_neg hf]
              exact hcw


theorem reachable_mwf {N E : Type} (g : MultiMapGraph N E) (h : ReachableM g) :
    MWF g := by
  induction h with
  | new => exact mwf_new
  | add_node g v _ ih => exact mwf_add_node g v ih
  | try_add_edge g src dst v _ ih => exact mwf_try_add_edge g src dst v ih
  | remove_edge g e r g2 _ heq ih => exact (mwf_remove_edge g e r g2 ih heq).1
  | clear_edges g _ ih => exact mwf_clear_edges g ih
  | clear g _ ih => exact mwf_clear g

theorem swf_alist_get_symm {N E : Type} (g : SimpleMapGraph N E)
    (h : SWF false g) (a b : NodeIdx) (ma mb : List (NodeIdx × EdgeIdx))
    (hma : SecMap.get g.adjacencies a = some ma)
    (hmb : SecMap.get g.adjacencies b = some mb) :
    AList.get ma b = AList.get mb a := by
  have dir : ∀ (x y : NodeIdx) mx my, SecMap.get g.adjacencies x = some mx →
      SecMap.get g.adjacencies y = some my → ∀ e, AList.get mx y = some e →
      AList.get my x = some e := by
    intro x y mx my hmx hmy e hget
    have hmem := alist_get_mem mx y e hget
    obtain ⟨ed, hed, hmat⟩ := h.recMatch x mx hmx (y, e) hmem
    simp only [endpointsMatch, if_neg Bool.false_ne_true] at hmat
    rcases hmat with ⟨h1, h2⟩ | ⟨h1, h2⟩
    · obtain ⟨m2, hm2, hmem2⟩ := h.edgeDst e ed hed rfl
      rw [h2, hmy] at hm2
      injection hm2 with hm2
      rw [h1] at hmem2
      rw [← hm2] at hmem2
      exact alist_get_eq_some_of_mem my x e (h.recNodup y my hmy) hmem2
    · obtain ⟨m2, hm2, hmem2⟩ := h.edgeSrc e ed hed
      rw [h1, hmy] at hm2
      injection hm2 with hm2
      rw [h2] at hmem2
      rw [← hm2] at hmem2
      exact alist_get_eq_some_of_mem my x e (h.recNodup y my hmy) hmem2
  cases hab : AList.get ma b with
  | some e => exact (dir a b ma mb hma hmb e hab).symm
  | none =>
    cases hba : AList.get mb a with
    | none => rfl
    | some e =>
      have hcontra := dir b a mb ma hmb hma e hba
      rw [hcontra] at hab
      exact Option.noConfusion hab


/-! ## Generation-stamp (stale handle) lemmas -/

theorem slotmap_stale_get_none {A : Type} (m : SlotMap A) (k : KeyData)
    (_h1 : k.idx < m.slots.length) (h2 : k.version < m.versionAt k.idx) :
    m.get k = none := by
  rw [slotmap_get_eq]
  cases ho : m.slots[k.idx]? with
  | none => rfl
  | some s =>
    unfold SlotMap.versionAt at h2
    simp only [ho] at h2
    simp only [Option.some_bind]
    rw [if_neg]
    intro hv
    rw [hv] at h2
    exact Nat.lt_irrefl _ h2

theorem slotmap_insert_mono {A : Type} (m : SlotMap A) (v : A) (i : Nat)
    (hi : i < m.slots.length) :
    i < (m.insert v).2.slots.length ∧
    m.versionAt i ≤ (m.insert v).2.versionAt i := by
  unfold SlotMap.insert
  cases hf : m.free with
  | nil =>
    simp only
    refine ⟨by rw [List.length_append]; simp; omega, ?_⟩
    unfold SlotMap.versionAt
    rw [list_getElem?_append_singleton, if_neg (by omega)]
  | cons j rest =>
    cases hs : m.slots[j]? with
    | some s =>
      simp only [hs]
      refine ⟨by rw [List.length_set]; exact hi, ?_⟩
      unfold SlotMap.versionAt
      by_cases hij : i = j
      · subst hij
        rw [List.getElem?_set_self hi, hs]
        show s.version ≤ s.version + 1
        omega
      · rw [List.getElem?_set_ne (fun hh => hij hh.symm)]
    | none =>
      simp only [hs]
      refine ⟨by rw [List.length_append]; simp; omega, ?_⟩
      unfold SlotMap.versionAt
      rw [list_getElem?_append_singleton, if_neg (by omega)]

theorem slotmap_remove_mono {A : Type} (m : SlotMap A) (k : KeyData) (i : Nat)
    (hi : i < m.slots.length) :
    i < (m.remove k).2.slots.length ∧
    m.versionAt i ≤ (m.remove k).2.versionAt i := by
  unfold SlotMap.remove
  cases hg : m.get k with
  | none =>
    simp only
    exact ⟨hi, le_refl _⟩
  | some v =>
    simp only
    refine ⟨by rw [List.length_set]; exact hi, ?_⟩
    unfold SlotMap.versionAt
    by_cases hik : i = k.idx
    · subst hik
      rw [List.getElem?_set_self hi]
      rw [slotmap_get_eq] at hg
      cases ho : m.slots[k.idx]? with
      | none => rw [ho] at hg; exact absurd hg (by simp)
      | some s =>
        rw [ho] at hg
        simp only [Option.some_bind] at hg
        by_cases hv : s.version = k.version
        · show s.version ≤ k.version + 1
          omega
        · rw [if_neg hv] at hg
          exact absurd hg (by simp)
    · rw [List.getElem?_set_ne (fun hh => hik hh.symm)]

theorem slotmap_remove_some_inv {A : Type} (m : SlotMap A) (k : KeyData)
    (v : A) (m2 : SlotMap A) (h : m.remove k = (some v, m2)) :
    m.get k = some v ∧
    m2 = ⟨m.slots.set k.idx ⟨k.version + 1, none⟩, k.idx :: m.free⟩ := by
  unfold SlotMap.remove at h
  cases hg : m.get k with
  | none =>
    rw [hg] at h
    rw [Prod.mk.injEq] at h
    exact absurd h.1 (by simp)
  | some w =>
    simp only [hg] at h
    rw [Prod.mk.injEq] at h
    obtain ⟨h1, h2⟩ := h
    injection h1 with h1
    rw [h1]
    exact ⟨rfl, h2.symm⟩

theorem slotmap_get_some_lt {A : Type} (m : SlotMap A) (k : KeyData) (v : A)
    (h : m.get k = some v) : k.idx < m.slots.length := by
  by_contra hge
  rw [slotmap_get_eq, List.getElem?_eq_none (Nat.le_of_not_lt hge)] at h
  exact Option.noConfusion h

theorem remove_edge_unchecked_nodes {N E : Type} (DIRECTED : Bool)
    (g : SimpleMapGraph N E) (e : EdgeIdx) (p : E × SimpleMapGraph N E)
    (h : SimpleMapGraph.remove_edge_unchecked DIRECTED g e = some p) :
    p.2.nodes = g.nodes := by
  unfold SimpleMapGraph.remove_edge_unchecked at h
  cases hg : g.edges.get e with
  | none => rw [hg] at h; exact Option.noConfusion h
  | some ed =>
    simp only [hg] at h
    by_cases hD : DIRECTED = true
    · rw [if_pos hD] at h
      injection h with h
      rw [← h]
    · rw [if_neg hD] at h
      injection h with h
      rw [← h]

theorem removeEdgesUnchecked_nodes {N E : Type} (DIRECTED : Bool) :
    ∀ (es : List EdgeIdx) (g g2 : SimpleMapGraph N E),
    SimpleMapGraph.removeEdgesUnchecked DIRECTED g es = some g2 →
    g2.nodes = g.nodes := by
  intro es
  induction es with
  | nil =>
    intro g g2 h
    injection h with h
    rw [h]
  | cons e rest ih =>
    intro g g2 h
    unfold SimpleMapGraph.removeEdgesUnchecked at h
    cases hr : SimpleMapGraph.remove_edge_unchecked DIRECTED g e with
    | none => rw [hr] at h; exact Option.noConfusion h
    | some p =>
      rw [hr] at h
      rw [ih p.2 g2 h, remove_edge_unchecked_nodes DIRECTED g e p hr]

theorem new_edge_nodes {N E : Type} (DIRECTED : Bool) (g : SimpleMapGraph N E)
    (a b : NodeIdx) (v : E) :
    (SimpleMapGraph.new_edge DIRECTED g a b v).2.nodes = g.nodes := by
  unfold SimpleMapGraph.new_edge SimpleMapGraph.new_edge_unchecked
  repeat' split
  all_goals rfl

theorem remove_edge_nodes {N E : Type} (DIRECTED : Bool)
    (g : SimpleMapGraph N E) (e : EdgeIdx) :
    (SimpleMapGraph.remove_edge DIRECTED g e).2.nodes = g.nodes := by
  unfold SimpleMapGraph.remove_edge
  by_cases hc : g.edges.containsKey e = true
  · rw [if_pos hc]
    cases hr : SimpleMapGraph.remove_edge_unchecked DIRECTED g e with
    | none => rfl
    | some p => exact remove_edge_unchecked_nodes DIRECTED g e p hr
  · rw [if_neg hc]

theorem remove_node_nodes_mono {N E : Type} (DIRECTED : Bool)
    (g : SimpleMapGraph N E) (n : NodeIdx)
    (p : Except GraphError N × SimpleMapGraph N E)
    (heq : SimpleMapGraph.remove_node DIRECTED g n = some p) (k : NodeIdx)
    (h1 : k.idx < g.nodes.slots.length)
    (h2 : k.version < g.nodes.versionAt k.idx) :
    k.idx < p.2.nodes.slots.length ∧
    k.version < p.2.nodes.versionAt k.idx := by
  unfold SimpleMapGraph.remove_node at heq
  by_cases hD : DIRECTED = true
  · rw [if_pos hD] at heq
    simp only [] at heq
    cases hr : SimpleMapGraph.removeEdgesUnchecked true g
        ((g.edges.entries.filter
          (fun q => q.2.dst = n ∨ q.2.src = n)).map (fun q => q.1)) with
    | none => rw [hr] at heq; exact Option.noConfusion heq
    | some g1 =>
      simp only [hr] at heq
      have hn1 : g1.nodes = g.nodes := removeEdgesUnchecked_nodes true _ g g1 hr
      cases hrm : g1.nodes.remove n with
      | mk r1 nodes1 =>
        cases r1 with
        | some w =>
          simp only [hrm] at heq
          injection heq with heq
          rw [← heq]
          have hmono := slotmap_remove_mono g1.nodes n k.idx
            (by rw [hn1]; exact h1)
          rw [hrm] at hmono
          obtain ⟨ha, hb⟩ := hmono
          refine ⟨ha, ?_⟩
          rw [hn1] at hb
          exact Nat.lt_of_lt_of_le h2 hb
        | none =>
          simp only [hrm] at heq
          injection heq with heq
          rw [← heq]
          rw [hn1]
          exact ⟨h1, h2⟩
  · rw [if_neg hD] at heq
    cases he : SimpleMapGraph.edges_of g n with
    | none => rw [he] at heq; exact Option.noConfusion heq
    | some list =>
      simp only [he] at heq
      cases hr : SimpleMapGraph.removeEdgesUnchecked false g
          (list.map (fun q => q.2)) with
      | none => rw [hr] at heq; exact Option.noConfusion heq
      | some g1 =>
        simp only [hr] at heq
        have hn1 : g1.nodes = g.nodes := removeEdgesUnchecked_nodes false _ g g1 hr
        cases hrm : g1.nodes.remove n with
        | mk r1 nodes1 =>
          cases r1 with
          | some w =>
            simp only [hrm] at heq
            injection heq with heq
            rw [← heq]
            have hmono := slotmap_remove_mono g1.nodes n k.idx
              (by rw [hn1]; exact h1)
            rw [hrm] at hmono
            obtain ⟨ha, hb⟩ := hmono
            refine ⟨ha, ?_⟩
            rw [hn1] at hb
            exact Nat.lt_of_lt_of_le h2 hb
          | none =>
            simp only [hrm] at heq
            injection heq with heq
            rw [← heq]
            rw [hn1]
            exact ⟨h1, h2⟩

theorem applySimpleOp_stale (DIRECTED : Bool) {N E : Type}
    (g : SimpleMapGraph N E) (op : SimpleOp N E) (k : NodeIdx)
    (h1 : k.idx < g.nodes.slots.length)
    (h2 : k.version < g.nodes.versionAt k.idx) :
    k.idx < (applySimpleOp DIRECTED g op).nodes.slots.length ∧
    k.version < (applySimpleOp DIRECTED g op).nodes.versionAt k.idx := by
  cases op with
  | newNode v =>
    obtain ⟨ha, hb⟩ := slotmap_insert_mono g.nodes v k.idx h1
    exact ⟨ha, Nat.lt_of_lt_of_le h2 hb⟩
  | newEdge a b v =>
    have hn : (applySimpleOp DIRECTED g (SimpleOp.newEdge a b v)).nodes =
        g.nodes := new_edge_nodes DIRECTED g a b v
    rw [hn]
    exact ⟨h1, h2⟩
  | removeEdge e =>
    have hn : (applySimpleOp DIRECTED g (SimpleOp.removeEdge e)).nodes =
        g.nodes := remove_edge_nodes DIRECTED g e
    rw [hn]
    exact ⟨h1, h2⟩
  | removeNode n =>
    cases hrn : SimpleMapGraph.remove_node DIRECTED g n with
    | none =>
      have hop : applySimpleOp DIRECTED g (SimpleOp.removeNode n) = g := by
        show (match SimpleMapGraph.remove_node DIRECTED g n with
          | some p => p.2
          | none => g) = g
        rw [hrn]
      rw [hop]
      exact ⟨h1, h2⟩
    | some p =>
      have hop : applySimpleOp DIRECTED g (SimpleOp.removeNode n) = p.2 := by
        show (match SimpleMapGraph.remove_node DIRECTED g n with
          | some q => q.2
          | none => g) = p.2
        rw [hrn]
      rw [hop]
      exact remove_node_nodes_mono DIRECTED g n p hrn k h1 h2

theorem applySimpleOps_stale (DIRECTED : Bool) {N E : Type} :
    ∀ (ops : List (SimpleOp N E)) (g : SimpleMapGraph N E) (k : NodeIdx),
    k.idx < g.nodes.slots.length → k.version < g.nodes.versionAt k.idx →
    k.idx < (applySimpleOps DIRECTED g ops).nodes.slots.length ∧
    k.version < (applySimpleOps DIRECTED g ops).nodes.versionAt k.idx := by
  intro ops
  induction ops with
  | nil => exact fun g k h1 h2 => ⟨h1, h2⟩
  | cons op rest ih =>
    intro g k h1 h2
    obtain ⟨h1b, h2b⟩ := applySimpleOp_stale DIRECTED g op k h1 h2
    exact ih (applySimpleOp DIRECTED g op) k h1b h2b

theorem remove_node_ok_stale {N E : Type} (DIRECTED : Bool)
    (g : SimpleMapGraph N E) (n : NodeIdx) (v : N) (g1 : SimpleMapGraph N E)
    (hrem : SimpleMapGraph.remove_node DIRECTED g n = some (.ok v, g1)) :
    n.idx < g1.nodes.slots.length ∧ n.version < g1.nodes.versionAt n.idx := by
  have hmain : ∀ (gm : SimpleMapGraph N E) r1 nodes1,
      gm.nodes.remove n = (r1, nodes1) → r1 = some v →
      n.idx < nodes1.slots.length ∧ n.version < nodes1.versionAt n.idx := by
    intro gm r1 nodes1 hrm hr1
    rw [hr1] at hrm
    obtain ⟨hget, hn1⟩ := slotmap_remove_some_inv gm.nodes n v nodes1 hrm
    have hlt := slotmap_get_some_lt gm.nodes n v hget
    rw [hn1]
    refine ⟨by simp only [List.length_set]; exact hlt, ?_⟩
    unfold SlotMap.versionAt
    simp only
    rw [List.getElem?_set_self hlt]
    show n.version < n.version + 1
    omega
  unfold SimpleMapGraph.remove_node at hrem
  by_cases hD : DIRECTED = true
  · rw [if_pos hD] at hrem
    simp only [] at hrem
    cases hr : SimpleMapGraph.removeEdgesUnchecked true g
        ((g.edges.entries.filter
          (fun q => q.2.dst = n ∨ q.2.src = n)).map (fun q => q.1)) with
    | none => rw [hr] at hrem; exact Option.noConfusion hrem
    | some gm =>
      simp only [hr] at hrem
      cases hrm : gm.nodes.remove n with
      | mk r1 nodes1 =>
        cases r1 with
        | some w =>
          simp only [hrm] at hrem
          injection hrem with hrem
          rw [Prod.mk.injEq] at hrem
          obtain ⟨hw, hg1⟩ := hrem
          injection hw with hw
          rw [← hg1]
          exact hmain gm (some w) nodes1 hrm (by rw [hw])
        | none =>
          simp only [hrm] at hrem
          injection hrem with hrem
          rw [Prod.mk.injEq] at hrem
          exact absurd hrem.1 (by simp)
  · rw [if_neg hD] at hrem
    cases he : SimpleMapGraph.edges_of g n with
    | none => rw [he] at hrem; exact Option.noConfusion hrem
    | some list =>
      simp only [he] at hrem
      cases hr : SimpleMapGraph.removeEdgesUnchecked false g
          (list.map (fun q => q.2)) with
      | none => rw [hr] at hrem; exact Option.noConfusion hrem
      | some gm =>
        simp only [hr] at hrem
        cases hrm : gm.nodes.remove n with
        | mk r1 nodes1 =>
          cases r1 with
          | some w =>
            simp only [hrm] at hrem
            injection hrem with hrem
            rw [Prod.mk.injEq] at hrem
            obtain ⟨hw, hg1⟩ := hrem
            injection hw with hw
            rw [← hg1]
            exact hmain gm (some w) nodes1 hrm (by rw [hw])
          | none =>
            simp only [hrm] at hrem
            injection hrem with hrem
            rw [Prod.mk.injEq] at hrem
            exact absurd hrem.1 (by simp)


theorem slotmap_insert_get_self {A : Type} (m : SlotMap A) (v : A) :
    (m.insert v).2.get (m.insert v).1 = some v := by
  unfold SlotMap.insert
  cases hf : m.free with
  | nil =>
    simp only
    rw [slotmap_get_eq]
    simp only
    rw [list_getElem?_append_singleton, if_pos rfl]
    rfl
  | cons j rest =>
    cases hs : m.slots[j]? with
    | some s =>
      simp only [hs]
      have hj : j < m.slots.length := by
        by_contra hge
        rw [List.getElem?_eq_none (Nat.le_of_not_lt hge)] at hs
        exact Option.noConfusion hs
      rw [slotmap_get_eq]
      simp only
      rw [List.getElem?_set_self hj]
      simp only [Option.some_bind, if_pos rfl]
      rw [if_pos trivial]
    | none =>
      simp only [hs]
      rw [slotmap_get_eq]
      simp only
      rw [list_getElem?_append_singleton, if_pos rfl]
      rfl


/-! ## Claim theorems -/

/-- C1: for the 4-node directed simple map graph with payloads `0,1,2,3`
and edges `0→1, 0→2, 1→2, 2→0, 2→3`, a BFS started at node `0` yields the
payloads in the order `[0, 2, 1, 3]` — four advances returning a value (the
size of the reachable component), followed by the terminal "no more nodes"
result. -/
theorem claim_c1_bfs_basic_scenario :
    bfsTestRun = [some (some 0), some (some 2), some (some 1), some (some 3), none] := by
  decide

/-- C3: on a simple map graph (directed or undirected), inserting an edge
between equal handles always fails with the loop error
(`EdgeBetweenSameNode`, the spec's `Loop`) and leaves the graph unchanged —
whether or not the handle is live, since the `src == dst` check is the very
first one. -/
theorem claim_c3_self_loop_always_rejected {N E : Type} (DIRECTED : Bool)
    (g : SimpleMapGraph N E) (a : NodeIdx) (v : E) :
    SimpleMapGraph.new_edge DIRECTED g a a v = (.error (.EdgeBetweenSameNode a), g) := by
  cases DIRECTED <;> simp [SimpleMapGraph.new_edge]

/-- C2 (counterexample): on the directed simple map graph, with `src = dst`
a handle that is *absent*, `new_edge` does not return the node-not-found
error the claim demands — the loop check fires first. -/
theorem claim_c2_counterexample :
    (SimpleMapGraph.new_edge true (SimpleMapGraph.new : SimpleMapGraph Nat Nat)
        ⟨0, 1⟩ ⟨0, 1⟩ 0).1 = .error (.EdgeBetweenSameNode ⟨0, 1⟩) ∧
    (SimpleMapGraph.new : SimpleMapGraph Nat Nat).has_node ⟨0, 1⟩ = false ∧
    isNodeNotFoundErr (SimpleMapGraph.new_edge true
        (SimpleMapGraph.new : SimpleMapGraph Nat Nat) ⟨0, 1⟩ ⟨0, 1⟩ 0).1 = false :=
  ⟨rfl, rfl, rfl⟩

/-- C5: the map-encoded multigraph's `remove_node` and `degree` are
`todo!()` placeholders — on a live node both panic instead of returning the
payload / the degree. -/
theorem claim_c5_todo_methods_panic :
    c5Graph.has_node c5Node = true ∧
    c5Graph.remove_node c5Node = none ∧
    c5Graph.degree c5Node = none := by
  decide

/-- C9: `remove_node` on an absent handle panics on the undirected simple
map graph (the `unwrap` inside `edges_of` fires) instead of reporting the
absent node, while the directed branch of the very same method reports
`NodeIdxDoesntExist` without touching the graph. -/
theorem claim_c9_remove_absent_panics :
    (SimpleMapGraph.new : SimpleMapGraph Nat Nat).has_node ⟨0, 1⟩ = false ∧
    SimpleMapGraph.remove_node false (SimpleMapGraph.new : SimpleMapGraph Nat Nat)
      ⟨0, 1⟩ = none ∧
    SimpleMapGraph.remove_node true (SimpleMapGraph.new : SimpleMapGraph Nat Nat)
      ⟨0, 1⟩ = some (.error (.NodeIdxDoesntExist ⟨0, 1⟩), SimpleMapGraph.new) :=
  ⟨rfl, rfl, rfl⟩

/-- C4: on the undirected list multigraph, removing a live node that
carries a self-loop panics: `edges_of` lists the loop handle twice, so the
second `remove_edge_unchecked` of the cascade runs on an already-freed
handle.  (The removal itself, its payload return and the edge-count
arithmetic therefore cannot hold on every variant.) -/
theorem claim_c4_selfloop_cascade_panics :
    c4Graph.has_node c4Node = true ∧
    (c4Graph.edges_of c4Node).length = 2 ∧
    c4Graph.remove_node c4Node = none :=
  ⟨rfl, rfl, rfl⟩


/-- C8: for a fixed (unmutated) adjacency function and any start node, BFS
yields each node at most once and keeps its queue duplicate-free at all
times (marking before enqueueing); and given any finite superset `S` of the
component that is closed under adjacency, after enough advances the yielded
nodes are exactly the reachable component, their number is the component's
size, and the traversal is terminal: every further advance returns the
"no more nodes" result and leaves the state unchanged. -/
theorem claim_c8_bfs_visits_each_reachable_once
    (edgesOf : NodeIdx → List (NodeIdx × EdgeIdx)) (start : NodeIdx)
    (S : Finset KeyData) (hstart : start ∈ S)
    (hcl : ∀ a ∈ S, ∀ p ∈ edgesOf a, p.1 ∈ S) :
    (∀ fuel,
      (BreadthFirstSearch.runPop edgesOf fuel (BreadthFirstSearch.new start)).1.Nodup ∧
      (BreadthFirstSearch.runPop edgesOf fuel (BreadthFirstSearch.new start)).2.queue.Nodup) ∧
    (∀ fuel, S.card + 1 ≤ fuel →
      (∀ x, x ∈ (BreadthFirstSearch.runPop edgesOf fuel (BreadthFirstSearch.new start)).1 ↔
        Reaches edgesOf start x) ∧
      (BreadthFirstSearch.runPop edgesOf fuel (BreadthFirstSearch.new start)).1.length
        = Set.ncard {x | Reaches edgesOf start x} ∧
      BreadthFirstSearch.popStep edgesOf
          (BreadthFirstSearch.runPop edgesOf fuel (BreadthFirstSearch.new start)).2
        = (none,
          (BreadthFirstSearch.runPop edgesOf fuel (BreadthFirstSearch.new start)).2)) := by
  have hinv0 := bfs_inv_init edgesOf start
  constructor
  · intro fuel
    have h := bfs_runPop_inv edgesOf start fuel [] _ hinv0
    simp only [List.nil_append] at h
    exact ⟨h.oNodup, h.qNodup⟩
  · intro fuel hfuel
    have h := bfs_runPop_inv edgesOf start fuel [] _ hinv0
    simp only [List.nil_append] at h
    have hterm := bfs_runPop_terminal edgesOf start S hstart hcl fuel []
      _ hinv0 (by simpa using hfuel)
    have hiff := fun x => bfs_final_mem edgesOf start _ _ h hterm x
    refine ⟨hiff, ?_, ?_⟩
    · have hset : {x | Reaches edgesOf start x} =
          ((BreadthFirstSearch.runPop edgesOf fuel
            (BreadthFirstSearch.new start)).1.toFinset : Set KeyData) := by
        ext x
        simp only [Set.mem_setOf_eq, Finset.coe_sort_coe, Finset.mem_coe,
          List.mem_toFinset]
        exact (hiff x).symm
      rw [hset, Set.ncard_coe_Finset, List.toFinset_card_of_nodup h.oNodup]
    · unfold BreadthFirstSearch.popStep
      rw [hterm]

/-- Witness for C8: the one-node graph with no edges. -/
theorem claim_c8_bfs_visits_each_reachable_once_witness :
    (∀ fuel,
      (BreadthFirstSearch.runPop (fun _ => []) fuel
        (BreadthFirstSearch.new ⟨0, 1⟩)).1.Nodup ∧
      (BreadthFirstSearch.runPop (fun _ => []) fuel
        (BreadthFirstSearch.new ⟨0, 1⟩)).2.queue.Nodup) ∧
    (∀ fuel, ({(⟨0, 1⟩ : KeyData)} : Finset KeyData).card + 1 ≤ fuel →
      (∀ x, x ∈ (BreadthFirstSearch.runPop (fun _ => []) fuel
          (BreadthFirstSearch.new ⟨0, 1⟩)).1 ↔
        Reaches (fun _ => []) ⟨0, 1⟩ x) ∧
      (BreadthFirstSearch.runPop (fun _ => []) fuel
          (BreadthFirstSearch.new ⟨0, 1⟩)).1.length
        = Set.ncard {x | Reaches (fun _ => []) ⟨0, 1⟩ x} ∧
      BreadthFirstSearch.popStep (fun _ => [])
          (BreadthFirstSearch.runPop (fun _ => []) fuel
            (BreadthFirstSearch.new ⟨0, 1⟩)).2
        = (none,
          (BreadthFirstSearch.runPop (fun _ => []) fuel
            (BreadthFirstSearch.new ⟨0, 1⟩)).2)) :=
  claim_c8_bfs_visits_each_reachable_once (fun _ => []) ⟨0, 1⟩ {⟨0, 1⟩}
    (by decide) (by intro a ha p hp; cases hp)


/-- **C7.** For every simple map graph reachable from `new()` by public
operations, there is at most one edge between any ordered (directed) or
unordered (undirected) pair of nodes and no self-loop edge; and after a
successful `new_edge(a,b,_)`, a second `new_edge(a,b,_)` (and
`new_edge(b,a,_)` when undirected) returns `EdgeBetweenAlreadyExists`
(the spec's DuplicateEdge), the undirected insertion having recorded the
edge in both endpoints' adjacency records. -/
theorem claim_c7_simple_edge_uniqueness {N E : Type} (DIRECTED : Bool)
    (g : SimpleMapGraph N E) (h : ReachableS DIRECTED g) :
    (∀ e1 e2 ed1 ed2, g.edges.get e1 = some ed1 → g.edges.get e2 = some ed2 →
      endpointsMatch DIRECTED ed2.src ed2.dst ed1 → e1 = e2) ∧
    (∀ e ed, g.edges.get e = some ed → ed.src ≠ ed.dst) ∧
    (∀ a b v v2 e g1, SimpleMapGraph.new_edge DIRECTED g a b v = (.ok e, g1) →
      (SimpleMapGraph.new_edge DIRECTED g1 a b v2).1 =
        .error (.EdgeBetweenAlreadyExists a b) ∧
      (DIRECTED = false →
        (SimpleMapGraph.new_edge DIRECTED g1 b a v2).1 =
          .error (.EdgeBetweenAlreadyExists b a))) := by
  have swf := reachable_swf DIRECTED g h
  refine ⟨?_, swf.edgeLoop, ?_⟩
  · intro e1 e2 ed1 ed2 hed1 hed2 hmat
    cases DIRECTED with
    | true =>
      obtain ⟨hs, hd⟩ : ed1.src = ed2.src ∧ ed1.dst = ed2.dst := by
        simpa [endpointsMatch] using hmat
      obtain ⟨m, hm, hmem2⟩ := swf.edgeSrc e2 ed2 hed2
      obtain ⟨m1, hm1, hmem1⟩ := swf.edgeSrc e1 ed1 hed1
      rw [hs, hm] at hm1
      injection hm1 with hme
      subst hme
      rw [hd] at hmem1
      exact alist_mem_eq_of_nodup m ed2.dst e1 e2
        (swf.recNodup ed2.src m hm) hmem1 hmem2
    | false =>
      simp only [endpointsMatch, if_neg Bool.false_ne_true] at hmat
      rcases hmat with ⟨hs, hd⟩ | ⟨hs, hd⟩
      · obtain ⟨m, hm, hmem2⟩ := swf.edgeSrc e2 ed2 hed2
        obtain ⟨m1, hm1, hmem1⟩ := swf.edgeSrc e1 ed1 hed1
        rw [hs, hm] at hm1
        injection hm1 with hme
        subst hme
        rw [hd] at hmem1
        exact alist_mem_eq_of_nodup m ed2.dst e1 e2
          (swf.recNodup ed2.src m hm) hmem1 hmem2
      · obtain ⟨m, hm, hmem2⟩ := swf.edgeDst e2 ed2 hed2 rfl
        obtain ⟨m1, hm1, hmem1⟩ := swf.edgeSrc e1 ed1 hed1
        rw [hs, hm] at hm1
        injection hm1 with hme
        subst hme
        rw [hd] at hmem1
        exact alist_mem_eq_of_nodup m ed2.src e1 e2
          (swf.recNodup ed2.dst m hm) hmem1 hmem2
  · intro a b v v2 e g1 hok
    obtain ⟨hab, ⟨m1, hm1, hck1⟩, hundir⟩ :=
      new_edge_ok_dup_state DIRECTED g a b v e g1 hok
    constructor
    · rw [new_edge_eq_dup DIRECTED g1 a b v2 m1 hab hm1 hck1]
    · intro hD
      subst hD
      obtain ⟨m2, hm2, hck2⟩ := hundir rfl
      rw [new_edge_eq_dup false g1 b a v2 m2 (fun hba => hab hba.symm) hm2 hck2]

/-- Witness for C7: on a concrete two-node directed graph, the first edge
insertion succeeds and repeating it returns `EdgeBetweenAlreadyExists`. -/
theorem claim_c7_simple_edge_uniqueness_witness :
    (SimpleMapGraph.new_edge true
        (((SimpleMapGraph.new : SimpleMapGraph Nat Nat).new_node
          10).2.new_node 11).2 ⟨0, 1⟩ ⟨1, 1⟩ 5).1 = .ok ⟨0, 1⟩ ∧
    (SimpleMapGraph.new_edge true
        (SimpleMapGraph.new_edge true
          (((SimpleMapGraph.new : SimpleMapGraph Nat Nat).new_node
            10).2.new_node 11).2 ⟨0, 1⟩ ⟨1, 1⟩ 5).2 ⟨0, 1⟩ ⟨1, 1⟩ 7).1 =
      .error (.EdgeBetweenAlreadyExists ⟨0, 1⟩ ⟨1, 1⟩) :=
  ⟨rfl,
    ((claim_c7_simple_edge_uniqueness true
      (((SimpleMapGraph.new : SimpleMapGraph Nat Nat).new_node
        10).2.new_node 11).2
      (ReachableS.new_node _ 11 (ReachableS.new_node _ 10
        ReachableS.new))).2.2 ⟨0, 1⟩ ⟨1, 1⟩ 5 7 ⟨0, 1⟩ _ rfl).1⟩


/-- **C2 (amended).** For the map-encoded simple graph, directed or
undirected, reachable from `new()`: whenever `src ≠ dst` and at least one
endpoint is absent, `new_edge` returns `NodeIdxDoesntExist` (the spec's
NodeNotFound) carrying the handle of an absent endpoint and leaves the
graph unchanged.  (The unamended claim fails because the `src == dst`
check precedes the liveness check, see the counterexample.) -/
theorem claim_c2_absent_endpoint_reported {N E : Type} (DIRECTED : Bool)
    (g : SimpleMapGraph N E) (h : ReachableS DIRECTED g) (src dst : NodeIdx)
    (v : E) (hne : src ≠ dst)
    (habs : g.has_node src = false ∨ g.has_node dst = false) :
    ∃ i, (SimpleMapGraph.new_edge DIRECTED g src dst v).1 =
        .error (.NodeIdxDoesntExist i) ∧
      g.has_node i = false ∧ (i = src ∨ i = dst) ∧
      (SimpleMapGraph.new_edge DIRECTED g src dst v).2 = g := by
  have swf := reachable_swf DIRECTED g h
  by_cases hsrc : g.has_node src = false
  · have hlive := swf.adjLive src
    rw [show g.nodes.containsKey src = g.has_node src from rfl, hsrc] at hlive
    have hnone : SecMap.get g.adjacencies src = none := by
      cases hopt : SecMap.get g.adjacencies src with
      | none => rfl
      | some m => rw [hopt] at hlive; simp at hlive
    rw [new_edge_eq_nosrc DIRECTED g src dst v hne hnone]
    exact ⟨src, rfl, hsrc, Or.inl rfl, rfl⟩
  · have hsrcT : g.has_node src = true := by
      cases hb : g.has_node src with
      | false => exact absurd hb hsrc
      | true => rfl
    have hdst : g.has_node dst = false := habs.resolve_left hsrc
    have hlive := swf.adjLive src
    rw [show g.nodes.containsKey src = g.has_node src from rfl, hsrcT] at hlive
    obtain ⟨ma, hma⟩ : ∃ ma, SecMap.get g.adjacencies src = some ma := by
      cases hopt : SecMap.get g.adjacencies src with
      | none => rw [hopt] at hlive; simp at hlive
      | some m => exact ⟨m, rfl⟩
    have hck : AList.containsKey ma dst = false := by
      cases hc : AList.containsKey ma dst with
      | false => rfl
      | true =>
        exfalso
        obtain ⟨e, hmem⟩ := (alist_containsKey_iff ma dst).mp hc
        obtain ⟨ed, hed, hmat⟩ := swf.recMatch src ma hma (dst, e) hmem
        have hends := swf.edgeEnds e ed hed
        have hdlive : g.nodes.containsKey dst = true := by
          cases DIRECTED with
          | true =>
            obtain ⟨_, hd2⟩ : ed.src = src ∧ ed.dst = dst := by
              simpa [endpointsMatch] using hmat
            rw [← hd2]
            exact hends.2
          | false =>
            simp only [endpointsMatch, if_neg Bool.false_ne_true] at hmat
            rcases hmat with ⟨_, hd2⟩ | ⟨hs2, _⟩
            · rw [← hd2]; exact hends.2
            · rw [← hs2]; exact hends.1
        rw [show g.nodes.containsKey dst = g.has_node dst from rfl, hdst]
          at hdlive
        cases hdlive
    cases DIRECTED with
    | true =>
      rw [new_edge_true_eq_nodst g src dst v ma hne hma hck hdst]
      exact ⟨dst, rfl, hdst, Or.inr rfl, rfl⟩
    | false =>
      have hlive2 := swf.adjLive dst
      rw [show g.nodes.containsKey dst = g.has_node dst from rfl, hdst]
        at hlive2
      have hmb : SecMap.get g.adjacencies dst = none := by
        cases hopt : SecMap.get g.adjacencies dst with
        | none => rfl
        | some m => rw [hopt] at hlive2; simp at hlive2
      rw [new_edge_false_eq_nodst g src dst v ma hne hma hck hmb]
      exact ⟨dst, rfl, hdst, Or.inr rfl, rfl⟩

/-- Witness for C2 (amended): on the empty graph, adding an edge between
two distinct dangling handles reports an absent endpoint and leaves the
graph unchanged. -/
theorem claim_c2_absent_endpoint_reported_witness :
    (⟨0, 1⟩ : NodeIdx) ≠ ⟨1, 1⟩ ∧
    ((SimpleMapGraph.new : SimpleMapGraph Nat Nat).has_node ⟨0, 1⟩ = false ∨
      (SimpleMapGraph.new : SimpleMapGraph Nat Nat).has_node ⟨1, 1⟩ = false) ∧
    ∃ i, (SimpleMapGraph.new_edge true (SimpleMapGraph.new : SimpleMapGraph Nat Nat)
        ⟨0, 1⟩ ⟨1, 1⟩ 5).1 = .error (.NodeIdxDoesntExist i) ∧
      (SimpleMapGraph.new : SimpleMapGraph Nat Nat).has_node i = false ∧
      (i = ⟨0, 1⟩ ∨ i = ⟨1, 1⟩) ∧
      (SimpleMapGraph.new_edge true (SimpleMapGraph.new : SimpleMapGraph Nat Nat)
        ⟨0, 1⟩ ⟨1, 1⟩ 5).2 = SimpleMapGraph.new :=
  ⟨by decide, Or.inl rfl,
    claim_c2_absent_endpoint_reported true SimpleMapGraph.new ReachableS.new
      ⟨0, 1⟩ ⟨1, 1⟩ 5 (by decide) (Or.inl rfl)⟩


/-- **C6.** For the undirected graphs with both operations — the map-encoded
simple graph (`edge_between`) and the map-encoded multigraph
(`contains_edge_between`) — and live nodes `a`, `b`: the edge query is
symmetric in `a` and `b`; and after `remove_edge` of a live edge `e`
connecting `a` and `b`, `e`'s handle appears in neither `a`'s nor `b`'s
adjacency record (the conclusion covers every surviving record, in
particular both endpoints'). -/
theorem claim_c6_undirected_symmetry {N E : Type}
    (gS : SimpleMapGraph N E) (hS : ReachableS false gS)
    (gM : MultiMapGraph N E) (hM : ReachableM gM) :
    (∀ a b, gS.has_node a = true → gS.has_node b = true →
      gS.edge_between a b = gS.edge_between b a) ∧
    (∀ e ed r g2, gS.edges.get e = some ed →
      SimpleMapGraph.remove_edge false gS e = (r, g2) →
      ∀ x m, SecMap.get g2.adjacencies x = some m → ∀ p ∈ m, p.2 ≠ e) ∧
    (∀ a b, gM.has_node a = true → gM.has_node b = true →
      gM.contains_edge_between a b = gM.contains_edge_between b a) ∧
    (∀ e ed r g2, gM.edges.get e = some ed →
      MultiMapGraph.remove_edge gM e = some (r, g2) →
      ∀ x st, SecMap.get g2.adjacencies x = some st →
        ∀ p ∈ st.outgoing, e ∉ p.2) := by
  have hswf := reachable_swf false gS hS
  have hmwf := reachable_mwf gM hM
  refine ⟨?_, ?_, ?_, ?_⟩
  · intro a b ha hb
    obtain ⟨ma, hma⟩ : ∃ ma, SecMap.get gS.adjacencies a = some ma := by
      have hlive := hswf.adjLive a
      rw [show gS.nodes.containsKey a = gS.has_node a from rfl, ha] at hlive
      exact Option.isSome_iff_exists.mp hlive
    obtain ⟨mb, hmb⟩ : ∃ mb, SecMap.get gS.adjacencies b = some mb := by
      have hlive := hswf.adjLive b
      rw [show gS.nodes.containsKey b = gS.has_node b from rfl, hb] at hlive
      exact Option.isSome_iff_exists.mp hlive
    unfold SimpleMapGraph.edge_between
    simp only [hma, hmb]
    have hget := swf_alist_get_symm gS hswf a b ma mb hma hmb
    have hcon : AList.containsKey ma b = AList.containsKey mb a := by
      rw [alist_containsKey_eq_isSome_get, alist_containsKey_eq_isSome_get,
        hget]
    rw [hget, hcon]
  · intro e ed r g2 hge hrem
    have hc : gS.edges.containsKey e = true := by
      unfold SlotMap.containsKey
      rw [hge]
      rfl
    obtain ⟨g2b, heq1, _, _, _, _, _, hsurv⟩ :=
      swf_remove_edge_unchecked false gS e ed hswf hge
    unfold SimpleMapGraph.remove_edge at hrem
    rw [if_pos hc] at hrem
    simp only [heq1] at hrem
    have hgg := congrArg Prod.snd hrem
    simp only [] at hgg
    intro x m hx p hp
    rw [← hgg] at hx
    exact (hsurv x m p hx hp).1
  · intro a b ha hb
    obtain ⟨ma, hma⟩ : ∃ ma, SecMap.get gM.adjacencies a =
        some (.Undirected ma) := by
      have hlive := hmwf.adjLive a
      rw [show gM.nodes.containsKey a = gM.has_node a from rfl, ha] at hlive
      obtain ⟨st, hst⟩ := Option.isSome_iff_exists.mp hlive
      obtain ⟨ma, hu⟩ := hmwf.adjUndir a st hst
      exact ⟨ma, by rw [hst, hu]⟩
    obtain ⟨mb, hmb⟩ : ∃ mb, SecMap.get gM.adjacencies b =
        some (.Undirected mb) := by
      have hlive := hmwf.adjLive b
      rw [show gM.nodes.containsKey b = gM.has_node b from rfl, hb] at hlive
      obtain ⟨st, hst⟩ := Option.isSome_iff_exists.mp hlive
      obtain ⟨mb, hu⟩ := hmwf.adjUndir b st hst
      exact ⟨mb, by rw [hst, hu]⟩
    unfold MultiMapGraph.contains_edge_between
    simp only [hma, hmb, AdjacencyStorage.outgoing]
    rw [hmwf.keySym a b ma mb hma hmb]
  · intro e ed r g2 hge hrem x st hst p hp
    obtain ⟨hmwf2, hdead⟩ := mwf_remove_edge gM e r g2 hmwf hrem
    obtain ⟨mm, hu⟩ := hmwf2.adjUndir x st hst
    subst hu
    simp only [AdjacencyStorage.outgoing] at hp
    have hget : AList.get mm p.1 = some p.2 :=
      alist_get_eq_some_of_mem mm p.1 p.2 (hmwf2.recNodup x mm hst)
        (by simpa using hp)
    have hcount := hmwf2.edgeOcc x mm hst p.1 p.2 hget e
    have hzero : expCountU g2 x p.1 e = 0 := by
      unfold expCountU
      rw [hdead]
    rw [hzero] at hcount
    exact (countIdx_eq_zero p.2 e).mp hcount

/-- Witness for C6: both symmetry clauses evaluated on concrete two-node,
one-edge undirected graphs. -/
theorem claim_c6_undirected_symmetry_witness :
    c6SimpleGraph.edge_between ⟨0, 1⟩ ⟨1, 1⟩ =
      c6SimpleGraph.edge_between ⟨1, 1⟩ ⟨0, 1⟩ ∧
    c6MultiGraph.contains_edge_between ⟨0, 1⟩ ⟨1, 1⟩ =
      c6MultiGraph.contains_edge_between ⟨1, 1⟩ ⟨0, 1⟩ :=
  ⟨(claim_c6_undirected_symmetry c6SimpleGraph
      (ReachableS.new_edge _ ⟨0, 1⟩ ⟨1, 1⟩ 5
        (ReachableS.new_node _ 11 (ReachableS.new_node _ 10 ReachableS.new)))
      c6MultiGraph
      (ReachableM.try_add_edge _ ⟨0, 1⟩ ⟨1, 1⟩ 5
        (ReachableM.add_node _ 11 (ReachableM.add_node _ 10
          ReachableM.new)))).1 ⟨0, 1⟩ ⟨1, 1⟩ (by decide) (by decide),
   (claim_c6_undirected_symmetry c6SimpleGraph
      (ReachableS.new_edge _ ⟨0, 1⟩ ⟨1, 1⟩ 5
        (ReachableS.new_node _ 11 (ReachableS.new_node _ 10 ReachableS.new)))
      c6MultiGraph
      (ReachableM.try_add_edge _ ⟨0, 1⟩ ⟨1, 1⟩ 5
        (ReachableM.add_node _ 11 (ReachableM.add_node _ 10
          ReachableM.new)))).2.2.1 ⟨0, 1⟩ ⟨1, 1⟩ (by decide) (by decide)⟩


/-- **C10.** For the simple map graph (the graph whose `remove_node` can
succeed): once `remove_node(nd)` has returned the payload, `has_node nd` is
`false` and `get_node nd` reports `NodeIdxDoesntExist` (the spec's absent
result) after *every* subsequent sequence of public operations, and any
later `new_node` — even one reusing `nd`'s slot — returns a handle unequal
to `nd`: the slot's generation counter only ever grows past `nd`'s stamp. -/
theorem claim_c10_stale_handle_detection {N E : Type} (DIRECTED : Bool)
    (g : SimpleMapGraph N E) (nd : NodeIdx) (v : N) (g1 : SimpleMapGraph N E)
    (hrem : SimpleMapGraph.remove_node DIRECTED g nd = some (.ok v, g1))
    (ops : List (SimpleOp N E)) :
    (applySimpleOps DIRECTED g1 ops).has_node nd = false ∧
    (applySimpleOps DIRECTED g1 ops).get_node nd =
      .error (.NodeIdxDoesntExist nd) ∧
    ∀ w, ((applySimpleOps DIRECTED g1 ops).new_node w).1 ≠ nd := by
  obtain ⟨h1, h2⟩ := remove_node_ok_stale DIRECTED g nd v g1 hrem
  obtain ⟨h1b, h2b⟩ := applySimpleOps_stale DIRECTED ops g1 nd h1 h2
  have hget : (applySimpleOps DIRECTED g1 ops).nodes.get nd = none :=
    slotmap_stale_get_none _ nd h1b h2b
  have hcon : (applySimpleOps DIRECTED g1 ops).nodes.containsKey nd = false := by
    unfold SlotMap.containsKey
    rw [hget]
    rfl
  refine ⟨hcon, ?_, ?_⟩
  · unfold SimpleMapGraph.get_node
    rw [hcon, if_neg Bool.false_ne_true]
  · intro w heq2
    have hlive := slotmap_insert_get_self
      (applySimpleOps DIRECTED g1 ops).nodes w
    obtain ⟨hmi1, hmi2⟩ := slotmap_insert_mono
      (applySimpleOps DIRECTED g1 ops).nodes w nd.idx h1b
    have hnone := slotmap_stale_get_none
      ((applySimpleOps DIRECTED g1 ops).nodes.insert w).2 nd hmi1
      (Nat.lt_of_lt_of_le h2b hmi2)
    rw [show ((applySimpleOps DIRECTED g1 ops).new_node w).1 =
      ((applySimpleOps DIRECTED g1 ops).nodes.insert w).1 from rfl] at heq2
    rw [heq2, hnone] at hlive
    exact Option.noConfusion hlive

/-- Witness for C10: a one-node graph, the node removed, then a fresh
`new_node` reusing the slot; the stale handle `(0, gen 1)` stays dead. -/
theorem claim_c10_stale_handle_detection_witness :
    ∃ g1 : SimpleMapGraph Nat Nat,
      SimpleMapGraph.remove_node false
        ((SimpleMapGraph.new : SimpleMapGraph Nat Nat).new_node 10).2 ⟨0, 1⟩ =
        some (.ok 10, g1) ∧
      ((applySimpleOps false g1 [SimpleOp.newNode 20]).has_node ⟨0, 1⟩ =
        false ∧
      (applySimpleOps false g1 [SimpleOp.newNode 20]).get_node ⟨0, 1⟩ =
        .error (.NodeIdxDoesntExist ⟨0, 1⟩) ∧
      ∀ w, ((applySimpleOps false g1 [SimpleOp.newNode 20]).new_node w).1 ≠
        ⟨0, 1⟩) :=
  ⟨_, rfl, claim_c10_stale_handle_detection false
    ((SimpleMapGraph.new : SimpleMapGraph Nat Nat).new_node 10).2 ⟨0, 1⟩ 10 _
    rfl [SimpleOp.newNode 20]⟩

end BevyGraph
